import Mathlib

/-!
# ComplexSolver: a verification development

A shallow embedding of `src/main.c` (a complex linear-system solver for a
calculator) together with theorems about it.

Conventions of the embedding:

* `float` values are rationals. The first layer computes in the exact field
  `ℚ`, and the statements about it are statements about exact arithmetic. The
  part *Float arithmetic* gives the same source lines with the rounding of
  every float operation made explicit (`fl32` is the rounding to IEEE 754
  binary32) and the evaluator over an arbitrary float arithmetic `Arith F`;
  the claims whose truth depends on rounding are settled over both.
* The global arrays `A`, `M` (5 x 6) and `X` (5) are total maps from indices
  to values; the solver only touches rows `< n` and columns `<= n`, which are
  in range for `2 <= n <= 5`.
* The parse cursor `p_str` is the list of bytes that remain to be read; the
  terminating NUL is the end of the list (`peek` of the empty list is `0`),
  and a `0` inside the list stops the parser in the same way.
* The mutually recursive parser functions carry a fuel argument and return
  `none` when it runs out; `fuelFor` gives an amount that always suffices.
* The C library functions the parser calls (`sqrtf`, `sinf`, `cosf`, `tanf`,
  `logf`, `log10f`, `powf`) are a parameter `Libm` of the parser.
-/

namespace ComplexSolver

/-! ## Complex arithmetic (`main.c`, lines 12-39) -/

/-- The value type `complex_t`: a real and an imaginary part. -/
structure complex_t where
  r : ℚ
  i : ℚ
deriving DecidableEq

/-- Source `c_sub`: componentwise difference. -/
def c_sub (a b : complex_t) : complex_t := ⟨a.r - b.r, a.i - b.i⟩

/-- Source `c_add`: componentwise sum. -/
def c_add (a b : complex_t) : complex_t := ⟨a.r + b.r, a.i + b.i⟩

/-- Source `c_mul`: the cross-term product. -/
def c_mul (a b : complex_t) : complex_t :=
  ⟨a.r * b.r - a.i * b.i, a.r * b.i + a.i * b.r⟩

/-- Source `c_div`: quotient by the conjugate formula, with the value
`(0, 0)` when the squared modulus `d` of the denominator is `0`. Over the exact
field; `c_div_fl` is the same function with the rounding of each float
operation, under which `d` can vanish for a non-zero denominator and the
quotient is rounded. -/
def c_div (a b : complex_t) : complex_t :=
  let d := b.r * b.r + b.i * b.i
  if d = 0 then ⟨0, 0⟩
  else ⟨(a.r * b.r + a.i * b.i) / d, (a.i * b.r - a.r * b.i) / d⟩

/-! ### Ring structure on `complex_t`

The operations `c_add`, `c_sub`, `c_mul` make `complex_t` a commutative ring;
the instance lets the proofs about the solver use finite sums and `ring`. -/

instance : Zero complex_t := ⟨⟨0, 0⟩⟩
instance : One complex_t := ⟨⟨1, 0⟩⟩
instance : Add complex_t := ⟨c_add⟩
instance : Mul complex_t := ⟨c_mul⟩
instance : Neg complex_t := ⟨fun a => ⟨-a.r, -a.i⟩⟩
instance : Sub complex_t := ⟨c_sub⟩

instance : CommRing complex_t where
  add_assoc a b c := by
    show complex_t.mk _ _ = complex_t.mk _ _
    congr 1 <;> exact add_assoc _ _ _
  zero_add a := by
    show complex_t.mk _ _ = a
    cases a; congr 1 <;> exact zero_add _
  add_zero a := by
    show complex_t.mk _ _ = a
    cases a; congr 1 <;> exact add_zero _
  add_comm a b := by
    show complex_t.mk _ _ = complex_t.mk _ _
    congr 1 <;> exact add_comm _ _
  neg_add_cancel a := by
    show complex_t.mk _ _ = complex_t.mk _ _
    congr 1 <;> exact neg_add_cancel _
  sub_eq_add_neg a b := by
    show complex_t.mk _ _ = complex_t.mk _ _
    congr 1 <;> exact sub_eq_add_neg _ _
  nsmul := nsmulRec
  zsmul := zsmulRec
  left_distrib a b c := by
    show complex_t.mk (a.r * (b.r + c.r) - a.i * (b.i + c.i))
        (a.r * (b.i + c.i) + a.i * (b.r + c.r))
      = complex_t.mk ((a.r * b.r - a.i * b.i) + (a.r * c.r - a.i * c.i))
        ((a.r * b.i + a.i * b.r) + (a.r * c.i + a.i * c.r))
    congr 1 <;> ring
  right_distrib a b c := by
    show complex_t.mk ((a.r + b.r) * c.r - (a.i + b.i) * c.i)
        ((a.r + b.r) * c.i + (a.i + b.i) * c.r)
      = complex_t.mk ((a.r * c.r - a.i * c.i) + (b.r * c.r - b.i * c.i))
        ((a.r * c.i + a.i * c.r) + (b.r * c.i + b.i * c.r))
    congr 1 <;> ring
  zero_mul a := by
    show complex_t.mk (0 * a.r - 0 * a.i) (0 * a.i + 0 * a.r) = complex_t.mk 0 0
    congr 1 <;> ring
  mul_zero a := by
    show complex_t.mk (a.r * 0 - a.i * 0) (a.r * 0 + a.i * 0) = complex_t.mk 0 0
    congr 1 <;> ring
  mul_assoc a b c := by
    show complex_t.mk ((a.r * b.r - a.i * b.i) * c.r - (a.r * b.i + a.i * b.r) * c.i)
        ((a.r * b.r - a.i * b.i) * c.i + (a.r * b.i + a.i * b.r) * c.r)
      = complex_t.mk (a.r * (b.r * c.r - b.i * c.i) - a.i * (b.r * c.i + b.i * c.r))
        (a.r * (b.r * c.i + b.i * c.r) + a.i * (b.r * c.r - b.i * c.i))
    congr 1 <;> ring
  one_mul a := by
    show complex_t.mk (1 * a.r - 0 * a.i) (1 * a.i + 0 * a.r) = a
    cases a; congr 1 <;> ring
  mul_one a := by
    show complex_t.mk (a.r * 1 - a.i * 0) (a.r * 0 + a.i * 1) = a
    cases a; congr 1 <;> ring
  mul_comm a b := by
    show complex_t.mk (a.r * b.r - a.i * b.i) (a.r * b.i + a.i * b.r)
      = complex_t.mk (b.r * a.r - b.i * a.i) (b.r * a.i + b.i * a.r)
    congr 1 <;> ring

/-! ## The solve step of `solve_and_display` (`main.c`, lines 303-324) -/

/-- The loop `for (i = lo; i < hi; i++) body`, for a body that assigns neither
the counter nor the bound: the body is run for `lo, lo+1, ..., hi-1`. -/
def for_up {σ : Type} (lo hi : Nat) (body : Nat → σ → σ) (s : σ) : σ :=
  (List.range' lo (hi - lo)).foldl (fun acc i => body i acc) s

/-- The loop `for (i = hi - 1; i >= 0; i--) body`: the body is run for
`hi-1, ..., 1, 0`. -/
def for_down {σ : Type} (hi : Nat) (body : Nat → σ → σ) (s : σ) : σ :=
  (List.range hi).foldr body s

/-- The globals the solve step reads or writes: the caller's matrix `A`, the
scratch matrix `M`, the solution vector `X` and the size `n`. -/
structure State where
  A : Nat → Nat → complex_t
  M : Nat → Nat → complex_t
  X : Nat → complex_t
  n : Nat

/-- The assignment `m[j][k] = v`. -/
def set2 (m : Nat → Nat → complex_t) (j k : Nat) (v : complex_t) : Nat → Nat → complex_t :=
  fun a b => if a = j ∧ b = k then v else m a b

/-- The assignment `x[i] = v`. -/
def set1 (x : Nat → complex_t) (i : Nat) (v : complex_t) : Nat → complex_t :=
  fun a => if a = i then v else x a

/-- Lines 309-313: `factor = c_div(M[j][i], M[i][i])`, then for `k = i..n`
`M[j][k] = c_sub(M[j][k], c_mul(factor, M[i][k]))`. -/
def elim_row (i j : Nat) (st : State) : State :=
  let factor := c_div (st.M j i) (st.M i i)
  for_up i (st.n + 1)
    (fun k s => { s with M := set2 s.M j k (c_sub (s.M j k) (c_mul factor (s.M i k))) }) st

/-- Lines 307-314: the loop over the rows `j = i+1 .. n-1` below the pivot row. -/
def elim_column (i : Nat) (st : State) : State :=
  for_up (i + 1) st.n (fun j s => elim_row i j s) st

/-- Lines 305-315: the loop over the pivot rows `i = 0 .. n-1`. -/
def forward_elim (st : State) : State :=
  for_up 0 st.n elim_column st

/-- Lines 318-323: `sum` of `M[i][j] * X[j]` over `j = i+1 .. n-1`, then
`X[i] = c_div(c_sub(M[i][n], sum), M[i][i])`. -/
def back_subst_row (i : Nat) (st : State) : State :=
  let sum := for_up (i + 1) st.n (fun j acc => c_add acc (c_mul (st.M i j) (st.X j))) ⟨0, 0⟩
  { st with X := set1 st.X i (c_div (c_sub (st.M i st.n) sum) (st.M i i)) }

/-- Lines 316-324: the loop over the rows `i = n-1 .. 0`. -/
def back_subst (st : State) : State :=
  for_down st.n back_subst_row st

/-- Lines 303-324: `memcpy(M, A, sizeof(A))`, forward elimination, back
substitution. -/
def solve_step (st : State) : State :=
  back_subst (forward_elim { st with M := st.A })

/-- The state of the solve step when the outer elimination loop reaches `i = k`. -/
def elim_upto (st : State) (k : Nat) : State :=
  for_up 0 k elim_column { st with M := st.A }

/-- The pivot `M[i][i]` as the outer elimination loop meets it at iteration `i`. -/
def pivot (st : State) (i : Nat) : complex_t :=
  (elim_upto st i).M i i

/-- The left-hand side of equation `i`: the sum over `j < n` of `A[i][j] * X[j]`,
accumulated with `c_add` and `c_mul`. -/
def row_sum (A : Nat → Nat → complex_t) (X : Nat → complex_t) (n i : Nat) : complex_t :=
  for_up 0 n (fun j acc => c_add acc (c_mul (A i j) (X j))) ⟨0, 0⟩

/-- A matrix with real entries given by rows (zero outside the rows given). -/
def ofRows (rows : List (List ℚ)) : Nat → Nat → complex_t :=
  fun a b => ⟨(rows.getD a []).getD b 0, 0⟩

/-- The system `x + y = 3`, `2x - y = 0`, with arbitrary prior contents of the
scratch matrix and of the solution vector. -/
def example_state (M0 : Nat → Nat → complex_t) (X0 : Nat → complex_t) : State :=
  ⟨ofRows [[1, 1, 3], [2, -1, 0]], M0, X0, 2⟩

/-- The singular system `x + y = 2`, `x + y = 2`, which has solutions. -/
def singular_consistent_state (M0 : Nat → Nat → complex_t) (X0 : Nat → complex_t) : State :=
  ⟨ofRows [[1, 1, 2], [1, 1, 2]], M0, X0, 2⟩

/-- The singular system `x + y = 1`, `x + y = 2`, which has no solution. -/
def singular_inconsistent_state (M0 : Nat → Nat → complex_t) (X0 : Nat → complex_t) : State :=
  ⟨ofRows [[1, 1, 1], [1, 1, 2]], M0, X0, 2⟩

/-- The system `y = 1`, `x = 1`, with a zero in position (0,0). -/
def swap_state (M0 : Nat → Nat → complex_t) (X0 : Nat → complex_t) : State :=
  ⟨ofRows [[0, 1, 1], [1, 0, 1]], M0, X0, 2⟩

/-! ## The expression evaluator (`main.c`, lines 145-278) -/

/-- The C library functions called by the parser, over the exact field. -/
structure Libm where
  sqrtf : ℚ → ℚ
  sinf : ℚ → ℚ
  cosf : ℚ → ℚ
  tanf : ℚ → ℚ
  logf : ℚ → ℚ
  log10f : ℚ → ℚ
  powf : ℚ → ℚ → ℚ

/-- An instance of `Libm` for closed examples: `powf` is exact for exponents
that are natural numbers; the other functions are placeholders, and no theorem
below depends on their values. -/
def sample_libm : Libm where
  sqrtf := fun _ => 0
  sinf := fun _ => 0
  cosf := fun _ => 0
  tanf := fun _ => 0
  logf := fun _ => 0
  log10f := fun _ => 0
  powf := fun x y => if y.den = 1 ∧ 0 ≤ y.num then x ^ y.num.toNat else 0

/-- The bytes `'0'..'9'`. -/
def is_digit (c : Nat) : Bool := 48 ≤ c && c ≤ 57

/-- The number written by a list of decimal digit bytes. -/
def digits_value (ds : List Nat) : Nat := ds.foldl (fun acc d => 10 * acc + (d - 48)) 0

/-- Modelled from the spec: the "standard string-to-float conversion" applied to
the number buffer, which is the C library's `strtof` and not part of `main.c`.
It converts the longest prefix of the form `[+-] digits [. digits] [e [+-] digits]`
(at least one mantissa digit; the exponent only when it has a digit) to its exact
value, and gives `0` when there is no such prefix. The conversion to `float`
rounds this value: in `float32_arith` it is `fl32` of it. -/
def strtof (buf : List Nat) : ℚ :=
  let neg : Bool := buf.head? = some 45
  let s0 := if buf.head? = some 45 ∨ buf.head? = some 43 then buf.tail else buf
  let ip := s0.takeWhile is_digit
  let s1 := s0.dropWhile is_digit
  let fp := if s1.head? = some 46 then s1.tail.takeWhile is_digit else []
  let s2 := if s1.head? = some 46 then s1.tail.dropWhile is_digit else s1
  if ip.length = 0 ∧ fp.length = 0 then 0
  else
    let mant : ℚ := (digits_value (ip ++ fp) : ℚ) / 10 ^ fp.length
    let s3 := if s2.head? = some 101 ∨ s2.head? = some 69 then s2.tail else []
    let eneg : Bool := s3.head? = some 45
    let s4 := if s3.head? = some 45 ∨ s3.head? = some 43 then s3.tail else s3
    let ed := s4.takeWhile is_digit
    let e : ℤ := if eneg then - (digits_value ed : ℤ) else (digits_value ed : ℤ)
    let v := mant * 10 ^ e
    if neg then -v else v

/-- The byte under the cursor, `*p_str`; `0` at the end of the input. -/
def peek (s : List Nat) : Nat := s.headD 0

/-- Source `skip_spaces`: `while (*p_str == ' ') p_str++`. -/
def skip_spaces : List Nat → List Nat
  | [] => []
  | c :: t => if c = 32 then skip_spaces t else c :: t

/-- The condition of the number loop (line 217): a digit, `'.'`, the exponent
marker `0x1B`, the negation marker `0xB0` or `'-'`. -/
def is_num_token (token : Nat) : Bool :=
  (48 ≤ token && token ≤ 57) || token == 46 || token == 0x1B || token == 0xB0 || token == 45

/-- The character the number loop stores for a token (lines 219-224). -/
def num_char (token : Nat) : Nat :=
  if token = 0x1B then 101
  else if token = 0xB0 ∨ token = 45 then 45
  else token

/-- The number loop (lines 217-229): `buf` holds the `idx` characters stored so
far; the result is the buffer and the cursor when the loop is left, by its
condition or by `if (idx > 30) break`. -/
def scan_number : List Nat → List Nat → List Nat × List Nat
  | buf, [] => (buf, [])
  | buf, token :: rest =>
    if is_num_token token then
      if (buf ++ [num_char token]).length > 30 then (buf ++ [num_char token], rest)
      else scan_number (buf ++ [num_char token]) rest
    else (buf, token :: rest)

mutual
/-- Source `parse_factor` (lines 154-234). -/
def parse_factor (L : Libm) : Nat → List Nat → Option (ℚ × List Nat)
  | 0, _ => none
  | fuel + 1, p =>
    let s := skip_spaces p
    let token := peek s
    if token = 40 then
      match parse_expr L fuel s.tail with
      | none => none
      | some (val, s1) => if peek s1 = 41 then some (val, s1.tail) else some (val, s1)
    else if token = 45 ∨ token = 0xB0 then
      match parse_factor L fuel s.tail with
      | none => none
      | some (v, s1) => some (-v, s1)
    else if token = 0xAC then some (314159 / 100000, s.tail)
    else if token = 0xBB then some (271828 / 100000, s.tail)
    else if token = 0xBC then
      match parse_factor L fuel s.tail with
      | none => none
      | some (v, s1) => some (L.sqrtf v, s1)
    else if token = 0xC1 then
      match parse_factor L fuel s.tail with
      | none => none
      | some (v, s1) => some (L.sinf v, s1)
    else if token = 0xC2 then
      match parse_factor L fuel s.tail with
      | none => none
      | some (v, s1) => some (L.cosf v, s1)
    else if token = 0xC3 then
      match parse_factor L fuel s.tail with
      | none => none
      | some (v, s1) => some (L.tanf v, s1)
    else if token = 0xC4 then
      match parse_factor L fuel s.tail with
      | none => none
      | some (v, s1) => some (L.logf v, s1)
    else if token = 0xC5 then
      match parse_factor L fuel s.tail with
      | none => none
      | some (v, s1) => some (L.log10f v, s1)
    else
      let r := scan_number [] s
      if r.1.length > 0 then some (strtof r.1, r.2) else some (0, r.2)

/-- Source `parse_pow` (lines 236-246). -/
def parse_pow (L : Libm) : Nat → List Nat → Option (ℚ × List Nat)
  | 0, _ => none
  | fuel + 1, p =>
    match parse_factor L fuel p with
    | none => none
    | some (val, s1) =>
      let s := skip_spaces s1
      if peek s = 94 ∨ peek s = 0xF0 then
        match parse_factor L fuel s.tail with
        | none => none
        | some (e, s2) => some (L.powf val e, s2)
      else some (val, s)

/-- The `while` loop of `parse_term` (lines 252-260). -/
def term_loop (L : Libm) : Nat → ℚ → List Nat → Option (ℚ × List Nat)
  | 0, _, _ => none
  | fuel + 1, val, s =>
    if peek s = 42 ∨ peek s = 47 then
      match parse_pow L fuel s.tail with
      | none => none
      | some (val2, s1) =>
        if peek s = 42 then term_loop L fuel (val * val2) s1
        else if val2 ≠ 0 then term_loop L fuel (val / val2) s1
        else term_loop L fuel val s1
    else some (val, s)

/-- Source `parse_term` (lines 248-262). -/
def parse_term (L : Libm) : Nat → List Nat → Option (ℚ × List Nat)
  | 0, _ => none
  | fuel + 1, p =>
    match parse_pow L fuel p with
    | none => none
    | some (val, s1) => term_loop L fuel val (skip_spaces s1)

/-- The `while` loop of `parse_expr` (lines 268-276). -/
def expr_loop (L : Libm) : Nat → ℚ → List Nat → Option (ℚ × List Nat)
  | 0, _, _ => none
  | fuel + 1, val, s =>
    if peek s = 43 ∨ peek s = 45 then
      match parse_term L fuel s.tail with
      | none => none
      | some (val2, s1) =>
        if peek s = 43 then expr_loop L fuel (val + val2) s1
        else expr_loop L fuel (val - val2) s1
    else some (val, s)

/-- Source `parse_expr` (lines 264-278). -/
def parse_expr (L : Libm) : Nat → List Nat → Option (ℚ × List Nat)
  | 0, _ => none
  | fuel + 1, p =>
    match parse_term L fuel p with
    | none => none
    | some (val, s1) => expr_loop L fuel val (skip_spaces s1)
end

/-- The checked write `num_buf[idx] = c` into the 32-byte number buffer:
`none` when the index is outside the buffer. -/
def write_num_buf (buf : List Nat) (idx c : Nat) : Option (List Nat) :=
  if idx < 32 then some (buf.set idx c) else none

/-- The number loop (lines 217-229) on the buffer `num_buf` itself, with every
write checked: the state is the buffer, the index `idx` and the cursor. -/
def scan_number_checked : List Nat → Nat → List Nat → Option (List Nat × Nat × List Nat)
  | buf, idx, [] => some (buf, idx, [])
  | buf, idx, token :: rest =>
    if is_num_token token then
      match write_num_buf buf idx (num_char token) with
      | none => none
      | some buf1 =>
        if idx + 1 > 30 then some (buf1, idx + 1, rest)
        else scan_number_checked buf1 (idx + 1) rest
    else some (buf, idx, token :: rest)

/-- Lines 216-230: `idx = 0`, the number loop, then `num_buf[idx] = '\0'`, with
every write checked. -/
def fill_num_buf (buf0 s : List Nat) : Option (List Nat × Nat × List Nat) :=
  match scan_number_checked buf0 0 s with
  | none => none
  | some (buf, idx, rest) =>
    match write_num_buf buf idx 0 with
    | none => none
    | some buf1 => some (buf1, idx, rest)

/-- An amount of fuel that suffices for an input: four nested calls for each
byte, and four for the outermost call. -/
def fuelFor (s : List Nat) : Nat := 4 * s.length + 4

/-- The bytes of an ASCII string. -/
def bytes (s : String) : List Nat := s.data.map Char.toNat

/-- The bytes that some test of the evaluator compares the cursor byte with
(lines 150, 160-217, 240, 252, 268): digits, `.`, space, `+ - * / ^ ( )` and the
marker codes `0x1B 0xAC 0xB0 0xBB 0xBC 0xC1..0xC5 0xF0`. -/
def recognized (c : Nat) : Bool :=
  is_digit c || c == 46 || c == 32 || c == 43 || c == 45 || c == 42 || c == 47 || c == 94 ||
  c == 40 || c == 41 || c == 0x1B || c == 0xAC || c == 0xB0 || c == 0xBB || c == 0xBC ||
  c == 0xC1 || c == 0xC2 || c == 0xC3 || c == 0xC4 || c == 0xC5 || c == 0xF0

/-- An unsigned decimal integer literal, as the claims about literals use the
term: a non-empty list of digit bytes (its value is `digits_value`). -/
def is_literal (ds : List Nat) : Prop := ds ≠ [] ∧ ∀ d ∈ ds, is_digit d = true

/-- The function applied by a unary token of `parse_factor` (lines 168-214). -/
def unary_fn (L : Libm) (token : Nat) : Option (ℚ → ℚ) :=
  if token = 45 ∨ token = 0xB0 then some (fun v => -v)
  else if token = 0xBC then some L.sqrtf
  else if token = 0xC1 then some L.sinf
  else if token = 0xC2 then some L.cosf
  else if token = 0xC3 then some L.tanf
  else if token = 0xC4 then some L.logf
  else if token = 0xC5 then some L.log10f
  else none

/-- The value of a constant token of `parse_factor` (lines 175-184). -/
def const_val (token : Nat) : Option ℚ :=
  if token = 0xAC then some (314159 / 100000)
  else if token = 0xBB then some (271828 / 100000)
  else none

/-- The numeric-literal branch of `parse_factor` (lines 216-233). -/
def number_case (s : List Nat) : ℚ × List Nat :=
  if (scan_number [] s).1.length > 0 then (strtof (scan_number [] s).1, (scan_number [] s).2)
  else (0, (scan_number [] s).2)

/-- The cursor moved from `s` to `r` over bytes that are not NUL. -/
def Consumed (s r : List Nat) : Prop := ∃ pre : List Nat, s = pre ++ r ∧ 0 ∉ pre

/-! ## Array bounds: the editor loop of `main` and the checked solve step -/

/-- A checked read `m[j][k]` of a `complex_t [MAX_N][MAX_N + 1]` array
(`MAX_N = 5`): `none` outside the array. -/
def rd2 (m : Nat → Nat → complex_t) (j k : Nat) : Option complex_t :=
  if j < 5 ∧ k < 6 then some (m j k) else none

/-- A checked write `m[j][k] = v` of a `complex_t [MAX_N][MAX_N + 1]` array. -/
def wr2 (m : Nat → Nat → complex_t) (j k : Nat) (v : complex_t) :
    Option (Nat → Nat → complex_t) :=
  if j < 5 ∧ k < 6 then some (set2 m j k v) else none

/-- A checked read `x[i]` of a `complex_t [MAX_N]` array. -/
def rd1 (x : Nat → complex_t) (i : Nat) : Option complex_t :=
  if i < 5 then some (x i) else none

/-- A checked write `x[i] = v` of a `complex_t [MAX_N]` array. -/
def wr1 (x : Nat → complex_t) (i : Nat) (v : complex_t) : Option (Nat → complex_t) :=
  if i < 5 then some (set1 x i v) else none

/-- The loop `for (i = lo; i < hi; i++) body` for a body that can fail. -/
def for_up_opt {σ : Type} (lo hi : Nat) (body : Nat → σ → Option σ) (s : σ) : Option σ :=
  (List.range' lo (hi - lo)).foldlM (fun acc i => body i acc) s

/-- The loop `for (i = hi - 1; i >= 0; i--) body` for a body that can fail. -/
def for_down_opt {σ : Type} (hi : Nat) (body : Nat → σ → Option σ) (s : σ) : Option σ :=
  (List.range hi).reverse.foldlM (fun acc i => body i acc) s

/-- Lines 309-313 with every array access checked. -/
def elim_row_checked (i j : Nat) (st : State) : Option State :=
  (rd2 st.M j i).bind fun a =>
  (rd2 st.M i i).bind fun b =>
  for_up_opt i (st.n + 1)
    (fun k s =>
      (rd2 s.M j k).bind fun x =>
      (rd2 s.M i k).bind fun y =>
      (wr2 s.M j k (c_sub x (c_mul (c_div a b) y))).bind fun m =>
      some { s with M := m }) st

/-- Lines 307-314 with every array access checked. -/
def elim_column_checked (i : Nat) (st : State) : Option State :=
  for_up_opt (i + 1) st.n (fun j s => elim_row_checked i j s) st

/-- Lines 305-315 with every array access checked. -/
def forward_elim_checked (st : State) : Option State :=
  for_up_opt 0 st.n elim_column_checked st

/-- Lines 318-323 with every array access checked. -/
def back_subst_row_checked (i : Nat) (st : State) : Option State :=
  (for_up_opt (i + 1) st.n
    (fun j acc =>
      (rd2 st.M i j).bind fun a =>
      (rd1 st.X j).bind fun x =>
      some (c_add acc (c_mul a x))) ⟨0, 0⟩).bind fun sum =>
  (rd2 st.M i st.n).bind fun b =>
  (rd2 st.M i i).bind fun d =>
  (wr1 st.X i (c_div (c_sub b sum) d)).bind fun x =>
  some { st with X := x }

/-- Lines 316-324 with every array access checked. -/
def back_subst_checked (st : State) : Option State :=
  for_down_opt st.n back_subst_row_checked st

/-- Lines 303-324 with every array access checked (`memcpy` copies the whole of
`A` onto `M`, two arrays of the same type). -/
def solve_step_checked (st : State) : Option State :=
  (forward_elim_checked { st with M := st.A }).bind back_subst_checked

/-- Lines 406-410: `if (n < 2) n = 2; if (n > 5) n = 5;`. -/
def clamp_size (v : Int) : Int :=
  let n := if v < 2 then 2 else v
  if n > 5 then 5 else n

/-- The conversion `(int)nv` of line 406, which truncates toward zero. -/
def int_of_float (nv : ℚ) : Int := if 0 ≤ nv then ⌊nv⌋ else ⌈nv⌉

/-- The globals of the editor loop of `main`: the arrays, the size `n` and the
cursor `cur_r`, `cur_c` (C `int`s). -/
structure Editor where
  A : Nat → Nat → complex_t
  M : Nat → Nat → complex_t
  X : Nat → complex_t
  n : Int
  cur_r : Int
  cur_c : Int

/-- A key event of the editor loop: the key codes the loop compares with, `Enter`
together with the two values `get_real_input` returns for it, and any other key. -/
inductive Key where
  | left
  | right
  | up
  | down
  | enter (re im : ℚ)
  | zoom
  | graph
  | clear
  | other

/-- The checked write `A[cur_r][cur_c] = v` of line 461, with `int` indices. -/
def wr2_int (m : Nat → Nat → complex_t) (j k : Int) (v : complex_t) :
    Option (Nat → Nat → complex_t) :=
  if 0 ≤ j ∧ j < 5 ∧ 0 ≤ k ∧ k < 6 then some (set2 m j.toNat k.toNat v) else none

/-- Lines 448-477: what one key event does to the globals; `none` when an array
access is out of bounds. -/
def handle_key (key : Key) (e : Editor) : Option Editor :=
  match key with
  | Key.left => some { e with cur_r := if e.cur_r > 0 then e.cur_r - 1 else e.n - 1 }
  | Key.right => some { e with cur_r := if e.cur_r < e.n - 1 then e.cur_r + 1 else 0 }
  | Key.up => some { e with cur_c := if e.cur_c > 0 then e.cur_c - 1 else e.n }
  | Key.down => some { e with cur_c := if e.cur_c < e.n then e.cur_c + 1 else 0 }
  | Key.enter re im =>
    (wr2_int e.A e.cur_r e.cur_c ⟨re, im⟩).bind fun a =>
      if e.cur_c + 1 > e.n then
        some { e with A := a, cur_c := 0,
                      cur_r := if e.cur_r + 1 ≥ e.n then 0 else e.cur_r + 1 }
      else some { e with A := a, cur_c := e.cur_c + 1 }
  | Key.zoom =>
    (solve_step_checked ⟨e.A, e.M, e.X, e.n.toNat⟩).bind fun s =>
      some { e with A := s.A, M := s.M, X := s.X }
  | Key.graph =>
    (solve_step_checked ⟨e.A, e.M, e.X, e.n.toNat⟩).bind fun s =>
      some { e with A := s.A, M := s.M, X := s.X }
  | Key.clear => some e
  | Key.other => some e

/-- The editor state when the loop is entered (lines 401-410, and the initial
values `cur_r = 0`, `cur_c = 0` of lines 25-26): `A` is cleared and `n` is the
clamped answer to the size prompt. -/
def editor_start (nv : ℚ) (M0 : Nat → Nat → complex_t) (X0 : Nat → complex_t) : Editor :=
  ⟨fun _ _ => ⟨0, 0⟩, M0, X0, clamp_size (int_of_float nv), 0, 0⟩

/-- The editor loop of lines 412-478 on a list of key events. `sk_Clear` leaves the
loop (line 477); here it leaves the state unchanged and the run goes on, so the
runs of this function include every run of the program. The display part of an
iteration (lines 414-442) reads `A[cur_r][j]` for `j ≤ n` and writes no global. -/
def run_keys : List Key → Editor → Option Editor
  | [], e => some e
  | key :: keys, e => (handle_key key e).bind (run_keys keys)

/-- The invariant of the editor loop. -/
def editor_inv (e : Editor) : Prop :=
  2 ≤ e.n ∧ e.n ≤ 5 ∧ 0 ≤ e.cur_r ∧ e.cur_r < e.n ∧ 0 ≤ e.cur_c ∧ e.cur_c ≤ e.n

/-! ## The formatters `fmt_eng` and `fmt_rect` (`main.c`, lines 41-106)

A C string is the list of its characters in front of the terminating NUL. -/

/-- The character of the decimal digit `d`. -/
def digit_char (d : Nat) : Char := Char.ofNat (48 + d)

/-- The digits of `n` in front of `acc`, most significant first; `fuel` bounds the
number of digits. -/
def nat_digits_core : Nat → Nat → List Char → List Char
  | 0, _, acc => acc
  | fuel + 1, n, acc =>
    if n < 10 then digit_char n :: acc
    else nat_digits_core fuel (n / 10) (digit_char (n % 10) :: acc)

/-- The decimal digits of `n`, without leading zeros (`0` gives `"0"`). -/
def nat_digits (n : Nat) : List Char := nat_digits_core (n + 1) n []

/-- Modelled from the spec: the `%d` conversion of `sprintf` (C standard 7.21.6.1):
a minus sign for a negative value, then the decimal digits of the magnitude. -/
def int_digits (z : Int) : List Char :=
  if z < 0 then '-' :: nat_digits z.natAbs else nat_digits z.natAbs

/-- The integer nearest to `x ≥ 0`, a tie going to the even one. -/
def round_half_even (x : ℚ) : Nat :=
  let f := ⌊x⌋.toNat
  let r := x - f
  if r < 1 / 2 then f else if 1 / 2 < r then f + 1 else if f % 2 = 0 then f else f + 1

/-- Modelled from the spec: the `%.<d>f` conversion of `sprintf` (C standard
7.21.6.1) on an exact value: a minus sign for a negative value, the magnitude
rounded to `d` decimals, its integer part, and for `d > 0` a point and exactly `d`
decimals. -/
def fmt_fixed (d : Nat) (x : ℚ) : List Char :=
  let scaled := round_half_even (|x| * 10 ^ d)
  let ip := scaled / 10 ^ d
  let fp := nat_digits (scaled % 10 ^ d)
  (if x < 0 then ['-'] else []) ++ nat_digits ip ++
    (if d = 0 then [] else '.' :: (List.replicate (d - fp.length) '0' ++ fp))

/-- Counts the divisions by ten that bring `x` below ten. -/
def log10_up : Nat → ℚ → Int
  | 0, _ => 0
  | fuel + 1, x => if 10 ≤ x then log10_up fuel (x / 10) + 1 else 0

/-- Counts, negatively, the multiplications by ten that bring `x` up to one. -/
def log10_down : Nat → ℚ → Int
  | 0, _ => 0
  | fuel + 1, x => if x < 1 then log10_down fuel (x * 10) - 1 else 0

/-- Modelled from the spec: `floorf(log10f(x))` of lines 50-51 on an exact value
`x > 0`, the integer `e` with `10^e ≤ x < 10^(e+1)`. -/
def floor_log10 (x : ℚ) : Int :=
  if 1 ≤ x then log10_up x.num.natAbs x else log10_down x.den x

/-- Modelled from the spec: `roundf` (C standard 7.12.9.6), the nearest integer, a
tie going away from zero. -/
def roundf (x : ℚ) : Int := if 0 ≤ x then ⌊x + 1 / 2⌋ else ⌈x - 1 / 2⌉

/-- Line 52: `eng_exp = (int)(floorf(exp_f / 3.0f) * 3.0f)` with
`exp_f = floorf(log10f(fabsf(val)))` of lines 50-51, over the exact field, where
`exp_f` is the floor of the exact logarithm. `eng_exp_fl` is the same line with
`log10f` a library function that returns a float and the operations rounded. -/
def eng_exp (val : ℚ) : Int := ⌊(floor_log10 |val| : ℚ) / 3⌋ * 3

/-- Line 53: `mantissa = val * powf(10.0f, (float)-eng_exp)`, over the exact
field. `mantissa_fl` is the same line with `powf` a library function and the
product rounded. -/
def mantissa (val : ℚ) : ℚ := val * (10 : ℚ) ^ (-eng_exp val)

/-- Lines 42-70: `fmt_eng(val, out)`, the string left in `out`. -/
def fmt_eng (val : ℚ) : List Char :=
  if |val| < 1 / 10 ^ 20 then ['0']
  else
    let out :=
      if |mantissa val - roundf (mantissa val)| < 1 / 10 ^ 4 then fmt_fixed 0 (mantissa val)
      else fmt_fixed 3 (mantissa val)
    if eng_exp val ≠ 0 then out ++ 'E' :: int_digits (eng_exp val) else out

/-- Lines 73-106: `fmt_rect(val, out)`, the string left in `out`. -/
def fmt_rect (val : complex_t) : List Char :=
  let zr : Bool := decide (|val.r| < 1 / 10 ^ 20)
  let zi : Bool := decide (|val.i| < 1 / 10 ^ 20)
  if zr && zi then ['0']
  else if zr then fmt_eng val.i ++ ['i']
  else if zi then fmt_eng val.r
  else if val.i < 0 then fmt_eng val.r ++ '-' :: fmt_eng |val.i| ++ ['i']
  else fmt_eng val.r ++ '+' :: fmt_eng |val.i| ++ ['i']

/-! ## Float arithmetic

The C type `float` of `main.c` is the IEEE 754 binary32 format. The definitions
above compute in the exact field; the definitions of this part are the same
source lines with the rounding of each float operation made explicit. -/

/-- Counts the halvings that bring `x` below two. -/
def log2_up : Nat → ℚ → Int
  | 0, _ => 0
  | fuel + 1, x => if 2 ≤ x then log2_up fuel (x / 2) + 1 else 0

/-- Counts, negatively, the doublings that bring `x` up to one. -/
def log2_down : Nat → ℚ → Int
  | 0, _ => 0
  | fuel + 1, x => if x < 1 then log2_down fuel (x * 2) - 1 else 0

/-- The binary exponent of `x > 0`: the integer `e` with `2^e ≤ x < 2^(e+1)`. -/
def floor_log2 (x : ℚ) : Int :=
  if 1 ≤ x then log2_up x.num.natAbs x else log2_down x.den x

/-- Modelled from the spec: rounding of an exact value to `float` (IEEE 754 binary32,
round to nearest, ties to even). A value in the binade `[2^e, 2^(e+1))` is rounded
to a multiple of `2^(e-23)` (24 significant bits), and below `2^-126` to a multiple
of `2^-149` (subnormal numbers and zero). Infinities and NaN are not represented:
a result of magnitude `2^128` or more is outside this function's range of use, and
the closed instances below stay far from it. -/
def fl32 (x : ℚ) : ℚ :=
  if x = 0 then 0
  else
    let e := max (floor_log2 |x|) (-126)
    let ulp : ℚ := 2 ^ (e - 23)
    let m : ℚ := (round_half_even (|x| / ulp) : ℚ) * ulp
    if x < 0 then -m else m

/-! ### The evaluator over an arbitrary float arithmetic -/

/-- The float operations the evaluator performs, on an arbitrary type `F` of
float values: the constant `0` of line 157, negation, the four operations, the
test `val2 != 0` of line 258, the conversion `strtof` of the number buffer, the
constants `3.14159f` and `2.71828f`, and the C library functions. The `float`
type of the target, with its rounding, infinities and NaN, is one such
arithmetic; what is proved for every arithmetic holds for it. -/
structure Arith (F : Type) where
  zero : F
  neg : F → F
  add : F → F → F
  sub : F → F → F
  mul : F → F → F
  div : F → F → F
  is_nonzero : F → Bool
  strtof : List Nat → F
  pi_lit : F
  e_lit : F
  sqrtf : F → F
  sinf : F → F
  cosf : F → F
  tanf : F → F
  logf : F → F
  log10f : F → F
  powf : F → F → F

/-- The exact arithmetic: the operations of the field `ℚ`, the exact value of the
number buffer and the library functions of `L`. -/
def exact_arith (L : Libm) : Arith ℚ where
  zero := 0
  neg := fun x => -x
  add := fun x y => x + y
  sub := fun x y => x - y
  mul := fun x y => x * y
  div := fun x y => x / y
  is_nonzero := fun x => decide (x ≠ 0)
  strtof := strtof
  pi_lit := 314159 / 100000
  e_lit := 271828 / 100000
  sqrtf := L.sqrtf
  sinf := L.sinf
  cosf := L.cosf
  tanf := L.tanf
  logf := L.logf
  log10f := L.log10f
  powf := L.powf

/-- The float32 arithmetic on finite values: every operation is the exact one
followed by the rounding `fl32`, `strtof` rounds the exact value of the buffer,
and the library functions of `L` are taken to return floats. Negation is exact. -/
def float32_arith (L : Libm) : Arith ℚ where
  zero := 0
  neg := fun x => -x
  add := fun x y => fl32 (x + y)
  sub := fun x y => fl32 (x - y)
  mul := fun x y => fl32 (x * y)
  div := fun x y => fl32 (x / y)
  is_nonzero := fun x => decide (x ≠ 0)
  strtof := fun buf => fl32 (strtof buf)
  pi_lit := fl32 (314159 / 100000)
  e_lit := fl32 (271828 / 100000)
  sqrtf := L.sqrtf
  sinf := L.sinf
  cosf := L.cosf
  tanf := L.tanf
  logf := L.logf
  log10f := L.log10f
  powf := L.powf

mutual
/-- Source `parse_factor` (lines 154-234), over the arithmetic `Ar`. -/
def parse_factor_over {F : Type} (Ar : Arith F) : Nat → List Nat → Option (F × List Nat)
  | 0, _ => none
  | fuel + 1, p =>
    let s := skip_spaces p
    let token := peek s
    if token = 40 then
      match parse_expr_over Ar fuel s.tail with
      | none => none
      | some (val, s1) => if peek s1 = 41 then some (val, s1.tail) else some (val, s1)
    else if token = 45 ∨ token = 0xB0 then
      match parse_factor_over Ar fuel s.tail with
      | none => none
      | some (v, s1) => some (Ar.neg v, s1)
    else if token = 0xAC then some (Ar.pi_lit, s.tail)
    else if token = 0xBB then some (Ar.e_lit, s.tail)
    else if token = 0xBC then
      match parse_factor_over Ar fuel s.tail with
      | none => none
      | some (v, s1) => some (Ar.sqrtf v, s1)
    else if token = 0xC1 then
      match parse_factor_over Ar fuel s.tail with
      | none => none
      | some (v, s1) => some (Ar.sinf v, s1)
    else if token = 0xC2 then
      match parse_factor_over Ar fuel s.tail with
      | none => none
      | some (v, s1) => some (Ar.cosf v, s1)
    else if token = 0xC3 then
      match parse_factor_over Ar fuel s.tail with
      | none => none
      | some (v, s1) => some (Ar.tanf v, s1)
    else if token = 0xC4 then
      match parse_factor_over Ar fuel s.tail with
      | none => none
      | some (v, s1) => some (Ar.logf v, s1)
    else if token = 0xC5 then
      match parse_factor_over Ar fuel s.tail with
      | none => none
      | some (v, s1) => some (Ar.log10f v, s1)
    else
      let r := scan_number [] s
      if r.1.length > 0 then some (Ar.strtof r.1, r.2) else some (Ar.zero, r.2)

/-- Source `parse_pow` (lines 236-246), over the arithmetic `Ar`. -/
def parse_pow_over {F : Type} (Ar : Arith F) : Nat → List Nat → Option (F × List Nat)
  | 0, _ => none
  | fuel + 1, p =>
    match parse_factor_over Ar fuel p with
    | none => none
    | some (val, s1) =>
      let s := skip_spaces s1
      if peek s = 94 ∨ peek s = 0xF0 then
        match parse_factor_over Ar fuel s.tail with
        | none => none
        | some (e, s2) => some (Ar.powf val e, s2)
      else some (val, s)

/-- The `while` loop of `parse_term` (lines 252-260), over the arithmetic `Ar`. -/
def term_loop_over {F : Type} (Ar : Arith F) : Nat → F → List Nat → Option (F × List Nat)
  | 0, _, _ => none
  | fuel + 1, val, s =>
    if peek s = 42 ∨ peek s = 47 then
      match parse_pow_over Ar fuel s.tail with
      | none => none
      | some (val2, s1) =>
        if peek s = 42 then term_loop_over Ar fuel (Ar.mul val val2) s1
        else if Ar.is_nonzero val2 = true then term_loop_over Ar fuel (Ar.div val val2) s1
        else term_loop_over Ar fuel val s1
    else some (val, s)

/-- Source `parse_term` (lines 248-262), over the arithmetic `Ar`. -/
def parse_term_over {F : Type} (Ar : Arith F) : Nat → List Nat → Option (F × List Nat)
  | 0, _ => none
  | fuel + 1, p =>
    match parse_pow_over Ar fuel p with
    | none => none
    | some (val, s1) => term_loop_over Ar fuel val (skip_spaces s1)

/-- The `while` loop of `parse_expr` (lines 268-276), over the arithmetic `Ar`. -/
def expr_loop_over {F : Type} (Ar : Arith F) : Nat → F → List Nat → Option (F × List Nat)
  | 0, _, _ => none
  | fuel + 1, val, s =>
    if peek s = 43 ∨ peek s = 45 then
      match parse_term_over Ar fuel s.tail with
      | none => none
      | some (val2, s1) =>
        if peek s = 43 then expr_loop_over Ar fuel (Ar.add val val2) s1
        else expr_loop_over Ar fuel (Ar.sub val val2) s1
    else some (val, s)

/-- Source `parse_expr` (lines 264-278), over the arithmetic `Ar`. -/
def parse_expr_over {F : Type} (Ar : Arith F) : Nat → List Nat → Option (F × List Nat)
  | 0, _ => none
  | fuel + 1, p =>
    match parse_term_over Ar fuel p with
    | none => none
    | some (val, s1) => expr_loop_over Ar fuel val (skip_spaces s1)
end

/-- The function applied by a unary token of `parse_factor` (lines 168-214). -/
def unary_fn_over {F : Type} (Ar : Arith F) (token : Nat) : Option (F → F) :=
  if token = 45 ∨ token = 0xB0 then some Ar.neg
  else if token = 0xBC then some Ar.sqrtf
  else if token = 0xC1 then some Ar.sinf
  else if token = 0xC2 then some Ar.cosf
  else if token = 0xC3 then some Ar.tanf
  else if token = 0xC4 then some Ar.logf
  else if token = 0xC5 then some Ar.log10f
  else none

/-- The value of a constant token of `parse_factor` (lines 175-184). -/
def const_val_over {F : Type} (Ar : Arith F) (token : Nat) : Option F :=
  if token = 0xAC then some Ar.pi_lit
  else if token = 0xBB then some Ar.e_lit
  else none

/-- The numeric-literal branch of `parse_factor` (lines 216-233). -/
def number_case_over {F : Type} (Ar : Arith F) (s : List Nat) : F × List Nat :=
  if (scan_number [] s).1.length > 0 then
    (Ar.strtof (scan_number [] s).1, (scan_number [] s).2)
  else (Ar.zero, (scan_number [] s).2)

/-! ### The solver with rounded operations -/

/-- Source `c_sub` with the rounding `fl` of each float operation. -/
def c_sub_fl (fl : ℚ → ℚ) (a b : complex_t) : complex_t := ⟨fl (a.r - b.r), fl (a.i - b.i)⟩

/-- Source `c_add` with the rounding `fl` of each float operation. -/
def c_add_fl (fl : ℚ → ℚ) (a b : complex_t) : complex_t := ⟨fl (a.r + b.r), fl (a.i + b.i)⟩

/-- Source `c_mul` with the rounding `fl` of each float operation. -/
def c_mul_fl (fl : ℚ → ℚ) (a b : complex_t) : complex_t :=
  ⟨fl (fl (a.r * b.r) - fl (a.i * b.i)), fl (fl (a.r * b.i) + fl (a.i * b.r))⟩

/-- Source `c_div` with the rounding `fl` of each float operation. -/
def c_div_fl (fl : ℚ → ℚ) (a b : complex_t) : complex_t :=
  let d := fl (fl (b.r * b.r) + fl (b.i * b.i))
  if d = 0 then ⟨0, 0⟩
  else ⟨fl (fl (fl (a.r * b.r) + fl (a.i * b.i)) / d),
        fl (fl (fl (a.i * b.r) - fl (a.r * b.i)) / d)⟩

/-- Lines 309-313 with rounded operations. -/
def elim_row_fl (fl : ℚ → ℚ) (i j : Nat) (st : State) : State :=
  let factor := c_div_fl fl (st.M j i) (st.M i i)
  for_up i (st.n + 1)
    (fun k s =>
      { s with M := set2 s.M j k (c_sub_fl fl (s.M j k) (c_mul_fl fl factor (s.M i k))) }) st

/-- Lines 307-314 with rounded operations. -/
def elim_column_fl (fl : ℚ → ℚ) (i : Nat) (st : State) : State :=
  for_up (i + 1) st.n (fun j s => elim_row_fl fl i j s) st

/-- Lines 305-315 with rounded operations. -/
def forward_elim_fl (fl : ℚ → ℚ) (st : State) : State :=
  for_up 0 st.n (elim_column_fl fl) st

/-- Lines 318-323 with rounded operations. -/
def back_subst_row_fl (fl : ℚ → ℚ) (i : Nat) (st : State) : State :=
  let sum := for_up (i + 1) st.n
    (fun j acc => c_add_fl fl acc (c_mul_fl fl (st.M i j) (st.X j))) ⟨0, 0⟩
  { st with X := set1 st.X i (c_div_fl fl (c_sub_fl fl (st.M i st.n) sum) (st.M i i)) }

/-- Lines 316-324 with rounded operations. -/
def back_subst_fl (fl : ℚ → ℚ) (st : State) : State :=
  for_down st.n (back_subst_row_fl fl) st

/-- Lines 303-324 with rounded operations: with `fl32` this is the solve step in
float32 arithmetic, with the identity it is `solve_step`. -/
def solve_step_fl (fl : ℚ → ℚ) (st : State) : State :=
  back_subst_fl fl (forward_elim_fl fl { st with M := st.A })

/-- The coefficient block of the `n x (n+1)` matrix `A` is singular: some vector
that is not zero on the indices below `n` is sent to zero by every row. -/
def is_singular (A : Nat → Nat → complex_t) (n : Nat) : Prop :=
  ∃ v : Nat → complex_t, (∃ j, j < n ∧ v j ≠ ⟨0, 0⟩) ∧
    ∀ i, i < n → row_sum A v n i = ⟨0, 0⟩

/-- The system `y = 1`, `0 = 0`: singular, with the solutions `(x, 1)`. -/
def zero_column_state (M0 : Nat → Nat → complex_t) (X0 : Nat → complex_t) : State :=
  ⟨ofRows [[0, 1, 1], [0, 0, 0]], M0, X0, 2⟩

/-- The system `7x + y = 1`, `31x + y = 2`, whose first elimination step divides
`31` by `7`. -/
def residue_state (M0 : Nat → Nat → complex_t) (X0 : Nat → complex_t) : State :=
  ⟨ofRows [[7, 1, 1], [31, 1, 2]], M0, X0, 2⟩

/-- The system `7x + 49y = 1`, `31x + 217y = 2`: the second row of the coefficient
block is `31/7` times the first, so the block is singular. -/
def proportional_state (M0 : Nat → Nat → complex_t) (X0 : Nat → complex_t) : State :=
  ⟨ofRows [[7, 49, 1], [31, 217, 2]], M0, X0, 2⟩

/-- The system `7x + y = 1`, `31x + fy = f` with `f` the float32 nearest to `31/7`:
the coefficient block is not singular, and `f` is the product that the first
elimination step in float32 subtracts from `M[1][1]`. -/
def rounded_state (M0 : Nat → Nat → complex_t) (X0 : Nat → complex_t) : State :=
  ⟨ofRows [[7, 1, 1], [31, 9287387 / 2097152, 9287387 / 2097152]], M0, X0, 2⟩

/-! ### The engineering formatter with rounded operations -/

theorem complex_t_ext (a b : complex_t) : a = b ↔ a.r = b.r ∧ a.i = b.i := by
  cases a; cases b; simp

@[simp] theorem zero_r : (0 : complex_t).r = 0 := rfl
@[simp] theorem zero_i : (0 : complex_t).i = 0 := rfl
@[simp] theorem one_r : (1 : complex_t).r = 1 := rfl
@[simp] theorem one_i : (1 : complex_t).i = 0 := rfl
@[simp] theorem add_r (a b : complex_t) : (a + b).r = a.r + b.r := rfl
@[simp] theorem add_i (a b : complex_t) : (a + b).i = a.i + b.i := rfl
@[simp] theorem mul_r (a b : complex_t) : (a * b).r = a.r * b.r - a.i * b.i := rfl
@[simp] theorem mul_i (a b : complex_t) : (a * b).i = a.r * b.i + a.i * b.r := rfl
@[simp] theorem neg_r (a : complex_t) : (-a).r = -a.r := rfl
@[simp] theorem neg_i (a : complex_t) : (-a).i = -a.i := rfl
@[simp] theorem sub_r (a b : complex_t) : (a - b).r = a.r - b.r := rfl
@[simp] theorem sub_i (a b : complex_t) : (a - b).i = a.i - b.i := rfl


theorem c_add_eq (a b : complex_t) : c_add a b = a + b := rfl
theorem c_sub_eq (a b : complex_t) : c_sub a b = a - b := rfl
theorem c_mul_eq (a b : complex_t) : c_mul a b = a * b := rfl
theorem czero_eq : (⟨0, 0⟩ : complex_t) = 0 := rfl

theorem c_div_mul_cancel (a b : complex_t) (hb : b ≠ 0) : c_div a b * b = a := by
  have hd : b.r * b.r + b.i * b.i ≠ 0 := by
    intro h
    apply hb
    have h1 : b.r = 0 := by nlinarith [mul_self_nonneg b.r, mul_self_nonneg b.i]
    have h2 : b.i = 0 := by nlinarith [mul_self_nonneg b.r, mul_self_nonneg b.i]
    rw [complex_t_ext]
    exact ⟨h1, h2⟩
  rw [complex_t_ext]
  simp only [c_div, mul_r, mul_i, if_neg hd]
  constructor <;> field_simp <;> ring

/-! ### The loop combinators -/

theorem for_up_ge {σ : Type} (lo hi : Nat) (body : Nat → σ → σ) (s : σ) (h : hi ≤ lo) :
    for_up lo hi body s = s := by
  simp [for_up, Nat.sub_eq_zero_of_le h]

theorem for_up_succ {σ : Type} (lo hi : Nat) (body : Nat → σ → σ) (s : σ) (h : lo ≤ hi) :
    for_up lo (hi + 1) body s = body hi (for_up lo hi body s) := by
  have e : hi + 1 - lo = (hi - lo) + 1 := by omega
  simp only [for_up, e, List.range'_concat, List.foldl_append, List.foldl_cons, List.foldl_nil]
  congr 1
  omega

theorem for_up_invariant {σ : Type} (P : Nat → σ → Prop) (lo hi : Nat) (body : Nat → σ → σ)
    (s : σ) (hle : lo ≤ hi) (h0 : P lo s)
    (hstep : ∀ k t, lo ≤ k → k < hi → P k t → P (k + 1) (body k t)) :
    P hi (for_up lo hi body s) := by
  induction hi with
  | zero =>
    have : lo = 0 := by omega
    subst this
    simpa [for_up] using h0
  | succ m ih =>
    by_cases hm : lo ≤ m
    · rw [for_up_succ lo m body s hm]
      exact hstep m _ hm (by omega) (ih hm (fun k t h1 h2 => hstep k t h1 (by omega)))
    · have : lo = m + 1 := by omega
      subst this
      rw [for_up_ge _ _ body s (le_refl _)]
      exact h0

theorem for_down_succ {σ : Type} (hi : Nat) (body : Nat → σ → σ) (s : σ) :
    for_down (hi + 1) body s = for_down hi body (body hi s) := by
  simp [for_down, List.range_succ, List.foldr_append]

theorem for_down_invariant {σ : Type} (P : Nat → σ → Prop) (hi : Nat) (body : Nat → σ → σ)
    (s : σ) (h0 : P hi s)
    (hstep : ∀ k t, k < hi → P (k + 1) t → P k (body k t)) :
    P 0 (for_down hi body s) := by
  induction hi generalizing s with
  | zero => simpa [for_down] using h0
  | succ m ih =>
    rw [for_down_succ]
    exact ih _ (hstep m s (by omega) h0) (fun k t hk hP => hstep k t (by omega) hP)

theorem for_up_sum (f : Nat → complex_t) (lo hi : Nat) (hle : lo ≤ hi) (a : complex_t) :
    for_up lo hi (fun j acc => c_add acc (f j)) a = a + (Finset.Ico lo hi).sum f := by
  refine for_up_invariant (fun k acc => acc = a + (Finset.Ico lo k).sum f) lo hi _ a hle
    (by simp) ?_
  intro k t h1 _ ht
  rw [ht, c_add_eq, Finset.sum_Ico_succ_top h1, add_assoc]

theorem row_sum_eq (A : Nat → Nat → complex_t) (X : Nat → complex_t) (n i : Nat) :
    row_sum A X n i = (Finset.range n).sum (fun j => A i j * X j) := by
  unfold row_sum
  rw [for_up_sum (fun j => c_mul (A i j) (X j)) 0 n (Nat.zero_le _), czero_eq, zero_add,
    Finset.range_eq_Ico]
  rfl

/-! ### Forward elimination -/

theorem elim_row_spec (i j : Nat) (t : State) (hij : i ≠ j) (hin : i ≤ t.n) :
    (elim_row i j t).A = t.A ∧ (elim_row i j t).X = t.X ∧ (elim_row i j t).n = t.n ∧
    ∀ r c, (elim_row i j t).M r c =
      if r = j ∧ i ≤ c ∧ c ≤ t.n then t.M j c - c_div (t.M j i) (t.M i i) * t.M i c
      else t.M r c := by
  have key : (fun (s : State) => s.A = t.A ∧ s.X = t.X ∧ s.n = t.n ∧
      ∀ r c, s.M r c =
        if r = j ∧ i ≤ c ∧ c < t.n + 1 then t.M j c - c_div (t.M j i) (t.M i i) * t.M i c
        else t.M r c) (elim_row i j t) := by
    unfold elim_row
    refine for_up_invariant
      (fun k (s : State) => s.A = t.A ∧ s.X = t.X ∧ s.n = t.n ∧
        ∀ r c, s.M r c =
          if r = j ∧ i ≤ c ∧ c < k then t.M j c - c_div (t.M j i) (t.M i i) * t.M i c
          else t.M r c)
      i (t.n + 1) _ t (by omega)
      ⟨rfl, rfl, rfl, fun r c => by
        have : ¬ (r = j ∧ i ≤ c ∧ c < i) := by omega
        rw [if_neg this]⟩ ?_
    rintro k s hk1 hk2 ⟨hA, hX, hn, hM⟩
    refine ⟨hA, hX, hn, fun r c => ?_⟩
    simp only [set2]
    by_cases h1 : r = j ∧ c = k
    · obtain ⟨rfl, rfl⟩ := h1
      have e1 : ¬ (r = r ∧ i ≤ c ∧ c < c) := by omega
      have e2 : ¬ (i = r ∧ i ≤ c ∧ c < c) := by omega
      rw [if_pos ⟨rfl, rfl⟩, if_pos ⟨rfl, hk1, Nat.lt_succ_self c⟩, hM r c, hM i c,
        if_neg e1, if_neg e2]
      rfl
    · rw [if_neg h1, hM r c]
      by_cases h2 : r = j ∧ i ≤ c ∧ c < k
      · have : r = j ∧ i ≤ c ∧ c < k + 1 := ⟨h2.1, h2.2.1, by omega⟩
        rw [if_pos h2, if_pos this]
      · have : ¬ (r = j ∧ i ≤ c ∧ c < k + 1) := by
          rintro ⟨a, b, c'⟩
          rcases Nat.lt_succ_iff_lt_or_eq.1 c' with h | h
          · exact h2 ⟨a, b, h⟩
          · exact h1 ⟨a, h⟩
        rw [if_neg h2, if_neg this]
  obtain ⟨hA, hX, hn, hM⟩ := key
  refine ⟨hA, hX, hn, fun r c => ?_⟩
  have := hM r c
  simp only [Nat.lt_succ_iff] at this
  exact this

theorem elim_column_spec (i : Nat) (t : State) :
    (elim_column i t).A = t.A ∧ (elim_column i t).X = t.X ∧ (elim_column i t).n = t.n ∧
    ∀ r c, (elim_column i t).M r c =
      if i < r ∧ r < t.n ∧ i ≤ c ∧ c ≤ t.n then
        t.M r c - c_div (t.M r i) (t.M i i) * t.M i c
      else t.M r c := by
  by_cases hle : i + 1 ≤ t.n
  · refine for_up_invariant
      (fun j (s : State) => s.A = t.A ∧ s.X = t.X ∧ s.n = t.n ∧
        ∀ r c, s.M r c =
          if i < r ∧ r < j ∧ i ≤ c ∧ c ≤ t.n then
            t.M r c - c_div (t.M r i) (t.M i i) * t.M i c
          else t.M r c)
      (i + 1) t.n (fun j s => elim_row i j s) t hle
      ⟨rfl, rfl, rfl, fun r c => by
        have : ¬ (i < r ∧ r < i + 1 ∧ i ≤ c ∧ c ≤ t.n) := by omega
        rw [if_neg this]⟩ ?_
    rintro j s hj1 hj2 ⟨hA, hX, hn, hM⟩
    obtain ⟨eA, eX, en, eM⟩ := elim_row_spec i j s (by omega) (by omega)
    refine ⟨eA.trans hA, eX.trans hX, en.trans hn, fun r c => ?_⟩
    rw [eM r c, hn]
    by_cases h1 : r = j ∧ i ≤ c ∧ c ≤ t.n
    · obtain ⟨rfl, h1b, h1c⟩ := h1
      have e1 : ∀ c', ¬ (i < r ∧ r < r ∧ i ≤ c' ∧ c' ≤ t.n) := by intro c'; omega
      have e2 : ∀ c', ¬ (i < i ∧ i < r ∧ i ≤ c' ∧ c' ≤ t.n) := by intro c'; omega
      have e3 : i < r ∧ r < r + 1 ∧ i ≤ c ∧ c ≤ t.n := by omega
      rw [if_pos ⟨rfl, h1b, h1c⟩, if_pos e3, hM r c, hM r i, hM i i, hM i c,
        if_neg (e1 c), if_neg (e1 i), if_neg (e2 i), if_neg (e2 c)]
    · rw [if_neg h1, hM r c]
      by_cases h2 : i < r ∧ r < j ∧ i ≤ c ∧ c ≤ t.n
      · have : i < r ∧ r < j + 1 ∧ i ≤ c ∧ c ≤ t.n := by omega
        rw [if_pos h2, if_pos this]
      · have : ¬ (i < r ∧ r < j + 1 ∧ i ≤ c ∧ c ≤ t.n) := by
          rintro ⟨a, b, c1, c2⟩
          rcases Nat.lt_succ_iff_lt_or_eq.1 b with h | h
          · exact h2 ⟨a, h, c1, c2⟩
          · exact h1 ⟨h, c1, c2⟩
        rw [if_neg h2, if_neg this]
  · have e : elim_column i t = t := for_up_ge _ _ _ _ (by omega)
    rw [e]
    refine ⟨rfl, rfl, rfl, fun r c => ?_⟩
    have : ¬ (i < r ∧ r < t.n ∧ i ≤ c ∧ c ≤ t.n) := by omega
    rw [if_neg this]

theorem elim_upto_succ (st : State) (k : Nat) :
    elim_upto st (k + 1) = elim_column k (elim_upto st k) :=
  for_up_succ 0 k elim_column _ (Nat.zero_le k)

theorem elim_upto_frame (st : State) (k : Nat) :
    (elim_upto st k).A = st.A ∧ (elim_upto st k).X = st.X ∧ (elim_upto st k).n = st.n := by
  induction k with
  | zero => exact ⟨rfl, rfl, rfl⟩
  | succ k ih =>
    rw [elim_upto_succ]
    obtain ⟨eA, eX, en, _⟩ := elim_column_spec k (elim_upto st k)
    exact ⟨eA.trans ih.1, eX.trans ih.2.1, en.trans ih.2.2⟩

theorem elim_upto_row_stable (st : State) (r k : Nat) (hrk : r ≤ k) (c : Nat) :
    (elim_upto st k).M r c = (elim_upto st r).M r c := by
  induction k with
  | zero =>
    have : r = 0 := by omega
    subst this
    rfl
  | succ k ih =>
    rcases Nat.lt_succ_iff_lt_or_eq.1 (Nat.lt_succ_of_le hrk) with h | h
    · rw [elim_upto_succ, (elim_column_spec k (elim_upto st k)).2.2.2 r c]
      have : ¬ (k < r ∧ r < (elim_upto st k).n ∧ k ≤ c ∧ c ≤ (elim_upto st k).n) := by omega
      rw [if_neg this]
      exact ih (by omega)
    · rw [h]

theorem forward_elim_eq (st : State) :
    forward_elim { st with M := st.A } = elim_upto st st.n := rfl

theorem elim_upto_invariant (st : State) (hp : ∀ i, i < st.n → pivot st i ≠ 0) (k : Nat)
    (hk : k ≤ st.n) :
    (∀ c r, c < k → c < r → r < st.n → (elim_upto st k).M r c = 0) ∧
    (∀ X' : Nat → complex_t,
      (∀ r, r < st.n →
        (Finset.range st.n).sum (fun c => (elim_upto st k).M r c * X' c)
          = (elim_upto st k).M r st.n) →
      ∀ r, r < st.n → (Finset.range st.n).sum (fun c => st.A r c * X' c) = st.A r st.n) := by
  induction k with
  | zero =>
    exact ⟨fun c r hc => absurd hc (Nat.not_lt_zero c), fun X' h => h⟩
  | succ k ih =>
    obtain ⟨ihz, ihs⟩ := ih (by omega)
    have hn : (elim_upto st k).n = st.n := (elim_upto_frame st k).2.2
    have hM := (elim_column_spec k (elim_upto st k)).2.2.2
    rw [hn] at hM
    have hpk : (elim_upto st k).M k k ≠ 0 := hp k (by omega)
    rw [elim_upto_succ]
    refine ⟨fun c r hc hcr hr => ?_, fun X' hX => ihs X' (fun r hr => ?_)⟩
    · rw [hM r c]
      rcases Nat.lt_succ_iff_lt_or_eq.1 hc with h | h
      · have : ¬ (k < r ∧ r < st.n ∧ k ≤ c ∧ c ≤ st.n) := by omega
        rw [if_neg this]
        exact ihz c r h hcr hr
      · subst h
        have : c < r ∧ r < st.n ∧ c ≤ c ∧ c ≤ st.n := by omega
        rw [if_pos this, c_div_mul_cancel _ _ hpk, sub_self]
    · by_cases hrk : k < r
      · have hrow : ∀ c, c ≤ st.n → (elim_upto st k).M r c =
            (elim_column k (elim_upto st k)).M r c +
              c_div ((elim_upto st k).M r k) ((elim_upto st k).M k k)
                * (elim_column k (elim_upto st k)).M k c := by
          intro c hc
          have ek : ¬ (k < k ∧ k < st.n ∧ k ≤ c ∧ c ≤ st.n) := by omega
          rw [hM r c, hM k c, if_neg ek]
          by_cases hkc : k ≤ c
          · rw [if_pos ⟨hrk, hr, hkc, hc⟩]
            ring
          · have e : ¬ (k < r ∧ r < st.n ∧ k ≤ c ∧ c ≤ st.n) := by omega
            rw [if_neg e, ihz c k (by omega) (by omega) (by omega)]
            ring
        have hsum : (Finset.range st.n).sum (fun c => (elim_upto st k).M r c * X' c) =
            (Finset.range st.n).sum (fun c => (elim_column k (elim_upto st k)).M r c * X' c) +
              c_div ((elim_upto st k).M r k) ((elim_upto st k).M k k) *
                (Finset.range st.n).sum
                  (fun c => (elim_column k (elim_upto st k)).M k c * X' c) := by
          rw [Finset.mul_sum, ← Finset.sum_add_distrib]
          refine Finset.sum_congr rfl (fun c hc => ?_)
          rw [hrow c (le_of_lt (Finset.mem_range.1 hc))]
          ring
        rw [hsum, hX r hr, hX k (by omega), hrow st.n (le_refl _)]
      · have hrow : ∀ c, (elim_column k (elim_upto st k)).M r c = (elim_upto st k).M r c := by
          intro c
          have e : ¬ (k < r ∧ r < st.n ∧ k ≤ c ∧ c ≤ st.n) := by omega
          rw [hM r c, if_neg e]
        have := hX r hr
        simp only [hrow] at this
        exact this

/-! ### Back substitution -/

theorem back_subst_spec (t : State) :
    (back_subst t).A = t.A ∧ (back_subst t).M = t.M ∧ (back_subst t).n = t.n ∧
    (∀ r, t.n ≤ r → (back_subst t).X r = t.X r) ∧
    (∀ r, r < t.n → (back_subst t).X r =
      c_div (t.M r t.n - (Finset.Ico (r + 1) t.n).sum (fun j => t.M r j * (back_subst t).X j))
        (t.M r r)) := by
  have key := for_down_invariant
    (fun k (s : State) => s.A = t.A ∧ s.M = t.M ∧ s.n = t.n ∧
      (∀ r, t.n ≤ r → s.X r = t.X r) ∧
      (∀ r, k ≤ r → r < t.n → s.X r =
        c_div (t.M r t.n - (Finset.Ico (r + 1) t.n).sum (fun j => t.M r j * s.X j)) (t.M r r)))
    t.n back_subst_row t
    ⟨rfl, rfl, rfl, fun _ _ => rfl, fun r h1 h2 => absurd h2 (by omega)⟩
    (by
      rintro k s hk ⟨hA, hM, hn, hX, hR⟩
      have hsum : for_up (k + 1) s.n (fun j acc => c_add acc (c_mul (s.M k j) (s.X j))) ⟨0, 0⟩
          = (Finset.Ico (k + 1) t.n).sum (fun j => t.M k j * s.X j) := by
        rw [for_up_sum (fun j => c_mul (s.M k j) (s.X j)) (k + 1) s.n (by omega), czero_eq,
          zero_add, hn, hM]
        rfl
      refine ⟨hA, hM, hn, fun r hr => ?_, fun r hkr hr => ?_⟩
      · have : r ≠ k := by omega
        simp only [back_subst_row, set1, if_neg this]
        exact hX r hr
      · have hfix : ∀ j, j ∈ Finset.Ico (r + 1) t.n →
            t.M r j * (back_subst_row k s).X j = t.M r j * s.X j := by
          intro j hj
          have : j ≠ k := by
            have := (Finset.mem_Ico.1 hj).1
            omega
          simp only [back_subst_row, set1, if_neg this]
        rw [Finset.sum_congr rfl hfix]
        rcases Nat.eq_or_lt_of_le hkr with h | h
        · subst h
          simp only [back_subst_row, set1]
          rw [if_true, hsum, hM, hn, c_sub_eq]
        · have : r ≠ k := by omega
          simp only [back_subst_row, set1, if_neg this]
          exact hR r (by omega) hr)
  obtain ⟨hA, hM, hn, hX, hR⟩ := key
  exact ⟨hA, hM, hn, hX, fun r hr => hR r (Nat.zero_le r) hr⟩

theorem solve_step_eq (st : State) : solve_step st = back_subst (elim_upto st st.n) := rfl

theorem solve_step_frame (st : State) :
    (solve_step st).A = st.A ∧ (solve_step st).n = st.n ∧
    ∀ k, st.n ≤ k → (solve_step st).X k = st.X k := by
  obtain ⟨bA, _, bn, bX, _⟩ := back_subst_spec (elim_upto st st.n)
  obtain ⟨eA, eX, en⟩ := elim_upto_frame st st.n
  rw [solve_step_eq]
  refine ⟨bA.trans eA, bn.trans en, fun k hk => ?_⟩
  rw [bX k (by omega), eX]

theorem solve_step_solves (st : State) (hp : ∀ i, i < st.n → pivot st i ≠ 0) :
    ∀ i, i < st.n →
      (Finset.range st.n).sum (fun j => st.A i j * (solve_step st).X j) = st.A i st.n := by
  obtain ⟨hz, hs⟩ := elim_upto_invariant st hp st.n (le_refl _)
  obtain ⟨_, _, _, _, bR⟩ := back_subst_spec (elim_upto st st.n)
  have en : (elim_upto st st.n).n = st.n := (elim_upto_frame st st.n).2.2
  rw [en] at bR
  rw [solve_step_eq]
  refine hs _ (fun r hr => ?_)
  have hd : (elim_upto st st.n).M r r ≠ 0 := by
    rw [elim_upto_row_stable st r st.n (le_of_lt hr) r]
    exact hp r hr
  have hx := bR r hr
  have hmul : (elim_upto st st.n).M r r * (back_subst (elim_upto st st.n)).X r =
      (elim_upto st st.n).M r st.n - (Finset.Ico (r + 1) st.n).sum
        (fun j => (elim_upto st st.n).M r j * (back_subst (elim_upto st st.n)).X j) := by
    conv_lhs => rw [hx]
    rw [mul_comm, c_div_mul_cancel _ _ hd]
  have hlow : (Finset.Ico 0 r).sum
      (fun c => (elim_upto st st.n).M r c * (back_subst (elim_upto st st.n)).X c) = 0 := by
    refine Finset.sum_eq_zero (fun c hc => ?_)
    have hcr : c < r := (Finset.mem_Ico.1 hc).2
    rw [hz c r (lt_trans hcr hr) hcr hr, zero_mul]
  rw [Finset.range_eq_Ico, ← Finset.sum_Ico_consecutive _ (Nat.zero_le r) (le_of_lt hr), hlow,
    zero_add, Finset.sum_eq_sum_Ico_succ_bot hr, hmul]
  ring

/-! ### Claims about complex arithmetic and the solver -/

theorem sq_modulus_eq_zero_iff (b : complex_t) :
    b.r * b.r + b.i * b.i = 0 ↔ (b.r = 0 ∧ b.i = 0) := by
  constructor
  · intro h
    constructor <;> nlinarith [mul_self_nonneg b.r, mul_self_nonneg b.i]
  · rintro ⟨h1, h2⟩
    rw [h1, h2]
    norm_num

/-- C4. Complex division by zero is total and yields zero: `c_div a (0,0)` is
`(0,0)` for every `a`; the squared modulus tested by `c_div` vanishes exactly
when both parts of the denominator are zero, so for every other denominator
`c_div` returns the quotient formula (the zero branch is not taken). -/
theorem c_div_zero_policy :
    (∀ a : complex_t, c_div a ⟨0, 0⟩ = ⟨0, 0⟩) ∧
    (∀ b : complex_t, b.r * b.r + b.i * b.i = 0 ↔ (b.r = 0 ∧ b.i = 0)) ∧
    (∀ a b : complex_t, b ≠ ⟨0, 0⟩ →
      c_div a b = ⟨(a.r * b.r + a.i * b.i) / (b.r * b.r + b.i * b.i),
                   (a.i * b.r - a.r * b.i) / (b.r * b.r + b.i * b.i)⟩) := by
  refine ⟨fun a => by simp [c_div], sq_modulus_eq_zero_iff, fun a b hb => ?_⟩
  have hd : b.r * b.r + b.i * b.i ≠ 0 := by
    intro h
    apply hb
    rw [complex_t_ext]
    exact (sq_modulus_eq_zero_iff b).1 h
  simp [c_div, hd]

/-- Witness for C4: the denominator `(3,4)` is not `(0,0)` and the quotient of
`(1,2)` by it is `(11/25, 2/25)`. -/
theorem c_div_zero_policy_witness :
    c_div ⟨1, 2⟩ ⟨0, 0⟩ = ⟨0, 0⟩ ∧ c_div ⟨1, 2⟩ ⟨3, 4⟩ = ⟨11 / 25, 2 / 25⟩ := by
  refine ⟨c_div_zero_policy.1 ⟨1, 2⟩, ?_⟩
  rw [c_div_zero_policy.2.2 ⟨1, 2⟩ ⟨3, 4⟩ (by decide)]
  norm_num

/-- C5. Division is the inverse of multiplication: for a denominator other
than `(0,0)`, multiplying the quotient `c_div a b` by `b` gives back `a`. -/
theorem c_mul_c_div_cancel (a b : complex_t) (hb : b ≠ ⟨0, 0⟩) :
    c_mul (c_div a b) b = a :=
  c_div_mul_cancel a b hb

/-- Witness for C5 at `a = (1,2)`, `b = (3,4)`. -/
theorem c_mul_c_div_cancel_witness :
    (⟨3, 4⟩ : complex_t) ≠ ⟨0, 0⟩ ∧ c_mul (c_div ⟨1, 2⟩ ⟨3, 4⟩) ⟨3, 4⟩ = ⟨1, 2⟩ :=
  ⟨by decide, c_mul_c_div_cancel ⟨1, 2⟩ ⟨3, 4⟩ (by decide)⟩

/-- C6. The solver never mutates the caller's matrix: for every state with
`2 <= n <= 5`, after the solve step the matrix `A` and the size `n` are
unchanged, and so is every entry `X[k]` with `k >= n`; only the scratch matrix
`M` and the entries `X[0..n-1]` are written. -/
theorem solve_step_preserves_caller_matrix (st : State) (_h2 : 2 ≤ st.n) (_h5 : st.n ≤ 5) :
    (solve_step st).A = st.A ∧ (solve_step st).n = st.n ∧
    ∀ k, st.n ≤ k → (solve_step st).X k = st.X k :=
  solve_step_frame st

/-- Witness for C6 at the system `x + y = 3`, `2x - y = 0`, with scratch matrix
and solution vector filled with `(7,7)` and `(9,9)` beforehand. -/
theorem solve_step_preserves_caller_matrix_witness :
    (solve_step (example_state (fun _ _ => ⟨7, 7⟩) (fun _ => ⟨9, 9⟩))).A
      = ofRows [[1, 1, 3], [2, -1, 0]] ∧
    (solve_step (example_state (fun _ _ => ⟨7, 7⟩) (fun _ => ⟨9, 9⟩))).n = 2 ∧
    (solve_step (example_state (fun _ _ => ⟨7, 7⟩) (fun _ => ⟨9, 9⟩))).X 2 = ⟨9, 9⟩ :=
  have h := solve_step_preserves_caller_matrix
    (example_state (fun _ _ => ⟨7, 7⟩) (fun _ => ⟨9, 9⟩)) (by decide) (by decide)
  ⟨h.1, h.2.1, h.2.2 2 (le_refl 2)⟩

theorem example_state_pivots (M0 : Nat → Nat → complex_t) (X0 : Nat → complex_t) :
    pivot (example_state M0 X0) 0 = ⟨1, 0⟩ ∧ pivot (example_state M0 X0) 1 = ⟨-3, 0⟩ := by
  constructor
  · rfl
  · norm_num [pivot, elim_upto, elim_column, elim_row, for_up, List.range', example_state,
      set2, ofRows, c_div, c_sub, c_mul, List.getD]

theorem example_state_solution (M0 : Nat → Nat → complex_t) (X0 : Nat → complex_t) :
    (solve_step (example_state M0 X0)).X 0 = ⟨1, 0⟩ ∧
    (solve_step (example_state M0 X0)).X 1 = ⟨2, 0⟩ := by
  constructor <;>
  norm_num [solve_step, back_subst, back_subst_row, forward_elim, elim_column, elim_row,
    for_up, for_down, List.range', List.range_succ, example_state, set1, set2, ofRows, c_div,
    c_sub, c_mul, c_add, List.getD]

/-- C1. Solver round-trip, in exact arithmetic: for every `n` with `2 <= n <= 5`
and every augmented matrix `A` in which every pivot `M[i][i]` met by the outer
elimination loop (`i = 0 .. n-1`) is non-zero, the vector `X` computed by the
solve step satisfies, for every row `i < n`, that the sum over `j < n` of
`A[i][j] * X[j]` equals `A[i][n]`, whatever the scratch matrix and the solution
vector held before. The system `[[1,1,3],[2,-1,0]]` yields `X = (1, 2)`. -/
theorem solve_step_round_trip :
    (∀ st : State, 2 ≤ st.n → st.n ≤ 5 → (∀ i, i < st.n → pivot st i ≠ ⟨0, 0⟩) →
      ∀ i, i < st.n → row_sum st.A (solve_step st).X st.n i = st.A i st.n) ∧
    (∀ (M0 : Nat → Nat → complex_t) (X0 : Nat → complex_t),
      (solve_step (example_state M0 X0)).X 0 = ⟨1, 0⟩ ∧
      (solve_step (example_state M0 X0)).X 1 = ⟨2, 0⟩) := by
  refine ⟨fun st _ _ hp i hi => ?_, example_state_solution⟩
  rw [row_sum_eq]
  exact solve_step_solves st hp i hi

/-- Witness for C1: at the system `x + y = 3`, `2x - y = 0` both pivots (`1` and
`-3`) are non-zero, and the computed vector satisfies both equations. -/
theorem solve_step_round_trip_witness :
    pivot (example_state (fun _ _ => ⟨7, 7⟩) (fun _ => ⟨9, 9⟩)) 0 = ⟨1, 0⟩ ∧
    pivot (example_state (fun _ _ => ⟨7, 7⟩) (fun _ => ⟨9, 9⟩)) 1 = ⟨-3, 0⟩ ∧
    row_sum (ofRows [[1, 1, 3], [2, -1, 0]])
      (solve_step (example_state (fun _ _ => ⟨7, 7⟩) (fun _ => ⟨9, 9⟩))).X 2 0 = ⟨3, 0⟩ ∧
    row_sum (ofRows [[1, 1, 3], [2, -1, 0]])
      (solve_step (example_state (fun _ _ => ⟨7, 7⟩) (fun _ => ⟨9, 9⟩))).X 2 1 = ⟨0, 0⟩ := by
  have hp := example_state_pivots (fun _ _ => ⟨7, 7⟩) (fun _ => ⟨9, 9⟩)
  have h := solve_step_round_trip.1 (example_state (fun _ _ => ⟨7, 7⟩) (fun _ => ⟨9, 9⟩))
    (by decide) (by decide) (fun i hi => by
      have hi2 : i < 2 := hi
      interval_cases i
      · rw [hp.1]; decide
      · rw [hp.2]; decide)
  exact ⟨hp.1, hp.2, h 0 (by decide), h 1 (by decide)⟩


/-! ### Unfolding the parser -/

theorem parse_factor_succ (L : Libm) (fuel : Nat) (p : List Nat) :
    parse_factor L (fuel + 1) p =
      if peek (skip_spaces p) = 40 then
        (parse_expr L fuel (skip_spaces p).tail).bind
          (fun x => some (x.1, if peek x.2 = 41 then x.2.tail else x.2))
      else match unary_fn L (peek (skip_spaces p)) with
        | some g => (parse_factor L fuel (skip_spaces p).tail).bind (fun x => some (g x.1, x.2))
        | none =>
          match const_val (peek (skip_spaces p)) with
          | some c => some (c, (skip_spaces p).tail)
          | none => some (number_case (skip_spaces p)) := by
  rw [parse_factor]
  simp only [unary_fn, const_val, number_case]
  by_cases h0 : peek (skip_spaces p) = 40
  · rw [if_pos h0, if_pos h0]
    cases parse_expr L fuel (skip_spaces p).tail with
    | none => rfl
    | some x => simp only [Option.bind]; split_ifs <;> rfl
  rw [if_neg h0, if_neg h0]
  by_cases h1 : peek (skip_spaces p) = 45 ∨ peek (skip_spaces p) = 0xB0
  · simp only [if_pos h1]
    cases parse_factor L fuel (skip_spaces p).tail <;> rfl
  simp only [if_neg h1]
  by_cases h2 : peek (skip_spaces p) = 0xAC
  · simp [h2]
  by_cases h3 : peek (skip_spaces p) = 0xBB
  · simp [h3]
  by_cases h4 : peek (skip_spaces p) = 0xBC
  · simp only [h4]
    cases parse_factor L fuel (skip_spaces p).tail <;> simp
  by_cases h5 : peek (skip_spaces p) = 0xC1
  · simp only [h5]
    cases parse_factor L fuel (skip_spaces p).tail <;> simp
  by_cases h6 : peek (skip_spaces p) = 0xC2
  · simp only [h6]
    cases parse_factor L fuel (skip_spaces p).tail <;> simp
  by_cases h7 : peek (skip_spaces p) = 0xC3
  · simp only [h7]
    cases parse_factor L fuel (skip_spaces p).tail <;> simp
  by_cases h8 : peek (skip_spaces p) = 0xC4
  · simp only [h8]
    cases parse_factor L fuel (skip_spaces p).tail <;> simp
  by_cases h9 : peek (skip_spaces p) = 0xC5
  · simp only [h9]
    cases parse_factor L fuel (skip_spaces p).tail <;> simp
  simp only [if_neg h2, if_neg h3, if_neg h4, if_neg h5, if_neg h6, if_neg h7, if_neg h8,
    if_neg h9]
  split_ifs <;> rfl

theorem parse_pow_succ (L : Libm) (fuel : Nat) (p : List Nat) :
    parse_pow L (fuel + 1) p =
      (parse_factor L fuel p).bind (fun x =>
        if peek (skip_spaces x.2) = 94 ∨ peek (skip_spaces x.2) = 0xF0 then
          (parse_factor L fuel (skip_spaces x.2).tail).bind
            (fun y => some (L.powf x.1 y.1, y.2))
        else some (x.1, skip_spaces x.2)) := by
  rw [parse_pow]
  cases parse_factor L fuel p with
  | none => rfl
  | some x =>
    simp only [Option.bind]
    split_ifs
    · cases parse_factor L fuel (skip_spaces x.2).tail <;> rfl
    · rfl

theorem term_loop_succ (L : Libm) (fuel : Nat) (val : ℚ) (s : List Nat) :
    term_loop L (fuel + 1) val s =
      if peek s = 42 ∨ peek s = 47 then
        (parse_pow L fuel s.tail).bind (fun x =>
          term_loop L fuel
            (if peek s = 42 then val * x.1 else if x.1 ≠ 0 then val / x.1 else val) x.2)
      else some (val, s) := by
  rw [term_loop]
  by_cases h1 : peek s = 42 ∨ peek s = 47
  · rw [if_pos h1, if_pos h1]
    cases parse_pow L fuel s.tail with
    | none => rfl
    | some x =>
      simp only [Option.bind]
      by_cases h2 : peek s = 42
      · simp only [if_pos h2]
      · simp only [if_neg h2]
        split_ifs <;> rfl
  · rw [if_neg h1, if_neg h1]

theorem parse_term_succ (L : Libm) (fuel : Nat) (p : List Nat) :
    parse_term L (fuel + 1) p =
      (parse_pow L fuel p).bind (fun x => term_loop L fuel x.1 (skip_spaces x.2)) := by
  rw [parse_term]
  cases parse_pow L fuel p <;> rfl

theorem expr_loop_succ (L : Libm) (fuel : Nat) (val : ℚ) (s : List Nat) :
    expr_loop L (fuel + 1) val s =
      if peek s = 43 ∨ peek s = 45 then
        (parse_term L fuel s.tail).bind (fun x =>
          expr_loop L fuel (if peek s = 43 then val + x.1 else val - x.1) x.2)
      else some (val, s) := by
  rw [expr_loop]
  by_cases h1 : peek s = 43 ∨ peek s = 45
  · rw [if_pos h1, if_pos h1]
    cases parse_term L fuel s.tail with
    | none => rfl
    | some x =>
      simp only [Option.bind]
      by_cases h2 : peek s = 43
      · simp only [if_pos h2]
      · simp only [if_neg h2]
  · rw [if_neg h1, if_neg h1]

theorem parse_expr_succ (L : Libm) (fuel : Nat) (p : List Nat) :
    parse_expr L (fuel + 1) p =
      (parse_term L fuel p).bind (fun x => expr_loop L fuel x.1 (skip_spaces x.2)) := by
  rw [parse_expr]
  cases parse_term L fuel p <;> rfl

/-! ### More fuel never changes a result -/

theorem bind_mono {α β : Type} {o o' : Option α} {k k' : α → Option β}
    (h : ∀ r, o = some r → o' = some r) (hk : ∀ a r, k a = some r → k' a = some r) :
    ∀ r, o.bind k = some r → o'.bind k' = some r := by
  intro r hr
  cases o with
  | none => simp at hr
  | some a =>
    rw [h a rfl]
    exact hk a r hr

theorem fuel_mono_step (L : Libm) (f : Nat) :
    (∀ s r, parse_factor L f s = some r → parse_factor L (f + 1) s = some r) ∧
    (∀ s r, parse_pow L f s = some r → parse_pow L (f + 1) s = some r) ∧
    (∀ v s r, term_loop L f v s = some r → term_loop L (f + 1) v s = some r) ∧
    (∀ s r, parse_term L f s = some r → parse_term L (f + 1) s = some r) ∧
    (∀ v s r, expr_loop L f v s = some r → expr_loop L (f + 1) v s = some r) ∧
    (∀ s r, parse_expr L f s = some r → parse_expr L (f + 1) s = some r) := by
  induction f with
  | zero =>
    refine ⟨?_, ?_, ?_, ?_, ?_, ?_⟩ <;> intros <;> simp_all [parse_factor, parse_pow, term_loop,
      parse_term, expr_loop, parse_expr]
  | succ f ih =>
    obtain ⟨iF, iP, iTL, iT, iEL, iE⟩ := ih
    refine ⟨?_, ?_, ?_, ?_, ?_, ?_⟩
    · intro s r
      rw [parse_factor_succ L f, parse_factor_succ L (f + 1)]
      by_cases h0 : peek (skip_spaces s) = 40
      · rw [if_pos h0, if_pos h0]
        exact bind_mono (iE _) (fun _ _ h => h) r
      · rw [if_neg h0, if_neg h0]
        cases unary_fn L (peek (skip_spaces s)) with
        | some g => exact bind_mono (iF _) (fun _ _ h => h) r
        | none => exact fun h => h
    · intro s r
      rw [parse_pow_succ L f, parse_pow_succ L (f + 1)]
      refine bind_mono (iF _) (fun x r => ?_) r
      by_cases h : peek (skip_spaces x.2) = 94 ∨ peek (skip_spaces x.2) = 0xF0
      · rw [if_pos h, if_pos h]
        exact bind_mono (iF _) (fun _ _ h => h) r
      · rw [if_neg h, if_neg h]
        exact fun h => h
    · intro v s r
      rw [term_loop_succ L f, term_loop_succ L (f + 1)]
      by_cases h : peek s = 42 ∨ peek s = 47
      · rw [if_pos h, if_pos h]
        exact bind_mono (iP _) (fun x r => iTL _ _ r) r
      · rw [if_neg h, if_neg h]
        exact fun h => h
    · intro s r
      rw [parse_term_succ L f, parse_term_succ L (f + 1)]
      exact bind_mono (iP _) (fun x r => iTL _ _ r) r
    · intro v s r
      rw [expr_loop_succ L f, expr_loop_succ L (f + 1)]
      by_cases h : peek s = 43 ∨ peek s = 45
      · rw [if_pos h, if_pos h]
        exact bind_mono (iT _) (fun x r => iEL _ _ r) r
      · rw [if_neg h, if_neg h]
        exact fun h => h
    · intro s r
      rw [parse_expr_succ L f, parse_expr_succ L (f + 1)]
      exact bind_mono (iT _) (fun x r => iEL _ _ r) r

theorem parse_expr_fuel_mono (L : Libm) (f g : Nat) (hfg : f ≤ g) (s : List Nat)
    (r : ℚ × List Nat) (h : parse_expr L f s = some r) : parse_expr L g s = some r := by
  induction g with
  | zero =>
    have : f = 0 := by omega
    subst this
    exact h
  | succ g ih =>
    rcases Nat.eq_or_lt_of_le hfg with e | e
    · subst e
      exact h
    · exact (fuel_mono_step L g).2.2.2.2.2 s r (ih (by omega))

theorem parse_term_fuel_mono (L : Libm) (f g : Nat) (hfg : f ≤ g) (s : List Nat)
    (r : ℚ × List Nat) (h : parse_term L f s = some r) : parse_term L g s = some r := by
  induction g with
  | zero =>
    have : f = 0 := by omega
    subst this
    exact h
  | succ g ih =>
    rcases Nat.eq_or_lt_of_le hfg with e | e
    · subst e
      exact h
    · exact (fuel_mono_step L g).2.2.2.1 s r (ih (by omega))

theorem parse_pow_fuel_mono (L : Libm) (f g : Nat) (hfg : f ≤ g) (s : List Nat)
    (r : ℚ × List Nat) (h : parse_pow L f s = some r) : parse_pow L g s = some r := by
  induction g with
  | zero =>
    have : f = 0 := by omega
    subst this
    exact h
  | succ g ih =>
    rcases Nat.eq_or_lt_of_le hfg with e | e
    · subst e
      exact h
    · exact (fuel_mono_step L g).2.1 s r (ih (by omega))

theorem parse_factor_fuel_mono (L : Libm) (f g : Nat) (hfg : f ≤ g) (s : List Nat)
    (r : ℚ × List Nat) (h : parse_factor L f s = some r) : parse_factor L g s = some r := by
  induction g with
  | zero =>
    have : f = 0 := by omega
    subst this
    exact h
  | succ g ih =>
    rcases Nat.eq_or_lt_of_le hfg with e | e
    · subst e
      exact h
    · exact (fuel_mono_step L g).1 s r (ih (by omega))

/-! ### The cursor only moves forward, over bytes other than NUL -/

theorem consumed_refl (s : List Nat) : Consumed s s := ⟨[], rfl, by simp⟩

theorem consumed_trans {s r t : List Nat} (h1 : Consumed s r) (h2 : Consumed r t) :
    Consumed s t := by
  obtain ⟨p1, e1, n1⟩ := h1
  obtain ⟨p2, e2, n2⟩ := h2
  refine ⟨p1 ++ p2, by rw [e1, e2, List.append_assoc], ?_⟩
  simp only [List.mem_append, not_or]
  exact ⟨n1, n2⟩

theorem consumed_length {s r : List Nat} (h : Consumed s r) : r.length ≤ s.length := by
  obtain ⟨p, e, _⟩ := h
  rw [e, List.length_append]
  omega

theorem consumed_tail {s : List Nat} (h : peek s ≠ 0) :
    Consumed s s.tail ∧ s.tail.length + 1 = s.length := by
  cases s with
  | nil => exact absurd rfl h
  | cons a t =>
    refine ⟨⟨[a], rfl, ?_⟩, rfl⟩
    simp only [List.mem_singleton]
    exact fun e => h e.symm

theorem consumed_skip_spaces (p : List Nat) : Consumed p (skip_spaces p) := by
  induction p with
  | nil => exact consumed_refl _
  | cons a t ih =>
    rw [skip_spaces]
    by_cases h : a = 32
    · rw [if_pos h]
      refine consumed_trans ⟨[a], rfl, ?_⟩ ih
      simp [h]
    · rw [if_neg h]
      exact consumed_refl _

theorem consumed_scan_number (s buf : List Nat) : Consumed s (scan_number buf s).2 := by
  induction s generalizing buf with
  | nil => exact consumed_refl _
  | cons a t ih =>
    rw [scan_number]
    by_cases h : is_num_token a = true
    · have ha : a ≠ 0 := by
        rintro rfl
        simp [is_num_token] at h
      have hstep : Consumed (a :: t) t := ⟨[a], rfl, by simpa using ha.symm⟩
      rw [if_pos h]
      split_ifs
      · exact hstep
      · exact consumed_trans hstep (ih _)
    · rw [if_neg h]
      exact consumed_refl _

theorem consumed_number_case (s : List Nat) : Consumed s (number_case s).2 := by
  unfold number_case
  split_ifs <;> exact consumed_scan_number s []

theorem unary_fn_ne_zero {L : Libm} {token : Nat} {g : ℚ → ℚ}
    (h : unary_fn L token = some g) : token ≠ 0 := by
  rintro rfl
  simp [unary_fn] at h

theorem const_val_ne_zero {token : Nat} {c : ℚ} (h : const_val token = some c) :
    token ≠ 0 := by
  rintro rfl
  simp [const_val] at h

theorem bind_total {α β : Type} {o : Option α} {k : α → Option β} {Q : α → Prop}
    {R : β → Prop} (h : ∃ a, o = some a ∧ Q a) (hk : ∀ a, Q a → ∃ r, k a = some r ∧ R r) :
    ∃ r, o.bind k = some r ∧ R r := by
  obtain ⟨a, e, q⟩ := h
  rw [e]
  exact hk a q

theorem parser_total_aux (L : Libm) (f : Nat) :
    (∀ s, 4 * s.length + 1 ≤ f → ∃ r, parse_factor L f s = some r ∧ Consumed s r.2) ∧
    (∀ s, 4 * s.length + 2 ≤ f → ∃ r, parse_pow L f s = some r ∧ Consumed s r.2) ∧
    (∀ v s, 4 * s.length + 2 ≤ f → ∃ r, term_loop L f v s = some r ∧ Consumed s r.2) ∧
    (∀ s, 4 * s.length + 3 ≤ f → ∃ r, parse_term L f s = some r ∧ Consumed s r.2) ∧
    (∀ v s, 4 * s.length + 3 ≤ f → ∃ r, expr_loop L f v s = some r ∧ Consumed s r.2) ∧
    (∀ s, 4 * s.length + 4 ≤ f → ∃ r, parse_expr L f s = some r ∧ Consumed s r.2) := by
  induction f with
  | zero =>
    refine ⟨?_, ?_, ?_, ?_, ?_, ?_⟩ <;> intros <;> omega
  | succ f ih =>
    obtain ⟨iF, iP, iTL, iT, iEL, iE⟩ := ih
    refine ⟨?_, ?_, ?_, ?_, ?_, ?_⟩
    · intro s hs
      have hsk := consumed_skip_spaces s
      have hlen := consumed_length hsk
      rw [parse_factor_succ]
      by_cases h0 : peek (skip_spaces s) = 40
      · rw [if_pos h0]
        obtain ⟨ht, hl⟩ := consumed_tail (s := skip_spaces s) (by omega)
        refine bind_total (iE _ (by omega)) (fun x hx => ⟨_, rfl, ?_⟩)
        have hx' := consumed_trans hsk (consumed_trans ht hx)
        show Consumed s (if peek x.2 = 41 then x.2.tail else x.2)
        split_ifs with h41
        · exact consumed_trans hx' (consumed_tail (by omega)).1
        · exact hx'
      · rw [if_neg h0]
        cases hu : unary_fn L (peek (skip_spaces s)) with
        | some g =>
          obtain ⟨ht, hl⟩ := consumed_tail (unary_fn_ne_zero hu)
          exact bind_total (iF _ (by omega))
            (fun x hx => ⟨_, rfl, consumed_trans hsk (consumed_trans ht hx)⟩)
        | none =>
          cases hc : const_val (peek (skip_spaces s)) with
          | some c =>
            exact ⟨_, rfl, consumed_trans hsk (consumed_tail (const_val_ne_zero hc)).1⟩
          | none => exact ⟨_, rfl, consumed_trans hsk (consumed_number_case _)⟩
    · intro s hs
      rw [parse_pow_succ]
      refine bind_total (iF s (by omega)) (fun x hx => ?_)
      have hsk := consumed_trans hx (consumed_skip_spaces x.2)
      have hlen := consumed_length hsk
      by_cases h : peek (skip_spaces x.2) = 94 ∨ peek (skip_spaces x.2) = 0xF0
      · rw [if_pos h]
        obtain ⟨ht, hl⟩ := consumed_tail (s := skip_spaces x.2) (by omega)
        exact bind_total (iF _ (by omega))
          (fun y hy => ⟨_, rfl, consumed_trans hsk (consumed_trans ht hy)⟩)
      · rw [if_neg h]
        exact ⟨_, rfl, hsk⟩
    · intro v s hs
      rw [term_loop_succ]
      by_cases h : peek s = 42 ∨ peek s = 47
      · rw [if_pos h]
        obtain ⟨ht, hl⟩ := consumed_tail (s := s) (by omega)
        refine bind_total (iP _ (by omega)) (fun x hx => ?_)
        have hlen := consumed_length hx
        obtain ⟨r, hr, hc⟩ := iTL
          (if peek s = 42 then v * x.1 else if x.1 ≠ 0 then v / x.1 else v) x.2 (by omega)
        exact ⟨r, hr, consumed_trans ht (consumed_trans hx hc)⟩
      · rw [if_neg h]
        exact ⟨_, rfl, consumed_refl _⟩
    · intro s hs
      rw [parse_term_succ]
      refine bind_total (iP s (by omega)) (fun x hx => ?_)
      have hsk := consumed_trans hx (consumed_skip_spaces x.2)
      have hlen := consumed_length hsk
      obtain ⟨r, hr, hc⟩ := iTL x.1 (skip_spaces x.2) (by omega)
      exact ⟨r, hr, consumed_trans hsk hc⟩
    · intro v s hs
      rw [expr_loop_succ]
      by_cases h : peek s = 43 ∨ peek s = 45
      · rw [if_pos h]
        obtain ⟨ht, hl⟩ := consumed_tail (s := s) (by omega)
        refine bind_total (iT _ (by omega)) (fun x hx => ?_)
        have hlen := consumed_length hx
        obtain ⟨r, hr, hc⟩ := iEL (if peek s = 43 then v + x.1 else v - x.1) x.2 (by omega)
        exact ⟨r, hr, consumed_trans ht (consumed_trans hx hc)⟩
      · rw [if_neg h]
        exact ⟨_, rfl, consumed_refl _⟩
    · intro s hs
      rw [parse_expr_succ]
      refine bind_total (iT s (by omega)) (fun x hx => ?_)
      have hsk := consumed_trans hx (consumed_skip_spaces x.2)
      have hlen := consumed_length hsk
      obtain ⟨r, hr, hc⟩ := iEL x.1 (skip_spaces x.2) (by omega)
      exact ⟨r, hr, consumed_trans hsk hc⟩

/-! ### An unrecognized byte stops the parser like the terminating NUL -/

theorem unrec_ne {c : Nat} (hc : recognized c = false) (k : Nat) (hk : recognized k = true) :
    c ≠ k := by
  rintro rfl
  rw [hc] at hk
  exact Bool.noConfusion hk

theorem unrec_not_num {c : Nat} (hc : recognized c = false) : is_num_token c = false := by
  simp only [recognized, is_digit, Bool.or_eq_false_iff, Bool.and_eq_false_iff,
    beq_eq_false_iff_ne] at hc
  simp only [is_num_token, Bool.or_eq_false_iff, Bool.and_eq_false_iff, beq_eq_false_iff_ne]
  tauto

theorem peek_append_iff {x t : List Nat} {c k : Nat} (hk : k ≠ 0) (hc : c ≠ k) :
    peek (x ++ c :: t) = k ↔ peek x = k := by
  cases x with
  | nil => simp [peek, hc, hk.symm]
  | cons a x => simp [peek]

theorem tail_append_of_peek {x : List Nat} (c : Nat) (t : List Nat) (h : peek x ≠ 0) :
    (x ++ c :: t).tail = x.tail ++ c :: t := by
  cases x with
  | nil => exact absurd rfl h
  | cons a x => rfl

theorem skip_spaces_append (s t : List Nat) {c : Nat} (hc : c ≠ 32) :
    skip_spaces (s ++ c :: t) = skip_spaces s ++ c :: t := by
  induction s with
  | nil => simp [skip_spaces, hc]
  | cons a s ih =>
    simp only [List.cons_append, skip_spaces]
    split_ifs
    · exact ih
    · rfl

theorem scan_number_append (s t buf : List Nat) {c : Nat} (hc : is_num_token c = false) :
    scan_number buf (s ++ c :: t) = ((scan_number buf s).1, (scan_number buf s).2 ++ c :: t) := by
  induction s generalizing buf with
  | nil => simp [scan_number, hc]
  | cons a s ih =>
    simp only [List.cons_append, scan_number]
    split_ifs
    · rfl
    · exact ih _
    · rfl

theorem number_case_append (s t : List Nat) {c : Nat} (hc : is_num_token c = false) :
    number_case (s ++ c :: t) = ((number_case s).1, (number_case s).2 ++ c :: t) := by
  simp only [number_case, scan_number_append s t [] hc]
  split_ifs <;> rfl

theorem unary_fn_peek_append (L : Libm) (x t : List Nat) {c : Nat}
    (hc : recognized c = false) : unary_fn L (peek (x ++ c :: t)) = unary_fn L (peek x) := by
  cases x with
  | nil =>
    have h1 := unrec_ne hc 45 rfl
    have h2 := unrec_ne hc 0xB0 rfl
    have h3 := unrec_ne hc 0xBC rfl
    have h4 := unrec_ne hc 0xC1 rfl
    have h5 := unrec_ne hc 0xC2 rfl
    have h6 := unrec_ne hc 0xC3 rfl
    have h7 := unrec_ne hc 0xC4 rfl
    have h8 := unrec_ne hc 0xC5 rfl
    simp [peek, unary_fn, h1, h2, h3, h4, h5, h6, h7, h8]
  | cons a x => rfl

theorem const_val_peek_append (x t : List Nat) {c : Nat}
    (hc : recognized c = false) : const_val (peek (x ++ c :: t)) = const_val (peek x) := by
  cases x with
  | nil =>
    have h1 := unrec_ne hc 0xAC rfl
    have h2 := unrec_ne hc 0xBB rfl
    simp [peek, const_val, h1, h2]
  | cons a x => rfl

theorem bind_map_comm {α β : Type} (E : α → α) (E' : β → β) (o : Option α)
    (k k' : α → Option β) (h : ∀ a, k' (E a) = (k a).map E') :
    (o.map E).bind k' = (o.bind k).map E' := by
  cases o with
  | none => rfl
  | some a => exact h a

theorem parser_append_aux (L : Libm) (c : Nat) (t : List Nat) (hc : recognized c = false)
    (f : Nat) :
    (∀ s, parse_factor L f (s ++ c :: t)
      = (parse_factor L f s).map (fun x => (x.1, x.2 ++ c :: t))) ∧
    (∀ s, parse_pow L f (s ++ c :: t)
      = (parse_pow L f s).map (fun x => (x.1, x.2 ++ c :: t))) ∧
    (∀ v s, term_loop L f v (s ++ c :: t)
      = (term_loop L f v s).map (fun x => (x.1, x.2 ++ c :: t))) ∧
    (∀ s, parse_term L f (s ++ c :: t)
      = (parse_term L f s).map (fun x => (x.1, x.2 ++ c :: t))) ∧
    (∀ v s, expr_loop L f v (s ++ c :: t)
      = (expr_loop L f v s).map (fun x => (x.1, x.2 ++ c :: t))) ∧
    (∀ s, parse_expr L f (s ++ c :: t)
      = (parse_expr L f s).map (fun x => (x.1, x.2 ++ c :: t))) := by
  have c32 := unrec_ne hc 32 rfl
  have c40 := unrec_ne hc 40 rfl
  have c41 := unrec_ne hc 41 rfl
  have c42 := unrec_ne hc 42 rfl
  have c43 := unrec_ne hc 43 rfl
  have c45 := unrec_ne hc 45 rfl
  have c47 := unrec_ne hc 47 rfl
  have c94 := unrec_ne hc 94 rfl
  have cF0 := unrec_ne hc 0xF0 rfl
  have cnum := unrec_not_num hc
  induction f with
  | zero =>
    refine ⟨?_, ?_, ?_, ?_, ?_, ?_⟩ <;> intros <;>
      simp [parse_factor, parse_pow, term_loop, parse_term, expr_loop, parse_expr]
  | succ f ih =>
    obtain ⟨iF, iP, iTL, iT, iEL, iE⟩ := ih
    refine ⟨?_, ?_, ?_, ?_, ?_, ?_⟩
    · intro s
      rw [parse_factor_succ, parse_factor_succ, skip_spaces_append s t c32,
        unary_fn_peek_append L _ t hc, const_val_peek_append _ t hc,
        number_case_append _ t cnum]
      by_cases h0 : peek (skip_spaces s) = 40
      · rw [if_pos ((peek_append_iff (by decide) c40).2 h0), if_pos h0,
          tail_append_of_peek c t (by omega), iE]
        refine bind_map_comm _ _ _ _ _ (fun a => ?_)
        by_cases h41 : peek a.2 = 41
        · simp only [if_pos ((peek_append_iff (by decide) c41).2 h41), if_pos h41,
            tail_append_of_peek c t (show peek a.2 ≠ 0 by omega), Option.map_some']
        · simp only [if_neg (fun h => h41 ((peek_append_iff (by decide) c41).1 h)), if_neg h41,
            Option.map_some']
      · rw [if_neg (fun h => h0 ((peek_append_iff (by decide) c40).1 h)), if_neg h0]
        cases hu : unary_fn L (peek (skip_spaces s)) with
        | some g =>
          simp only []
          rw [tail_append_of_peek c t (unary_fn_ne_zero hu), iF]
          exact bind_map_comm _ _ _ _ _ (fun a => rfl)
        | none =>
          cases hcv : const_val (peek (skip_spaces s)) with
          | some q =>
            simp only [Option.map_some']
            rw [tail_append_of_peek c t (const_val_ne_zero hcv)]
          | none => rfl
    · intro s
      rw [parse_pow_succ, parse_pow_succ, iF]
      refine bind_map_comm _ _ _ _ _ (fun a => ?_)
      simp only [skip_spaces_append a.2 t c32]
      by_cases h : peek (skip_spaces a.2) = 94 ∨ peek (skip_spaces a.2) = 0xF0
      · have h' : peek (skip_spaces a.2 ++ c :: t) = 94 ∨
            peek (skip_spaces a.2 ++ c :: t) = 0xF0 :=
          h.imp (peek_append_iff (by decide) c94).2 (peek_append_iff (by decide) cF0).2
        rw [if_pos h, if_pos h', tail_append_of_peek c t (by omega), iF]
        exact bind_map_comm _ _ _ _ _ (fun a => rfl)
      · have h' : ¬ (peek (skip_spaces a.2 ++ c :: t) = 94 ∨
            peek (skip_spaces a.2 ++ c :: t) = 0xF0) :=
          fun h2 => h (h2.imp (peek_append_iff (by decide) c94).1
            (peek_append_iff (by decide) cF0).1)
        rw [if_neg h, if_neg h']
        rfl
    · intro v s
      rw [term_loop_succ, term_loop_succ]
      by_cases h : peek s = 42 ∨ peek s = 47
      · have h' : peek (s ++ c :: t) = 42 ∨ peek (s ++ c :: t) = 47 :=
          h.imp (peek_append_iff (by decide) c42).2 (peek_append_iff (by decide) c47).2
        rw [if_pos h, if_pos h', tail_append_of_peek c t (by omega), iP]
        refine bind_map_comm _ _ _ _ _ (fun a => ?_)
        simp only [peek_append_iff (show (42 : Nat) ≠ 0 by decide) c42]
        exact iTL _ _
      · have h' : ¬ (peek (s ++ c :: t) = 42 ∨ peek (s ++ c :: t) = 47) :=
          fun h2 => h (h2.imp (peek_append_iff (by decide) c42).1
            (peek_append_iff (by decide) c47).1)
        rw [if_neg h, if_neg h']
        rfl
    · intro s
      rw [parse_term_succ, parse_term_succ, iP]
      refine bind_map_comm _ _ _ _ _ (fun a => ?_)
      simp only [skip_spaces_append a.2 t c32]
      exact iTL _ _
    · intro v s
      rw [expr_loop_succ, expr_loop_succ]
      by_cases h : peek s = 43 ∨ peek s = 45
      · have h' : peek (s ++ c :: t) = 43 ∨ peek (s ++ c :: t) = 45 :=
          h.imp (peek_append_iff (by decide) c43).2 (peek_append_iff (by decide) c45).2
        rw [if_pos h, if_pos h', tail_append_of_peek c t (by omega), iT]
        refine bind_map_comm _ _ _ _ _ (fun a => ?_)
        simp only [peek_append_iff (show (43 : Nat) ≠ 0 by decide) c43]
        exact iEL _ _
      · have h' : ¬ (peek (s ++ c :: t) = 43 ∨ peek (s ++ c :: t) = 45) :=
          fun h2 => h (h2.imp (peek_append_iff (by decide) c43).1
            (peek_append_iff (by decide) c45).1)
        rw [if_neg h, if_neg h']
        rfl
    · intro s
      rw [parse_expr_succ, parse_expr_succ, iT]
      refine bind_map_comm _ _ _ _ _ (fun a => ?_)
      simp only [skip_spaces_append a.2 t c32]
      exact iEL _ _

/-! ### Lexing an unsigned decimal integer literal -/

theorem is_digit_not_space {d : Nat} (h : is_digit d = true) : d ≠ 32 := by
  rintro rfl
  simp [is_digit] at h

theorem is_digit_num_token {d : Nat} (h : is_digit d = true) : is_num_token d = true := by
  simp only [is_digit, Bool.and_eq_true, decide_eq_true_eq] at h
  simp [is_num_token, h.1, h.2]

theorem num_char_digit {d : Nat} (h : is_digit d = true) : num_char d = d := by
  simp only [is_digit, Bool.and_eq_true, decide_eq_true_eq] at h
  have h1 : d ≠ 0x1B := by omega
  have h2 : ¬ (d = 0xB0 ∨ d = 45) := by omega
  simp [num_char, h1, h2]

theorem strtof_digits (ds : List Nat) (h : is_literal ds) :
    strtof ds = (digits_value ds : ℚ) := by
  obtain ⟨hne, hd⟩ := h
  have htake : ds.takeWhile is_digit = ds := List.takeWhile_eq_self_iff.2 hd
  have hdrop : ds.dropWhile is_digit = [] := List.dropWhile_eq_nil_iff.2 hd
  cases ds with
  | nil => exact absurd rfl hne
  | cons d t =>
    have hdd := hd d (List.mem_cons_self d t)
    simp only [is_digit, Bool.and_eq_true, decide_eq_true_eq] at hdd
    have h45 : d ≠ 45 := by omega
    have h43 : d ≠ 43 := by omega
    have hz : digits_value [] = 0 := rfl
    simp [strtof, htake, hdrop, h45, h43, hz]

theorem scan_number_digits (ds rest buf : List Nat) (hd : ∀ d ∈ ds, is_digit d = true)
    (hlen : buf.length + ds.length ≤ 31) (hrest : is_num_token (peek rest) = false) :
    scan_number buf (ds ++ rest) = (buf ++ ds, rest) := by
  induction ds generalizing buf with
  | nil =>
    cases rest with
    | nil => simp [scan_number]
    | cons a r =>
      have : is_num_token a = false := hrest
      simp [scan_number, this]
  | cons d t ih =>
    have hdd := hd d (List.mem_cons_self d t)
    simp only [List.cons_append, scan_number, is_digit_num_token hdd, num_char_digit hdd,
      if_true]
    simp only [List.length_cons] at hlen
    by_cases hfull : (buf ++ [d]).length > 30
    · rw [if_pos hfull]
      have ht : t = [] := by
        simp only [List.length_append, List.length_singleton] at hfull
        exact List.length_eq_zero.1 (by omega)
      subst ht
      cases rest with
      | nil => simp
      | cons a r => simp
    · have e := ih (buf ++ [d]) (fun x hx => hd x (List.mem_cons_of_mem d hx))
        (by simp only [List.length_append, List.length_singleton]; omega)
      rw [if_neg hfull]
      change scan_number (buf ++ [d]) (t ++ rest) = _
      rw [e]
      simp

theorem peek_cons (a : Nat) (s : List Nat) : peek (a :: s) = a := rfl

theorem skip_spaces_of_peek_ne {s : List Nat} (h : peek s ≠ 32) : skip_spaces s = s := by
  cases s with
  | nil => rfl
  | cons a t =>
    have : a ≠ 32 := h
    simp [skip_spaces, this]

theorem unary_fn_digit (L : Libm) {d : Nat} (h : is_digit d = true) : unary_fn L d = none := by
  simp only [is_digit, Bool.and_eq_true, decide_eq_true_eq] at h
  have h1 : ¬ (d = 45 ∨ d = 0xB0) := by omega
  have h2 : d ≠ 0xBC := by omega
  have h3 : d ≠ 0xC1 := by omega
  have h4 : d ≠ 0xC2 := by omega
  have h5 : d ≠ 0xC3 := by omega
  have h6 : d ≠ 0xC4 := by omega
  have h7 : d ≠ 0xC5 := by omega
  simp [unary_fn, h1, h2, h3, h4, h5, h6, h7]

theorem const_val_digit {d : Nat} (h : is_digit d = true) : const_val d = none := by
  simp only [is_digit, Bool.and_eq_true, decide_eq_true_eq] at h
  have h1 : d ≠ 0xAC := by omega
  have h2 : d ≠ 0xBB := by omega
  simp [const_val, h1, h2]

theorem parse_factor_literal (L : Libm) (F : Nat) (ds rest : List Nat) (hF : 1 ≤ F)
    (hlit : is_literal ds) (hlen : ds.length ≤ 31)
    (hrest : is_num_token (peek rest) = false) :
    parse_factor L F (ds ++ rest) = some ((digits_value ds : ℚ), rest) := by
  obtain ⟨f, rfl⟩ : ∃ f, F = f + 1 := ⟨F - 1, by omega⟩
  have hval := strtof_digits ds hlit
  have hscan := scan_number_digits ds rest [] hlit.2 (by simpa using hlen) hrest
  obtain ⟨hne, hd⟩ := hlit
  cases ds with
  | nil => exact absurd rfl hne
  | cons d t =>
    have hdd := hd d (List.mem_cons_self d t)
    have hsk : skip_spaces (d :: t ++ rest) = d :: t ++ rest :=
      skip_spaces_of_peek_ne (is_digit_not_space hdd)
    have hpk : peek (d :: t ++ rest) = d := rfl
    have h40 : d ≠ 40 := by
      simp only [is_digit, Bool.and_eq_true, decide_eq_true_eq] at hdd
      omega
    rw [parse_factor_succ, hsk, hpk, if_neg h40, unary_fn_digit L hdd, const_val_digit hdd]
    simp only [number_case, hscan, List.nil_append, List.length_cons, gt_iff_lt,
      Nat.zero_lt_succ, if_true, hval]

theorem parse_pow_pos (L : Libm) (F : Nat) (p : List Nat) (hF : 1 ≤ F) :
    parse_pow L F p =
      (parse_factor L (F - 1) p).bind (fun x =>
        if peek (skip_spaces x.2) = 94 ∨ peek (skip_spaces x.2) = 0xF0 then
          (parse_factor L (F - 1) (skip_spaces x.2).tail).bind
            (fun y => some (L.powf x.1 y.1, y.2))
        else some (x.1, skip_spaces x.2)) := by
  obtain ⟨f, rfl⟩ : ∃ f, F = f + 1 := ⟨F - 1, by omega⟩
  exact parse_pow_succ L f p

theorem term_loop_pos (L : Libm) (F : Nat) (val : ℚ) (s : List Nat) (hF : 1 ≤ F) :
    term_loop L F val s =
      if peek s = 42 ∨ peek s = 47 then
        (parse_pow L (F - 1) s.tail).bind (fun x =>
          term_loop L (F - 1)
            (if peek s = 42 then val * x.1 else if x.1 ≠ 0 then val / x.1 else val) x.2)
      else some (val, s) := by
  obtain ⟨f, rfl⟩ : ∃ f, F = f + 1 := ⟨F - 1, by omega⟩
  exact term_loop_succ L f val s

theorem parse_term_pos (L : Libm) (F : Nat) (p : List Nat) (hF : 1 ≤ F) :
    parse_term L F p =
      (parse_pow L (F - 1) p).bind (fun x => term_loop L (F - 1) x.1 (skip_spaces x.2)) := by
  obtain ⟨f, rfl⟩ : ∃ f, F = f + 1 := ⟨F - 1, by omega⟩
  exact parse_term_succ L f p

theorem expr_loop_pos (L : Libm) (F : Nat) (val : ℚ) (s : List Nat) (hF : 1 ≤ F) :
    expr_loop L F val s =
      if peek s = 43 ∨ peek s = 45 then
        (parse_term L (F - 1) s.tail).bind (fun x =>
          expr_loop L (F - 1) (if peek s = 43 then val + x.1 else val - x.1) x.2)
      else some (val, s) := by
  obtain ⟨f, rfl⟩ : ∃ f, F = f + 1 := ⟨F - 1, by omega⟩
  exact expr_loop_succ L f val s

theorem parse_expr_pos (L : Libm) (F : Nat) (p : List Nat) (hF : 1 ≤ F) :
    parse_expr L F p =
      (parse_term L (F - 1) p).bind (fun x => expr_loop L (F - 1) x.1 (skip_spaces x.2)) := by
  obtain ⟨f, rfl⟩ : ∃ f, F = f + 1 := ⟨F - 1, by omega⟩
  exact parse_expr_succ L f p

theorem parse_pow_literal (L : Libm) (F : Nat) (ds rest : List Nat) (hF : 2 ≤ F)
    (hlit : is_literal ds) (hlen : ds.length ≤ 31)
    (hrest : is_num_token (peek rest) = false) (h32 : peek rest ≠ 32)
    (h94 : peek rest ≠ 94) (hF0 : peek rest ≠ 0xF0) :
    parse_pow L F (ds ++ rest) = some ((digits_value ds : ℚ), rest) := by
  rw [parse_pow_pos L F _ (by omega),
    parse_factor_literal L (F - 1) ds rest (by omega) hlit hlen hrest]
  have : ¬ (peek rest = 94 ∨ peek rest = 0xF0) := fun h => h.elim h94 hF0
  simp only [Option.bind, skip_spaces_of_peek_ne h32, if_neg this]

theorem parse_term_literal (L : Libm) (F : Nat) (ds rest : List Nat) (hF : 3 ≤ F)
    (hlit : is_literal ds) (hlen : ds.length ≤ 31)
    (hrest : is_num_token (peek rest) = false) (h32 : peek rest ≠ 32)
    (h94 : peek rest ≠ 94) (hF0 : peek rest ≠ 0xF0) (h42 : peek rest ≠ 42)
    (h47 : peek rest ≠ 47) :
    parse_term L F (ds ++ rest) = some ((digits_value ds : ℚ), rest) := by
  rw [parse_term_pos L F _ (by omega),
    parse_pow_literal L (F - 1) ds rest (by omega) hlit hlen hrest h32 h94 hF0]
  have : ¬ (peek rest = 42 ∨ peek rest = 47) := fun h => h.elim h42 h47
  simp only [Option.bind, skip_spaces_of_peek_ne h32]
  rw [term_loop_pos L (F - 1) _ _ (by omega), if_neg this]

/-- Evaluation of `b*c` for two literals, up to a following byte that ends the term. -/
theorem parse_term_product (L : Libm) (F : Nat) (b c rest : List Nat) (hF : 4 ≤ F)
    (hb : is_literal b) (hbl : b.length ≤ 31) (hc : is_literal c) (hcl : c.length ≤ 31)
    (hrest : is_num_token (peek rest) = false) (h32 : peek rest ≠ 32)
    (h94 : peek rest ≠ 94) (hF0 : peek rest ≠ 0xF0) (h42 : peek rest ≠ 42)
    (h47 : peek rest ≠ 47) :
    parse_term L F (b ++ 42 :: (c ++ rest))
      = some ((digits_value b : ℚ) * (digits_value c : ℚ), rest) := by
  rw [parse_term_pos L F _ (by omega),
    parse_pow_literal L (F - 1) b (42 :: (c ++ rest)) (by omega) hb hbl rfl
      (by simp [peek_cons]) (by simp [peek_cons]) (by simp [peek_cons])]
  have hstop : ¬ (peek rest = 42 ∨ peek rest = 47) := fun h => h.elim h42 h47
  simp only [Option.bind, skip_spaces_of_peek_ne (show peek (42 :: (c ++ rest)) ≠ 32 by simp [peek_cons])]
  rw [term_loop_pos L (F - 1) _ _ (by omega), if_pos (Or.inl (peek_cons _ _))]
  simp only [List.tail_cons, peek_cons]
  rw [parse_pow_literal L (F - 1 - 1) c rest (by omega) hc hcl hrest h32 h94 hF0]
  simp only [Option.bind]
  rw [term_loop_pos L (F - 1 - 1) _ _ (by omega), if_neg hstop, if_true]

/-! ### Claims about the evaluator -/

theorem parse_expr_total (L : Libm) (s : List Nat) :
    ∃ v r, Consumed s r ∧ ∀ fuel, fuelFor s ≤ fuel → parse_expr L fuel s = some (v, r) := by
  obtain ⟨⟨v, r⟩, h, hc⟩ := (parser_total_aux L (fuelFor s)).2.2.2.2.2 s (le_refl _)
  exact ⟨v, r, hc, fun fuel hf => parse_expr_fuel_mono L _ fuel hf s _ h⟩

theorem parse_term_total (L : Libm) (s : List Nat) :
    ∃ v r, Consumed s r ∧ ∀ fuel, fuelFor s ≤ fuel → parse_term L fuel s = some (v, r) := by
  obtain ⟨⟨v, r⟩, h, hc⟩ := (parser_total_aux L (fuelFor s)).2.2.2.1 s
    (by unfold fuelFor; omega)
  exact ⟨v, r, hc, fun fuel hf => parse_term_fuel_mono L _ fuel hf s _ h⟩

theorem parse_pow_total (L : Libm) (s : List Nat) :
    ∃ v r, Consumed s r ∧ ∀ fuel, fuelFor s ≤ fuel → parse_pow L fuel s = some (v, r) := by
  obtain ⟨⟨v, r⟩, h, hc⟩ := (parser_total_aux L (fuelFor s)).2.1 s (by unfold fuelFor; omega)
  exact ⟨v, r, hc, fun fuel hf => parse_pow_fuel_mono L _ fuel hf s _ h⟩

theorem parse_factor_total (L : Libm) (s : List Nat) :
    ∃ v r, Consumed s r ∧ ∀ fuel, fuelFor s ≤ fuel → parse_factor L fuel s = some (v, r) := by
  obtain ⟨⟨v, r⟩, h, hc⟩ := (parser_total_aux L (fuelFor s)).1 s (by unfold fuelFor; omega)
  exact ⟨v, r, hc, fun fuel hf => parse_factor_fuel_mono L _ fuel hf s _ h⟩

/-- C8. The evaluator is total: for every input, each of `parse_expr`,
`parse_term`, `parse_pow` and `parse_factor` returns a value and a cursor as
soon as the fuel is at least `fuelFor s = 4 * length + 4` (a bound linear in the
remaining input, the decreasing measure), the result does not depend on the
fuel above that bound, and the cursor has advanced only over bytes other than
NUL: the input is `pre ++ rest` with no `0` in the consumed part `pre`. -/
theorem evaluator_total (L : Libm) (s : List Nat) :
    (∃ v pre rest, s = pre ++ rest ∧ 0 ∉ pre ∧
      ∀ fuel, fuelFor s ≤ fuel → parse_expr L fuel s = some (v, rest)) ∧
    (∃ v pre rest, s = pre ++ rest ∧ 0 ∉ pre ∧
      ∀ fuel, fuelFor s ≤ fuel → parse_term L fuel s = some (v, rest)) ∧
    (∃ v pre rest, s = pre ++ rest ∧ 0 ∉ pre ∧
      ∀ fuel, fuelFor s ≤ fuel → parse_pow L fuel s = some (v, rest)) ∧
    (∃ v pre rest, s = pre ++ rest ∧ 0 ∉ pre ∧
      ∀ fuel, fuelFor s ≤ fuel → parse_factor L fuel s = some (v, rest)) := by
  obtain ⟨v1, r1, ⟨p1, e1, n1⟩, h1⟩ := parse_expr_total L s
  obtain ⟨v2, r2, ⟨p2, e2, n2⟩, h2⟩ := parse_term_total L s
  obtain ⟨v3, r3, ⟨p3, e3, n3⟩, h3⟩ := parse_pow_total L s
  obtain ⟨v4, r4, ⟨p4, e4, n4⟩, h4⟩ := parse_factor_total L s
  exact ⟨⟨v1, p1, r1, e1, n1, h1⟩, ⟨v2, p2, r2, e2, n2, h2⟩, ⟨v3, p3, r3, e3, n3, h3⟩,
    ⟨v4, p4, r4, e4, n4, h4⟩⟩

/-- Witness for C8: on `"(2+3)*4"` followed by a NUL and further bytes,
`parse_expr` returns `20` with the cursor on the NUL. -/
theorem evaluator_total_witness :
    parse_expr sample_libm (fuelFor (bytes "(2+3)*4" ++ 0 :: bytes "+1"))
      (bytes "(2+3)*4" ++ 0 :: bytes "+1") = some (20, 0 :: bytes "+1") := by
  obtain ⟨v, pre, rest, _, _, h⟩ :=
    (evaluator_total sample_libm (bytes "(2+3)*4" ++ 0 :: bytes "+1")).1
  have h' := h _ (le_refl _)
  rw [h']
  have e : parse_expr sample_libm (fuelFor (bytes "(2+3)*4" ++ 0 :: bytes "+1"))
      (bytes "(2+3)*4" ++ 0 :: bytes "+1") = some (20, 0 :: bytes "+1") := by
    with_unfolding_all rfl
  rw [h'] at e
  exact e

theorem parse_expr_append_unrecognized (L : Libm) (s t : List Nat) (c : Nat)
    (hc : recognized c = false) :
    ∃ v r, (∀ fuel, fuelFor s ≤ fuel → parse_expr L fuel s = some (v, r)) ∧
      (∀ fuel, fuelFor (s ++ c :: t) ≤ fuel →
        parse_expr L fuel (s ++ c :: t) = some (v, r ++ c :: t)) := by
  obtain ⟨v, r, _, h⟩ := parse_expr_total L s
  refine ⟨v, r, h, fun fuel hf => ?_⟩
  have hle : fuelFor s ≤ fuel := by
    unfold fuelFor at hf ⊢
    simp only [List.length_append, List.length_cons] at hf
    omega
  rw [(parser_append_aux L c t hc fuel).2.2.2.2.2 s, h fuel hle]
  rfl

/-- C9. The evaluator stops at the first unrecognized token and returns the
partial value: for every input `s`, every byte `c` that the evaluator does not
recognize and every suffix `t`, evaluating `s ++ [c] ++ t` returns the value
that evaluating `s` alone returns, and leaves the cursor where it stops on `s`,
in front of `c` at the latest. The input `"2+3x4"` evaluates to `5`. -/
theorem parse_expr_stops_at_unrecognized :
    (∀ (L : Libm) (s t : List Nat) (c : Nat), recognized c = false →
      ∃ v r, (∀ fuel, fuelFor s ≤ fuel → parse_expr L fuel s = some (v, r)) ∧
        (∀ fuel, fuelFor (s ++ c :: t) ≤ fuel →
          parse_expr L fuel (s ++ c :: t) = some (v, r ++ c :: t))) ∧
    (∀ (L : Libm) (fuel : Nat), fuelFor (bytes "2+3x4") ≤ fuel →
      parse_expr L fuel (bytes "2+3x4") = some (5, bytes "x4")) := by
  refine ⟨parse_expr_append_unrecognized, fun L fuel hf => ?_⟩
  have h : parse_expr L (fuelFor (bytes "2+3x4")) (bytes "2+3x4") = some (5, bytes "x4") := by
    with_unfolding_all rfl
  exact parse_expr_fuel_mono L _ fuel hf _ _ h

/-- Witness for C9 at `s = "2+3"`, `c = 'x'`, `t = "4"`: `'x'` is not
recognized, and both `"2+3"` and `"2+3x4"` evaluate to `5`. -/
theorem parse_expr_stops_at_unrecognized_witness :
    recognized 120 = false ∧
    parse_expr sample_libm (fuelFor (bytes "2+3")) (bytes "2+3") = some (5, []) ∧
    parse_expr sample_libm (fuelFor (bytes "2+3x4")) (bytes "2+3x4") = some (5, bytes "x4") := by
  obtain ⟨v, r, h1, h2⟩ :=
    parse_expr_stops_at_unrecognized.1 sample_libm (bytes "2+3") (bytes "4") 120 (by decide)
  have e : parse_expr sample_libm (fuelFor (bytes "2+3")) (bytes "2+3") = some (5, []) := by
    with_unfolding_all rfl
  refine ⟨by decide, e, ?_⟩
  have hv := (h1 _ (le_refl _)).symm.trans e
  simp only [Option.some.injEq, Prod.mk.injEq] at hv
  have h3 := h2 (fuelFor (bytes "2+3x4")) (le_refl _)
  rw [hv.1, hv.2] at h3
  exact h3

theorem literal_length_pos {ds : List Nat} (h : is_literal ds) : 1 ≤ ds.length := by
  cases ds with
  | nil => exact absurd rfl h.1
  | cons d t => simp

theorem parse_factor_pos (L : Libm) (F : Nat) (p : List Nat) (hF : 1 ≤ F) :
    parse_factor L F p =
      if peek (skip_spaces p) = 40 then
        (parse_expr L (F - 1) (skip_spaces p).tail).bind
          (fun x => some (x.1, if peek x.2 = 41 then x.2.tail else x.2))
      else match unary_fn L (peek (skip_spaces p)) with
        | some g =>
          (parse_factor L (F - 1) (skip_spaces p).tail).bind (fun x => some (g x.1, x.2))
        | none =>
          match const_val (peek (skip_spaces p)) with
          | some c => some (c, (skip_spaces p).tail)
          | none => some (number_case (skip_spaces p)) := by
  obtain ⟨f, rfl⟩ : ∃ f, F = f + 1 := ⟨F - 1, by omega⟩
  exact parse_factor_succ L f p

/-- Evaluation of `a+b` for two literals, up to a following byte that ends the
expression. -/
theorem parse_expr_sum (L : Libm) (F : Nat) (a b rest : List Nat) (hF : 5 ≤ F)
    (ha : is_literal a) (hal : a.length ≤ 31) (hb : is_literal b) (hbl : b.length ≤ 31)
    (hrest : is_num_token (peek rest) = false) (h32 : peek rest ≠ 32)
    (h94 : peek rest ≠ 94) (hF0 : peek rest ≠ 0xF0) (h42 : peek rest ≠ 42)
    (h47 : peek rest ≠ 47) (h43 : peek rest ≠ 43) (h45 : peek rest ≠ 45) :
    parse_expr L F (a ++ 43 :: (b ++ rest))
      = some ((digits_value a : ℚ) + (digits_value b : ℚ), rest) := by
  have hstop : ¬ (peek rest = 43 ∨ peek rest = 45) := fun h => h.elim h43 h45
  rw [parse_expr_pos L F _ (by omega),
    parse_term_literal L (F - 1) a (43 :: (b ++ rest)) (by omega) ha hal rfl
      (by simp [peek_cons]) (by simp [peek_cons]) (by simp [peek_cons]) (by simp [peek_cons])
      (by simp [peek_cons])]
  simp only [Option.bind, skip_spaces_of_peek_ne (show peek (43 :: (b ++ rest)) ≠ 32 by
    simp [peek_cons])]
  rw [expr_loop_pos L (F - 1) _ _ (by omega), if_pos (Or.inl (peek_cons _ _))]
  simp only [List.tail_cons, peek_cons]
  rw [parse_term_literal L (F - 1 - 1) b rest (by omega) hb hbl hrest h32 h94 hF0 h42 h47]
  simp only [Option.bind]
  rw [expr_loop_pos L (F - 1 - 1) _ _ (by omega), if_neg hstop, if_true]

theorem parse_expr_sum_of_product (L : Libm) (F : Nat) (a b c : List Nat) (hF : 6 ≤ F)
    (ha : is_literal a) (hal : a.length ≤ 31) (hb : is_literal b) (hbl : b.length ≤ 31)
    (hc : is_literal c) (hcl : c.length ≤ 31) :
    parse_expr L F (a ++ 43 :: (b ++ 42 :: (c ++ [])))
      = some ((digits_value a : ℚ) + (digits_value b : ℚ) * (digits_value c : ℚ), []) := by
  rw [parse_expr_pos L F _ (by omega),
    parse_term_literal L (F - 1) a (43 :: (b ++ 42 :: (c ++ []))) (by omega) ha hal rfl
      (by simp [peek_cons]) (by simp [peek_cons]) (by simp [peek_cons]) (by simp [peek_cons])
      (by simp [peek_cons])]
  simp only [Option.bind, skip_spaces_of_peek_ne
    (show peek (43 :: (b ++ 42 :: (c ++ []))) ≠ 32 by simp [peek_cons])]
  rw [expr_loop_pos L (F - 1) _ _ (by omega), if_pos (Or.inl (peek_cons _ _))]
  simp only [List.tail_cons, peek_cons]
  rw [parse_term_product L (F - 1 - 1) b c [] (by omega) hb hbl hc hcl rfl (by decide)
    (by decide) (by decide) (by decide) (by decide)]
  simp only [Option.bind]
  rw [expr_loop_pos L (F - 1 - 1) _ _ (by omega), if_neg (by decide), if_true]

theorem parse_expr_product_of_sum (L : Libm) (F : Nat) (a b c : List Nat) (hF : 10 ≤ F)
    (ha : is_literal a) (hal : a.length ≤ 31) (hb : is_literal b) (hbl : b.length ≤ 31)
    (hc : is_literal c) (hcl : c.length ≤ 31) :
    parse_expr L F (40 :: (a ++ 43 :: (b ++ 41 :: 42 :: (c ++ []))))
      = some (((digits_value a : ℚ) + (digits_value b : ℚ)) * (digits_value c : ℚ), []) := by
  have hinner := parse_expr_sum L (F - 1 - 1 - 1 - 1) a b (41 :: 42 :: (c ++ [])) (by omega)
    ha hal hb hbl rfl (by simp [peek_cons]) (by simp [peek_cons]) (by simp [peek_cons])
    (by simp [peek_cons]) (by simp [peek_cons]) (by simp [peek_cons]) (by simp [peek_cons])
  have hfac : parse_factor L (F - 1 - 1 - 1) (40 :: (a ++ 43 :: (b ++ 41 :: 42 :: (c ++ []))))
      = some ((digits_value a : ℚ) + (digits_value b : ℚ), 42 :: (c ++ [])) := by
    rw [parse_factor_pos L _ _ (by omega), skip_spaces_of_peek_ne (by simp [peek_cons]),
      if_pos (peek_cons _ _)]
    simp only [List.tail_cons]
    rw [hinner]
    simp only [Option.bind, peek_cons, if_true, List.tail_cons]
  have hpow : parse_pow L (F - 1 - 1) (40 :: (a ++ 43 :: (b ++ 41 :: 42 :: (c ++ []))))
      = some ((digits_value a : ℚ) + (digits_value b : ℚ), 42 :: (c ++ [])) := by
    rw [parse_pow_pos L _ _ (by omega), hfac]
    simp only [Option.bind, skip_spaces_of_peek_ne
      (show peek (42 :: (c ++ [])) ≠ 32 by simp [peek_cons]), peek_cons]
    rw [if_neg (by decide)]
  rw [parse_expr_pos L F _ (by omega), parse_term_pos L _ _ (by omega), hpow]
  simp only [Option.bind, skip_spaces_of_peek_ne
    (show peek (42 :: (c ++ [])) ≠ 32 by simp [peek_cons])]
  rw [term_loop_pos L _ _ _ (by omega), if_pos (Or.inl (peek_cons _ _))]
  simp only [List.tail_cons, peek_cons]
  rw [parse_pow_literal L _ c [] (by omega) hc hcl rfl (by decide) (by decide) (by decide)]
  simp only [Option.bind, if_true]
  rw [term_loop_pos L _ _ _ (by omega), if_neg (by decide)]
  simp only [Option.bind]
  rw [expr_loop_pos L _ _ _ (by omega), if_neg (by decide)]
  rfl

theorem is_literal_bytes_2 : is_literal (bytes "2") := ⟨by decide, by decide⟩
theorem is_literal_bytes_3 : is_literal (bytes "3") := ⟨by decide, by decide⟩
theorem is_literal_bytes_4 : is_literal (bytes "4") := ⟨by decide, by decide⟩
theorem is_literal_bytes_7 : is_literal (bytes "7") := ⟨by decide, by decide⟩

theorem term_loop_skips_zero_divisor (L : Libm) (F : Nat) (v : ℚ) (s r : List Nat)
    (hs : peek s = 47) (h0 : parse_pow L F s.tail = some (0, r)) :
    term_loop L (F + 1) v s = term_loop L F v r := by
  have h42 : peek s ≠ 42 := by omega
  rw [term_loop_succ, if_pos (Or.inr hs), h0]
  simp only [Option.bind, if_neg h42, ne_eq, not_true_eq_false, if_false]

theorem is_literal_zero : is_literal [48] := ⟨by decide, by decide⟩

theorem parse_expr_div_zero (L : Libm) (F : Nat) (a : List Nat) (hF : 6 ≤ F)
    (ha : is_literal a) (hal : a.length ≤ 31) :
    parse_expr L F (a ++ 47 :: ([48] ++ [])) = some ((digits_value a : ℚ), []) := by
  have hz : parse_pow L (F - 1 - 1 - 1) ([48] ++ []) = some (((0 : Nat) : ℚ), []) :=
    parse_pow_literal L _ [48] [] (by omega) is_literal_zero (by decide) rfl (by decide)
      (by decide) (by decide)
  rw [parse_expr_pos L F _ (by omega), parse_term_pos L _ _ (by omega),
    parse_pow_literal L _ a (47 :: ([48] ++ [])) (by omega) ha hal rfl (by simp [peek_cons])
      (by simp [peek_cons]) (by simp [peek_cons])]
  simp only [Option.bind, skip_spaces_of_peek_ne
    (show peek (47 :: ([48] ++ [])) ≠ 32 by simp [peek_cons])]
  rw [term_loop_pos L _ _ _ (by omega), if_pos (Or.inr (peek_cons _ _))]
  simp only [List.tail_cons, peek_cons]
  rw [hz]
  simp only [Option.bind, Nat.cast_zero, ne_eq, not_true_eq_false, if_false]
  rw [if_neg (by decide), term_loop_pos L _ _ _ (by omega), if_neg (by decide)]
  simp only [Option.bind]
  rw [expr_loop_pos L _ _ _ (by omega), if_neg (by decide)]
  rfl

theorem parse_expr_div_zero_times (L : Libm) (F : Nat) (a b : List Nat) (hF : 7 ≤ F)
    (ha : is_literal a) (hal : a.length ≤ 31) (hb : is_literal b) (hbl : b.length ≤ 31) :
    parse_expr L F (a ++ 47 :: ([48] ++ 42 :: (b ++ [])))
      = some ((digits_value a : ℚ) * (digits_value b : ℚ), []) := by
  have hz : parse_pow L (F - 1 - 1 - 1) ([48] ++ 42 :: (b ++ []))
      = some (((0 : Nat) : ℚ), 42 :: (b ++ [])) :=
    parse_pow_literal L _ [48] _ (by omega) is_literal_zero (by decide) rfl
      (by simp [peek_cons]) (by simp [peek_cons]) (by simp [peek_cons])
  rw [parse_expr_pos L F _ (by omega), parse_term_pos L _ _ (by omega),
    parse_pow_literal L _ a (47 :: ([48] ++ 42 :: (b ++ []))) (by omega) ha hal rfl
      (by simp [peek_cons]) (by simp [peek_cons]) (by simp [peek_cons])]
  simp only [Option.bind, skip_spaces_of_peek_ne
    (show peek (47 :: ([48] ++ 42 :: (b ++ []))) ≠ 32 by simp [peek_cons])]
  rw [term_loop_pos L _ _ _ (by omega), if_pos (Or.inr (peek_cons _ _))]
  simp only [List.tail_cons, peek_cons]
  rw [hz]
  simp only [Option.bind, Nat.cast_zero, ne_eq, not_true_eq_false, if_false]
  rw [if_neg (by decide), term_loop_pos L _ _ _ (by omega), if_pos (Or.inl (peek_cons _ _))]
  simp only [List.tail_cons, peek_cons]
  rw [parse_pow_literal L _ b [] (by omega) hb hbl rfl (by decide) (by decide) (by decide)]
  simp only [Option.bind, if_true]
  rw [term_loop_pos L _ _ _ (by omega), if_neg (by decide)]
  simp only [Option.bind]
  rw [expr_loop_pos L _ _ _ (by omega), if_neg (by decide)]
  rfl

/-- C2 (the code at the failing input). On `"5-3"` the number loop of
`parse_factor` takes the `'-'` and the `3` into the literal, `strtof` converts
the prefix `"5"` of the buffer `"5-3"`, and `parse_expr` returns `5` with the
whole input consumed; with spaces around the operator, `"5 - 3"`, it
returns `2`. -/
theorem parse_expr_minus_inside_literal (L : Libm) (n : Nat) :
    parse_expr L (fuelFor (bytes "5-3") + n) (bytes "5-3") = some (5, []) ∧
    scan_number [] (bytes "5-3") = (bytes "5-3", []) ∧
    parse_expr L (fuelFor (bytes "5 - 3") + n) (bytes "5 - 3") = some (2, []) := by
  have h1 : parse_expr L (fuelFor (bytes "5-3")) (bytes "5-3") = some (5, []) := by
    with_unfolding_all rfl
  have h2 : parse_expr L (fuelFor (bytes "5 - 3")) (bytes "5 - 3") = some (2, []) := by
    with_unfolding_all rfl
  exact ⟨parse_expr_fuel_mono L _ _ (Nat.le_add_right _ n) _ _ h1, by decide,
    parse_expr_fuel_mono L _ _ (Nat.le_add_right _ n) _ _ h2⟩

/-- C10 (the code at the failing input). `"2*3^2*4"` evaluates to
`2 * powf(3,2) * 4`, but with a space inserted in front of the second `'*'`,
`"2*3^2 *4"`, the loop of `parse_term` stops at the space and `parse_expr`
returns `2 * powf(3,2)` with the cursor left on `"*4"`: `72` against `18` when
`powf` is exact. -/
theorem parse_expr_space_after_power (L : Libm) (n : Nat) :
    parse_expr L (fuelFor (bytes "2*3^2*4") + n) (bytes "2*3^2*4")
      = some (2 * L.powf 3 2 * 4, []) ∧
    parse_expr L (fuelFor (bytes "2*3^2 *4") + n) (bytes "2*3^2 *4")
      = some (2 * L.powf 3 2, bytes "*4") ∧
    parse_expr sample_libm (fuelFor (bytes "2*3^2*4") + n) (bytes "2*3^2*4")
      = some (72, []) ∧
    parse_expr sample_libm (fuelFor (bytes "2*3^2 *4") + n) (bytes "2*3^2 *4")
      = some (18, bytes "*4") := by
  have h1 : parse_expr L (fuelFor (bytes "2*3^2*4")) (bytes "2*3^2*4")
      = some (2 * L.powf 3 2 * 4, []) := by
    with_unfolding_all rfl
  have h2 : parse_expr L (fuelFor (bytes "2*3^2 *4")) (bytes "2*3^2 *4")
      = some (2 * L.powf 3 2, bytes "*4") := by
    with_unfolding_all rfl
  have h3 : parse_expr sample_libm (fuelFor (bytes "2*3^2*4")) (bytes "2*3^2*4")
      = some (72, []) := by
    with_unfolding_all rfl
  have h4 : parse_expr sample_libm (fuelFor (bytes "2*3^2 *4")) (bytes "2*3^2 *4")
      = some (18, bytes "*4") := by
    with_unfolding_all rfl
  exact ⟨parse_expr_fuel_mono L _ _ (Nat.le_add_right _ n) _ _ h1,
    parse_expr_fuel_mono L _ _ (Nat.le_add_right _ n) _ _ h2,
    parse_expr_fuel_mono _ _ _ (Nat.le_add_right _ n) _ _ h3,
    parse_expr_fuel_mono _ _ _ (Nat.le_add_right _ n) _ _ h4⟩

/-! ### Forward elimination: what the pivots that divide give -/

theorem elim_upto_zero_M (st : State) : (elim_upto st 0).M = st.A := rfl

theorem elim_upto_equiv (st : State) (hp : ∀ i, i + 1 < st.n → pivot st i ≠ 0) (k : Nat)
    (hk : k ≤ st.n) :
    (∀ c r, c < k → c < r → r < st.n → (elim_upto st k).M r c = 0) ∧
    (∀ X' : Nat → complex_t,
      (∀ r, r < st.n →
        (Finset.range st.n).sum (fun c => (elim_upto st k).M r c * X' c)
          = (elim_upto st k).M r st.n) ↔
      (∀ r, r < st.n → (Finset.range st.n).sum (fun c => st.A r c * X' c) = st.A r st.n)) := by
  induction k with
  | zero =>
    exact ⟨fun c r hc => absurd hc (Nat.not_lt_zero c), fun X' => Iff.rfl⟩
  | succ k ih =>
    obtain ⟨ihz, ihs⟩ := ih (by omega)
    have hn : (elim_upto st k).n = st.n := (elim_upto_frame st k).2.2
    have hM := (elim_column_spec k (elim_upto st k)).2.2.2
    rw [hn] at hM
    rw [elim_upto_succ]
    have hrowk : ∀ c, (elim_column k (elim_upto st k)).M k c = (elim_upto st k).M k c := by
      intro c
      have ek : ¬ (k < k ∧ k < st.n ∧ k ≤ c ∧ c ≤ st.n) := by omega
      rw [hM k c, if_neg ek]
    have hrow : ∀ r c, k < r → r < st.n → c ≤ st.n → (elim_upto st k).M r c =
        (elim_column k (elim_upto st k)).M r c +
          c_div ((elim_upto st k).M r k) ((elim_upto st k).M k k)
            * (elim_upto st k).M k c := by
      intro r c hrk hr hc
      rw [hM r c]
      by_cases hkc : k ≤ c
      · rw [if_pos ⟨hrk, hr, hkc, hc⟩]
        ring
      · have e : ¬ (k < r ∧ r < st.n ∧ k ≤ c ∧ c ≤ st.n) := by omega
        rw [if_neg e, ihz c k (by omega) (by omega) (by omega)]
        ring
    have hsame : ∀ r c, ¬ k < r → (elim_column k (elim_upto st k)).M r c
        = (elim_upto st k).M r c := by
      intro r c hrk
      have e : ¬ (k < r ∧ r < st.n ∧ k ≤ c ∧ c ≤ st.n) := by omega
      rw [hM r c, if_neg e]
    have hsum : ∀ (X' : Nat → complex_t) r, k < r → r < st.n →
        (Finset.range st.n).sum (fun c => (elim_upto st k).M r c * X' c) =
        (Finset.range st.n).sum (fun c => (elim_column k (elim_upto st k)).M r c * X' c) +
          c_div ((elim_upto st k).M r k) ((elim_upto st k).M k k) *
            (Finset.range st.n).sum (fun c => (elim_upto st k).M k c * X' c) := by
      intro X' r hrk hr
      rw [Finset.mul_sum, ← Finset.sum_add_distrib]
      refine Finset.sum_congr rfl (fun c hc => ?_)
      rw [hrow r c hrk hr (le_of_lt (Finset.mem_range.1 hc))]
      ring
    refine ⟨fun c r hc hcr hr => ?_, fun X' => Iff.trans ⟨fun hX r hr => ?_, fun hX r hr => ?_⟩
      (ihs X')⟩
    · rw [hM r c]
      rcases Nat.lt_succ_iff_lt_or_eq.1 hc with h | h
      · have : ¬ (k < r ∧ r < st.n ∧ k ≤ c ∧ c ≤ st.n) := by omega
        rw [if_neg this]
        exact ihz c r h hcr hr
      · subst h
        have : c < r ∧ r < st.n ∧ c ≤ c ∧ c ≤ st.n := by omega
        have hpc : (elim_upto st c).M c c ≠ 0 := hp c (by omega)
        rw [if_pos this, c_div_mul_cancel _ _ hpc, sub_self]
    · by_cases hrk : k < r
      · have hk' := hX k (by omega)
        simp only [hrowk] at hk'
        rw [hsum X' r hrk hr, hX r hr, hk', hrow r st.n hrk hr (le_refl _)]
      · have := hX r hr
        simp only [hsame r _ hrk] at this
        exact this
    · by_cases hrk : k < r
      · have h1 := hsum X' r hrk hr
        have h2 := hrow r st.n hrk hr (le_refl _)
        rw [hX r hr, hX k (by omega)] at h1
        linear_combination h2 - h1
      · simp only [hsame r _ hrk]
        exact hX r hr

theorem elim_upto_M_congr (st1 st2 : State) (hA : st1.A = st2.A) (hn : st1.n = st2.n)
    (k : Nat) : (elim_upto st1 k).M = (elim_upto st2 k).M := by
  induction k with
  | zero => exact hA
  | succ k ih =>
    funext r c
    rw [elim_upto_succ, elim_upto_succ, (elim_column_spec k _).2.2.2 r c,
      (elim_column_spec k _).2.2.2 r c, (elim_upto_frame st1 k).2.2,
      (elim_upto_frame st2 k).2.2, ih, hn]

theorem solve_step_X_congr (st1 st2 : State) (hA : st1.A = st2.A) (hn : st1.n = st2.n) :
    ∀ r, r < st1.n → (solve_step st1).X r = (solve_step st2).X r := by
  have hM := elim_upto_M_congr st1 st2 hA hn st1.n
  have b1 := (back_subst_spec (elim_upto st1 st1.n)).2.2.2.2
  have b2 := (back_subst_spec (elim_upto st2 st2.n)).2.2.2.2
  rw [(elim_upto_frame st1 st1.n).2.2] at b1
  rw [(elim_upto_frame st2 st2.n).2.2, ← hn, ← hM] at b2
  rw [solve_step_eq, solve_step_eq, ← hn]
  have key : ∀ d r, r < st1.n → st1.n - r ≤ d →
      (back_subst (elim_upto st1 st1.n)).X r = (back_subst (elim_upto st2 st1.n)).X r := by
    intro d
    induction d with
    | zero => intro r hr hd; omega
    | succ d ih =>
      intro r hr hd
      rw [b1 r hr, b2 r hr]
      congr 2
      refine Finset.sum_congr rfl (fun j hj => ?_)
      have hj' := Finset.mem_Ico.1 hj
      rw [ih j hj'.2 (by omega)]
  exact fun r hr => key (st1.n - r) r hr (le_refl _)

/-! ### Rows of the eliminated matrix and the computed vector -/

theorem c_div_by_zero (a : complex_t) : c_div a 0 = 0 := by
  show c_div a ⟨0, 0⟩ = ⟨0, 0⟩
  simp [c_div]

theorem solve_step_X_formula (st : State) (r : Nat) (hr : r < st.n) :
    (solve_step st).X r =
      c_div ((elim_upto st st.n).M r st.n - (Finset.Ico (r + 1) st.n).sum
        (fun j => (elim_upto st st.n).M r j * (solve_step st).X j))
        ((elim_upto st st.n).M r r) := by
  have b := (back_subst_spec (elim_upto st st.n)).2.2.2.2
  rw [(elim_upto_frame st st.n).2.2] at b
  rw [solve_step_eq]
  exact b r hr

theorem solve_step_zero_pivot (st : State) (r : Nat) (hr : r < st.n)
    (h0 : (elim_upto st st.n).M r r = 0) : (solve_step st).X r = 0 := by
  rw [solve_step_X_formula st r hr, h0, c_div_by_zero]

theorem eliminated_row_sum (st : State) (r : Nat) (hr : r < st.n)
    (hz : ∀ c, c < r → (elim_upto st st.n).M r c = 0) (X : Nat → complex_t) :
    (Finset.range st.n).sum (fun c => (elim_upto st st.n).M r c * X c) =
      (elim_upto st st.n).M r r * X r +
        (Finset.Ico (r + 1) st.n).sum (fun c => (elim_upto st st.n).M r c * X c) := by
  have hlow : (Finset.Ico 0 r).sum (fun c => (elim_upto st st.n).M r c * X c) = 0 := by
    refine Finset.sum_eq_zero (fun c hc => ?_)
    rw [hz c (Finset.mem_Ico.1 hc).2, zero_mul]
  rw [Finset.range_eq_Ico, ← Finset.sum_Ico_consecutive _ (Nat.zero_le r) (le_of_lt hr), hlow,
    zero_add, Finset.sum_eq_sum_Ico_succ_bot hr]

theorem solve_step_row_of_pivot (st : State) (r : Nat) (hr : r < st.n)
    (hz : ∀ c, c < r → (elim_upto st st.n).M r c = 0)
    (hd : (elim_upto st st.n).M r r ≠ 0) :
    (Finset.range st.n).sum (fun c => (elim_upto st st.n).M r c * (solve_step st).X c)
      = (elim_upto st st.n).M r st.n := by
  rw [eliminated_row_sum st r hr hz]
  conv_lhs => rw [solve_step_X_formula st r hr, mul_comm, c_div_mul_cancel _ _ hd]
  ring

/-- With non-zero pivots before the last one and a zero last pivot, the computed
vector satisfies the system exactly when the eliminated right-hand side of the
last row is zero, which is also exactly when the system has a solution. -/
theorem solve_step_last_pivot_zero (st : State) (hn : 1 ≤ st.n)
    (hp : ∀ i, i + 1 < st.n → pivot st i ≠ 0) (h0 : pivot st (st.n - 1) = 0) :
    ((∀ r, r < st.n →
        (Finset.range st.n).sum (fun c => st.A r c * (solve_step st).X c) = st.A r st.n)
      ↔ (elim_upto st st.n).M (st.n - 1) st.n = 0) ∧
    ((∃ X' : Nat → complex_t, ∀ r, r < st.n →
        (Finset.range st.n).sum (fun c => st.A r c * X' c) = st.A r st.n)
      ↔ (elim_upto st st.n).M (st.n - 1) st.n = 0) := by
  obtain ⟨hz, hs⟩ := elim_upto_equiv st hp st.n (le_refl _)
  have hlast : (elim_upto st st.n).M (st.n - 1) (st.n - 1) = 0 := by
    rw [elim_upto_row_stable st (st.n - 1) st.n (by omega)]
    exact h0
  have hrowlast : ∀ X : Nat → complex_t,
      (Finset.range st.n).sum (fun c => (elim_upto st st.n).M (st.n - 1) c * X c) = 0 := by
    intro X
    rw [eliminated_row_sum st (st.n - 1) (by omega)
      (fun c hc => hz c (st.n - 1) (by omega) hc (by omega)), hlast, zero_mul, zero_add]
    have : st.n - 1 + 1 = st.n := by omega
    rw [this, Finset.Ico_self, Finset.sum_empty]
  have hfwd : (elim_upto st st.n).M (st.n - 1) st.n = 0 →
      ∀ r, r < st.n →
        (Finset.range st.n).sum (fun c => st.A r c * (solve_step st).X c) = st.A r st.n := by
    intro hrhs
    refine (hs _).1 (fun r hr => ?_)
    by_cases hrl : r + 1 < st.n
    · refine solve_step_row_of_pivot st r hr (fun c hc => hz c r (by omega) hc hr) ?_
      rw [elim_upto_row_stable st r st.n (le_of_lt hr)]
      exact hp r hrl
    · have : r = st.n - 1 := by omega
      subst this
      rw [hrowlast, hrhs]
  have hback : ∀ X' : Nat → complex_t,
      (∀ r, r < st.n →
        (Finset.range st.n).sum (fun c => st.A r c * X' c) = st.A r st.n) →
      (elim_upto st st.n).M (st.n - 1) st.n = 0 := by
    intro X' hX'
    have := (hs X').2 hX' (st.n - 1) (by omega)
    rw [hrowlast] at this
    exact this.symm
  exact ⟨⟨hback _, hfwd⟩, ⟨fun ⟨X', hX'⟩ => hback X' hX', fun h => ⟨_, hfwd h⟩⟩⟩

/-! ### Further claims about the solver -/

theorem singular_inconsistent_facts (M0 : Nat → Nat → complex_t) (X0 : Nat → complex_t) :
    (forward_elim { singular_inconsistent_state M0 X0 with
      M := (singular_inconsistent_state M0 X0).A }).M 1 1 = ⟨0, 0⟩ ∧
    (solve_step (singular_inconsistent_state M0 X0)).X 0 = ⟨1, 0⟩ ∧
    (solve_step (singular_inconsistent_state M0 X0)).X 1 = ⟨0, 0⟩ := by
  refine ⟨?_, ?_, ?_⟩ <;>
  norm_num [solve_step, back_subst, back_subst_row, forward_elim, elim_column, elim_row,
    for_up, for_down, List.range', List.range_succ, singular_inconsistent_state, set1, set2,
    ofRows, c_div, c_sub, c_mul, c_add, List.getD]

theorem singular_consistent_facts (M0 : Nat → Nat → complex_t) (X0 : Nat → complex_t) :
    (solve_step (singular_consistent_state M0 X0)).X 0 = ⟨2, 0⟩ ∧
    (solve_step (singular_consistent_state M0 X0)).X 1 = ⟨0, 0⟩ := by
  refine ⟨?_, ?_⟩ <;>
  norm_num [solve_step, back_subst, back_subst_row, forward_elim, elim_column, elim_row,
    for_up, for_down, List.range', List.range_succ, singular_consistent_state, set1, set2,
    ofRows, c_div, c_sub, c_mul, c_add, List.getD]

theorem swap_state_facts (M0 : Nat → Nat → complex_t) (X0 : Nat → complex_t) :
    (solve_step (swap_state M0 X0)).X 0 = ⟨0, 0⟩ ∧
    (solve_step (swap_state M0 X0)).X 1 = ⟨0, 0⟩ := by
  refine ⟨?_, ?_⟩ <;>
  norm_num [solve_step, back_subst, back_subst_row, forward_elim, elim_column, elim_row,
    for_up, for_down, List.range', List.range_succ, swap_state, set1, set2,
    ofRows, c_div, c_sub, c_mul, c_add, List.getD]

theorem row_sum_two (A : Nat → Nat → complex_t) (X : Nat → complex_t) (i : Nat) :
    row_sum A X 2 i = c_add (c_mul (A i 0) (X 0)) (c_mul (A i 1) (X 1)) := by
  rw [row_sum_eq, Finset.sum_range_succ, Finset.sum_range_succ, Finset.sum_range_zero, zero_add]
  rfl

/-- C15. The solve step is a function of `A` and `n` alone: for `2 <= n <= 5`,
two runs from states that agree on `A` and `n`, whatever their scratch matrices
and solution vectors held before, produce the same `X[0..n-1]`, and each run
leaves its entries `X[k]` with `k >= n` unchanged. -/
theorem solve_step_pure (st1 st2 : State) (hA : st1.A = st2.A) (hn : st1.n = st2.n)
    (_h2 : 2 ≤ st1.n) (_h5 : st1.n ≤ 5) :
    (∀ i, i < st1.n → (solve_step st1).X i = (solve_step st2).X i) ∧
    (∀ k, st1.n ≤ k → (solve_step st1).X k = st1.X k) ∧
    (∀ k, st2.n ≤ k → (solve_step st2).X k = st2.X k) :=
  ⟨solve_step_X_congr st1 st2 hA hn, (solve_step_frame st1).2.2, (solve_step_frame st2).2.2⟩

/-- Witness for C15: two runs on `x + y = 3`, `2x - y = 0` from different prior
contents agree on `X[0]` and `X[1]`, and each keeps its own `X[2]`. -/
theorem solve_step_pure_witness :
    (solve_step (example_state (fun _ _ => ⟨7, 7⟩) (fun _ => ⟨9, 9⟩))).X 0
      = (solve_step (example_state (fun _ _ => ⟨0, 0⟩) (fun _ => ⟨5, 0⟩))).X 0 ∧
    (solve_step (example_state (fun _ _ => ⟨7, 7⟩) (fun _ => ⟨9, 9⟩))).X 1
      = (solve_step (example_state (fun _ _ => ⟨0, 0⟩) (fun _ => ⟨5, 0⟩))).X 1 ∧
    (solve_step (example_state (fun _ _ => ⟨7, 7⟩) (fun _ => ⟨9, 9⟩))).X 2 = ⟨9, 9⟩ ∧
    (solve_step (example_state (fun _ _ => ⟨0, 0⟩) (fun _ => ⟨5, 0⟩))).X 2 = ⟨5, 0⟩ :=
  have h := solve_step_pure (example_state (fun _ _ => ⟨7, 7⟩) (fun _ => ⟨9, 9⟩))
    (example_state (fun _ _ => ⟨0, 0⟩) (fun _ => ⟨5, 0⟩)) rfl rfl (by decide) (by decide)
  ⟨h.1 0 (by decide), h.1 1 (by decide), h.2.1 2 (le_refl 2), h.2.2 2 (le_refl 2)⟩

/-- C18. Without pivoting the solve step fails on a uniquely solvable system:
the matrix `[[0,1,1],[1,0,1]]` has a zero in position (0,0) and an invertible
coefficient block (determinant `-1`), its only solution is `x = 1`, `y = 1`,
and the solve step returns `X = ((0,0),(0,0))`, which does not satisfy the
first equation. -/
theorem no_pivoting_failure (M0 : Nat → Nat → complex_t) (X0 : Nat → complex_t) :
    (swap_state M0 X0).A = ofRows [[0, 1, 1], [1, 0, 1]] ∧ (swap_state M0 X0).n = 2 ∧
    (ofRows [[0, 1, 1], [1, 0, 1]]) 0 0 = ⟨0, 0⟩ ∧
    c_sub (c_mul ((ofRows [[0, 1, 1], [1, 0, 1]]) 0 0) ((ofRows [[0, 1, 1], [1, 0, 1]]) 1 1))
      (c_mul ((ofRows [[0, 1, 1], [1, 0, 1]]) 0 1) ((ofRows [[0, 1, 1], [1, 0, 1]]) 1 0))
      = ⟨-1, 0⟩ ∧
    (∀ X : Nat → complex_t,
      (row_sum (ofRows [[0, 1, 1], [1, 0, 1]]) X 2 0 = (ofRows [[0, 1, 1], [1, 0, 1]]) 0 2 ∧
        row_sum (ofRows [[0, 1, 1], [1, 0, 1]]) X 2 1 = (ofRows [[0, 1, 1], [1, 0, 1]]) 1 2)
      ↔ (X 0 = ⟨1, 0⟩ ∧ X 1 = ⟨1, 0⟩)) ∧
    (solve_step (swap_state M0 X0)).X 0 = ⟨0, 0⟩ ∧
    (solve_step (swap_state M0 X0)).X 1 = ⟨0, 0⟩ ∧
    row_sum (ofRows [[0, 1, 1], [1, 0, 1]]) (solve_step (swap_state M0 X0)).X 2 0
      ≠ (ofRows [[0, 1, 1], [1, 0, 1]]) 0 2 := by
  have hf := swap_state_facts M0 X0
  refine ⟨rfl, rfl, rfl, ?_, fun X => ?_, hf.1, hf.2, ?_⟩
  · norm_num [ofRows, c_sub, c_mul, List.getD]
  · rw [row_sum_two, row_sum_two]
    simp only [complex_t_ext]
    norm_num [ofRows, c_add, c_mul, List.getD]
    tauto
  · rw [row_sum_two, hf.1, hf.2]
    norm_num [ofRows, c_add, c_mul, List.getD]

/-! ### Powers of literals -/

theorem parse_pow_power_literal (L : Libm) (F : Nat) (a b rest : List Nat) (hF : 2 ≤ F)
    (ha : is_literal a) (hal : a.length ≤ 31) (hb : is_literal b) (hbl : b.length ≤ 31)
    (hrest : is_num_token (peek rest) = false) :
    parse_pow L F (a ++ 94 :: (b ++ rest))
      = some (L.powf (digits_value a : ℚ) (digits_value b : ℚ), rest) := by
  rw [parse_pow_pos L F _ (by omega),
    parse_factor_literal L (F - 1) a (94 :: (b ++ rest)) (by omega) ha hal rfl]
  simp only [Option.bind, skip_spaces_of_peek_ne
    (show peek (94 :: (b ++ rest)) ≠ 32 by simp [peek_cons])]
  rw [if_pos (Or.inl (peek_cons _ _))]
  simp only [List.tail_cons]
  rw [parse_factor_literal L (F - 1) b rest (by omega) hb hbl hrest]

theorem parse_expr_power_literal (L : Libm) (F : Nat) (a b rest : List Nat) (hF : 4 ≤ F)
    (ha : is_literal a) (hal : a.length ≤ 31) (hb : is_literal b) (hbl : b.length ≤ 31)
    (hrest : is_num_token (peek rest) = false) (h32 : peek rest ≠ 32)
    (h42 : peek rest ≠ 42) (h47 : peek rest ≠ 47) (h43 : peek rest ≠ 43)
    (h45 : peek rest ≠ 45) :
    parse_expr L F (a ++ 94 :: (b ++ rest))
      = some (L.powf (digits_value a : ℚ) (digits_value b : ℚ), rest) := by
  have ht : ¬ (peek rest = 42 ∨ peek rest = 47) := fun h => h.elim h42 h47
  have he : ¬ (peek rest = 43 ∨ peek rest = 45) := fun h => h.elim h43 h45
  rw [parse_expr_pos L F _ (by omega), parse_term_pos L _ _ (by omega),
    parse_pow_power_literal L _ a b rest (by omega) ha hal hb hbl hrest]
  simp only [Option.bind, skip_spaces_of_peek_ne h32]
  rw [term_loop_pos L _ _ _ (by omega), if_neg ht]
  simp only [skip_spaces_of_peek_ne h32]
  rw [expr_loop_pos L _ _ _ (by omega), if_neg he]

/-! ### The number loop: at most 31 characters, all writes inside the buffer -/

theorem scan_number_taken (s buf : List Nat) (hbuf : buf.length ≤ 30) :
    ∃ taken, s = taken ++ (scan_number buf s).2 ∧
      (scan_number buf s).1 = buf ++ taken.map num_char ∧
      (∀ t ∈ taken, is_num_token t = true) ∧
      buf.length + taken.length ≤ 31 ∧
      (buf.length + taken.length < 31 → is_num_token (peek (scan_number buf s).2) = false) := by
  induction s generalizing buf with
  | nil =>
    refine ⟨[], by simp [scan_number], by simp [scan_number], by simp, ?_, fun _ => rfl⟩
    simp only [List.length_nil]
    omega
  | cons a t ih =>
    rw [scan_number]
    by_cases ha : is_num_token a = true
    · rw [if_pos ha]
      by_cases hfull : (buf ++ [num_char a]).length > 30
      · rw [if_pos hfull]
        simp only [List.length_append, List.length_singleton] at hfull
        refine ⟨[a], rfl, by simp, by simpa using ha, ?_, fun h => ?_⟩
        · simp only [List.length_singleton]
          omega
        · simp only [List.length_singleton] at h
          omega
      · rw [if_neg hfull]
        simp only [List.length_append, List.length_singleton] at hfull
        obtain ⟨taken, h1, h2, h3, h4, h5⟩ := ih (buf ++ [num_char a])
          (by simp only [List.length_append, List.length_singleton]; omega)
        simp only [List.length_append, List.length_singleton] at h4 h5
        refine ⟨a :: taken, ?_, ?_, ?_, ?_, ?_⟩
        · rw [List.cons_append, ← h1]
        · rw [h2]
          simp
        · intro x hx
          rcases List.mem_cons.1 hx with rfl | hx
          · exact ha
          · exact h3 x hx
        · simp only [List.length_cons]
          omega
        · intro h
          simp only [List.length_cons] at h
          exact h5 (by omega)
    · rw [if_neg ha]
      refine ⟨[], rfl, by simp, by simp, ?_, fun _ => ?_⟩
      · simp only [List.length_nil]
        omega
      · simpa [peek] using ha

theorem take_succ_set (l : List Nat) (i c : Nat) (h : i < l.length) :
    (l.set i c).take (i + 1) = l.take i ++ [c] := by
  induction l generalizing i with
  | nil => simp at h
  | cons x l ih =>
    cases i with
    | zero => simp
    | succ i =>
      simp only [List.length_cons] at h
      simp [ih i (by omega)]

theorem scan_number_checked_spec (s buf : List Nat) (idx : Nat) (hlen : buf.length = 32)
    (hidx : idx ≤ 30) :
    ∃ buf1 idx1 rest, scan_number_checked buf idx s = some (buf1, idx1, rest) ∧
      idx1 ≤ 31 ∧ buf1.length = 32 ∧ scan_number (buf.take idx) s = (buf1.take idx1, rest) := by
  induction s generalizing buf idx with
  | nil => exact ⟨buf, idx, [], rfl, by omega, hlen, by simp [scan_number]⟩
  | cons a t ih =>
    rw [scan_number_checked, scan_number]
    by_cases ha : is_num_token a = true
    · have hw : write_num_buf buf idx (num_char a) = some (buf.set idx (num_char a)) := by
        simp only [write_num_buf]
        rw [if_pos (by omega)]
      have htake : (buf.set idx (num_char a)).take (idx + 1)
          = buf.take idx ++ [num_char a] := take_succ_set buf idx _ (by omega)
      have hl : (buf.take idx ++ [num_char a]).length = idx + 1 := by
        simp only [List.length_append, List.length_take, List.length_singleton]
        omega
      rw [if_pos ha, if_pos ha, hw, hl]
      simp only []
      by_cases hfull : idx + 1 > 30
      · rw [if_pos hfull, if_pos hfull]
        exact ⟨_, _, _, rfl, by omega, by simp [hlen], by rw [htake]⟩
      · rw [if_neg hfull, if_neg hfull]
        obtain ⟨buf1, idx1, rest, h1, h2, h3, h4⟩ := ih (buf.set idx (num_char a)) (idx + 1)
          (by simp [hlen]) (by omega)
        rw [htake] at h4
        exact ⟨buf1, idx1, rest, h1, h2, h3, h4⟩
    · rw [if_neg ha, if_neg ha]
      exact ⟨buf, idx, a :: t, rfl, by omega, hlen, rfl⟩


theorem take_set_self (l : List Nat) (i c : Nat) : (l.set i c).take i = l.take i := by
  induction l generalizing i with
  | nil => simp
  | cons x l ih =>
    cases i with
    | zero => simp
    | succ i => simp [ih i]

theorem getD_set_self (l : List Nat) (i c d : Nat) (h : i < l.length) :
    (l.set i c).getD i d = c := by
  induction l generalizing i with
  | nil => simp at h
  | cons x l ih =>
    cases i with
    | zero => simp
    | succ i =>
      simp only [List.length_cons] at h
      simpa using ih i (by omega)

theorem unary_fn_literal_start (L : Libm) {tok : Nat}
    (h : is_digit tok = true ∨ tok = 46 ∨ tok = 0x1B) : unary_fn L tok = none := by
  rcases h with h | rfl | rfl
  · exact unary_fn_digit L h
  · simp [unary_fn]
  · simp [unary_fn]

theorem const_val_literal_start {tok : Nat}
    (h : is_digit tok = true ∨ tok = 46 ∨ tok = 0x1B) : const_val tok = none := by
  rcases h with h | rfl | rfl
  · exact const_val_digit h
  · simp [const_val]
  · simp [const_val]

theorem literal_start_facts {tok : Nat} (h : is_digit tok = true ∨ tok = 46 ∨ tok = 0x1B) :
    tok ≠ 40 ∧ is_num_token tok = true := by
  rcases h with h | rfl | rfl
  · refine ⟨?_, is_digit_num_token h⟩
    simp only [is_digit, Bool.and_eq_true, decide_eq_true_eq] at h
    omega
  · exact ⟨by decide, by decide⟩
  · exact ⟨by decide, by decide⟩

theorem parse_factor_number (L : Libm) (fuel : Nat) (p : List Nat)
    (h : is_digit (peek (skip_spaces p)) = true ∨ peek (skip_spaces p) = 46 ∨
      peek (skip_spaces p) = 0x1B) :
    ∃ taken rest, skip_spaces p = taken ++ rest ∧ 1 ≤ taken.length ∧ taken.length ≤ 31 ∧
      parse_factor L (fuel + 1) p = some (strtof (taken.map num_char), rest) := by
  obtain ⟨h40, hnum⟩ := literal_start_facts h
  obtain ⟨taken, h1, h2, _, h4, h5⟩ := scan_number_taken (skip_spaces p) [] (by simp)
  simp only [List.length_nil, Nat.zero_add, List.nil_append] at h2 h4 h5
  have hpos : 1 ≤ taken.length := by
    by_contra hc
    have ht : taken = [] := List.length_eq_zero.1 (by omega)
    have h6 := h5 (by rw [ht]; decide)
    rw [ht, List.nil_append] at h1
    rw [← h1, hnum] at h6
    exact Bool.noConfusion h6
  refine ⟨taken, (scan_number [] (skip_spaces p)).2, h1, hpos, h4, ?_⟩
  rw [parse_factor_succ, if_neg h40, unary_fn_literal_start L h, const_val_literal_start h]
  have hl : (List.map num_char taken).length > 0 := by
    rw [List.length_map]
    omega
  simp only [number_case, h2, if_pos hl]

/-- C16 (amended). A numeric literal is truncated at 31 characters: for every
input, the number loop of one invocation of `parse_factor` accumulates at most
31 characters into the number buffer and consumes exactly as many input
characters, it stops before the 31st character only at a byte that cannot
continue a literal, and what follows the characters taken stays in the input:
when the cursor is on a digit, `'.'` or the exponent marker, `parse_factor`
returns the conversion of at least 1 and at most 31 characters. -/
theorem number_literal_at_most_31 :
    (∀ s : List Nat, ∃ taken, s = taken ++ (scan_number [] s).2 ∧
      (scan_number [] s).1 = taken.map num_char ∧ taken.length ≤ 31 ∧
      (taken.length < 31 → is_num_token (peek (scan_number [] s).2) = false)) ∧
    (∀ (L : Libm) (fuel : Nat) (p : List Nat),
      (is_digit (peek (skip_spaces p)) = true ∨ peek (skip_spaces p) = 46 ∨
        peek (skip_spaces p) = 0x1B) →
      ∃ taken rest, skip_spaces p = taken ++ rest ∧ 1 ≤ taken.length ∧ taken.length ≤ 31 ∧
        parse_factor L (fuel + 1) p = some (strtof (taken.map num_char), rest)) := by
  refine ⟨fun s => ?_, parse_factor_number⟩
  obtain ⟨taken, h1, h2, _, h4, h5⟩ := scan_number_taken s [] (by simp)
  simp only [List.length_nil, Nat.zero_add, List.nil_append] at h2 h4 h5
  exact ⟨taken, h1, h2, h4, h5⟩

/-- Witness for C16: on 33 digits `parse_factor` converts the first 31 and
leaves the last two in the input. -/
theorem number_literal_at_most_31_witness :
    (∃ taken rest, skip_spaces (bytes "111111111111111111111111111111122") = taken ++ rest ∧
      1 ≤ taken.length ∧ taken.length ≤ 31 ∧
      parse_factor sample_libm (0 + 1) (bytes "111111111111111111111111111111122")
        = some (strtof (taken.map num_char), rest)) ∧
    parse_factor sample_libm (0 + 1) (bytes "111111111111111111111111111111122")
      = some (1111111111111111111111111111111, bytes "22") :=
  ⟨number_literal_at_most_31.2 sample_libm 0 (bytes "111111111111111111111111111111122")
    (Or.inl (by decide)), by with_unfolding_all rfl⟩

/-- Counterexample to C16 as stated: on a literal of 31 digits the number loop
accumulates 31 characters, consumes 31 input characters, and `parse_factor`
returns the number written by all 31 digits, so the 31st character is part of
the literal. -/
theorem number_literal_counterexample :
    (scan_number [] (bytes "1111111111111111111111111111111")).1.length = 31 ∧
    (scan_number [] (bytes "1111111111111111111111111111111")).2 = [] ∧
    (bytes "1111111111111111111111111111111").length = 31 ∧
    (∀ L : Libm, parse_factor L 1 (bytes "1111111111111111111111111111111")
      = some (1111111111111111111111111111111, [])) := by
  refine ⟨by decide, by decide, by decide, fun L => ?_⟩
  with_unfolding_all rfl

/-- C19. The number buffer never overflows: for every input and every prior
content of the 32-byte buffer, all the checked writes of the number loop and the
write of the terminating `'\0'` succeed, the index of every write is at most
31, and the characters in front of the terminator are those the number loop of
`parse_factor` accumulates. -/
theorem num_buf_never_overflows (buf0 s : List Nat) (hlen : buf0.length = 32) :
    ∃ buf idx rest, fill_num_buf buf0 s = some (buf, idx, rest) ∧ idx ≤ 31 ∧
      buf.length = 32 ∧ buf.take idx = (scan_number [] s).1 ∧ buf.getD idx 1 = 0 ∧
      rest = (scan_number [] s).2 := by
  obtain ⟨buf1, idx1, rest, h1, h2, h3, h4⟩ :=
    scan_number_checked_spec s buf0 0 hlen (by omega)
  simp only [List.take_zero] at h4
  refine ⟨buf1.set idx1 0, idx1, rest, ?_, h2, by simp [h3], ?_, ?_, ?_⟩
  · simp only [fill_num_buf, h1, write_num_buf]
    rw [if_pos (by omega)]
  · rw [take_set_self, h4]
  · exact getD_set_self buf1 idx1 0 1 (by omega)
  · rw [h4]

/-- Witness for C19: on `"12x"` and a buffer filled with `7`, the loop writes
indices 0 and 1 and the terminator index 2. -/
theorem num_buf_never_overflows_witness :
    fill_num_buf (List.replicate 32 7) (bytes "12x")
      = some (49 :: 50 :: 0 :: List.replicate 29 7, 2, bytes "x") ∧
    ∃ buf idx rest, fill_num_buf (List.replicate 32 7) (bytes "12x") = some (buf, idx, rest) ∧
      idx ≤ 31 ∧ buf.length = 32 ∧ buf.take idx = (scan_number [] (bytes "12x")).1 ∧
      buf.getD idx 1 = 0 ∧ rest = (scan_number [] (bytes "12x")).2 :=
  ⟨by decide, num_buf_never_overflows (List.replicate 32 7) (bytes "12x") (by decide)⟩

/-! ### The checked solve step never leaves the arrays -/

theorem rd2_some (m : Nat → Nat → complex_t) {j k : Nat} (hj : j < 5) (hk : k < 6) :
    rd2 m j k = some (m j k) := by
  simp [rd2, hj, hk]

theorem wr2_some (m : Nat → Nat → complex_t) {j k : Nat} (v : complex_t) (hj : j < 5)
    (hk : k < 6) : wr2 m j k v = some (set2 m j k v) := by
  simp [wr2, hj, hk]

theorem rd1_some (x : Nat → complex_t) {i : Nat} (hi : i < 5) : rd1 x i = some (x i) := by
  simp [rd1, hi]

theorem wr1_some (x : Nat → complex_t) {i : Nat} (v : complex_t) (hi : i < 5) :
    wr1 x i v = some (set1 x i v) := by
  simp [wr1, hi]

theorem foldlM_refines {σ : Type} (P : σ → Prop) (bodyO : Nat → σ → Option σ)
    (body : Nat → σ → σ) (l : List Nat) (s : σ) (hs : P s)
    (h : ∀ k, k ∈ l → ∀ t, P t → bodyO k t = some (body k t) ∧ P (body k t)) :
    l.foldlM (fun acc i => bodyO i acc) s = some (l.foldl (fun acc i => body i acc) s) ∧
      P (l.foldl (fun acc i => body i acc) s) := by
  induction l generalizing s with
  | nil => exact ⟨rfl, hs⟩
  | cons a l ih =>
    obtain ⟨h1, h2⟩ := h a (List.mem_cons_self a l) s hs
    rw [List.foldlM_cons, h1]
    exact ih (body a s) h2 (fun k hk => h k (List.mem_cons_of_mem a hk))

theorem for_up_opt_refines {σ : Type} (P : σ → Prop) (lo hi : Nat)
    (bodyO : Nat → σ → Option σ) (body : Nat → σ → σ) (s : σ) (hs : P s)
    (h : ∀ k t, lo ≤ k → k < hi → P t → bodyO k t = some (body k t) ∧ P (body k t)) :
    for_up_opt lo hi bodyO s = some (for_up lo hi body s) ∧ P (for_up lo hi body s) := by
  refine foldlM_refines P bodyO body _ s hs (fun k hk t ht => ?_)
  have hk' := List.mem_range'_1.1 hk
  exact h k t hk'.1 (by omega) ht

theorem for_down_opt_refines {σ : Type} (P : σ → Prop) (hi : Nat)
    (bodyO : Nat → σ → Option σ) (body : Nat → σ → σ) (s : σ) (hs : P s)
    (h : ∀ k t, k < hi → P t → bodyO k t = some (body k t) ∧ P (body k t)) :
    for_down_opt hi bodyO s = some (for_down hi body s) ∧ P (for_down hi body s) := by
  have e : for_down hi body s = (List.range hi).reverse.foldl (fun acc i => body i acc) s := by
    rw [List.foldl_reverse]
    rfl
  rw [e]
  refine foldlM_refines P bodyO body _ s hs (fun k hk t ht => ?_)
  exact h k t (List.mem_range.1 (List.mem_reverse.1 hk)) ht

theorem elim_row_checked_eq (i j : Nat) (st : State) (hi : i < 5) (hj : j < 5)
    (hn : st.n ≤ 5) : elim_row_checked i j st = some (elim_row i j st) := by
  unfold elim_row_checked elim_row
  rw [rd2_some _ hj (by omega), rd2_some _ hi (by omega)]
  simp only [Option.bind]
  refine (for_up_opt_refines (fun _ => True) i (st.n + 1) _ _ st trivial
    (fun k t _ hk _ => ⟨?_, trivial⟩)).1
  rw [rd2_some _ hj (by omega), rd2_some _ hi (by omega)]
  simp only [Option.bind]
  rw [wr2_some _ _ hj (by omega)]

theorem elim_column_checked_eq (i : Nat) (st : State) (hn : st.n ≤ 5) :
    elim_column_checked i st = some (elim_column i st) := by
  unfold elim_column_checked elim_column
  refine (for_up_opt_refines (fun s : State => s.n = st.n) (i + 1) st.n _ _ st rfl
    (fun j t hj1 hj2 ht => ⟨?_, ?_⟩)).1
  · exact elim_row_checked_eq i j t (by omega) (by omega) (by omega)
  · exact ((elim_row_spec i j t (by omega) (by omega)).2.2.1).trans ht

theorem forward_elim_checked_eq (st : State) (hn : st.n ≤ 5) :
    forward_elim_checked st = some (forward_elim st) ∧ (forward_elim st).n = st.n := by
  unfold forward_elim_checked forward_elim
  refine for_up_opt_refines (fun s : State => s.n = st.n) 0 st.n _ _ st rfl
    (fun i t _ _ ht => ⟨?_, ?_⟩)
  · exact elim_column_checked_eq i t (by omega)
  · exact ((elim_column_spec i t).2.2.1).trans ht

theorem back_subst_row_checked_eq (i : Nat) (st : State) (hi : i < st.n) (hn : st.n ≤ 5) :
    back_subst_row_checked i st = some (back_subst_row i st) := by
  unfold back_subst_row_checked back_subst_row
  have hsum := (for_up_opt_refines (fun _ : complex_t => True) (i + 1) st.n
    (fun j acc => (rd2 st.M i j).bind fun a => (rd1 st.X j).bind fun x =>
      some (c_add acc (c_mul a x)))
    (fun j acc => c_add acc (c_mul (st.M i j) (st.X j))) ⟨0, 0⟩ trivial
    (fun j t _ hj _ => ⟨by
      dsimp only
      rw [rd2_some _ (by omega) (by omega), rd1_some _ (by omega)]
      rfl, trivial⟩)).1
  rw [hsum]
  simp only [Option.bind]
  rw [rd2_some _ (by omega) (by omega), rd2_some _ (by omega) (by omega)]
  simp only [Option.bind]
  rw [wr1_some _ _ (by omega)]

theorem back_subst_checked_eq (st : State) (hn : st.n ≤ 5) :
    back_subst_checked st = some (back_subst st) := by
  unfold back_subst_checked back_subst
  refine (for_down_opt_refines (fun s : State => s.n = st.n) st.n _ _ st rfl
    (fun i t hi ht => ⟨?_, ?_⟩)).1
  · exact back_subst_row_checked_eq i t (by omega) (by omega)
  · exact ht

theorem solve_step_checked_eq (st : State) (hn : st.n ≤ 5) :
    solve_step_checked st = some (solve_step st) := by
  unfold solve_step_checked solve_step
  obtain ⟨h1, h2⟩ := forward_elim_checked_eq { st with M := st.A } hn
  rw [h1]
  exact back_subst_checked_eq _ (by rw [h2]; exact hn)

/-! ### The editor loop keeps the cursor inside the matrix -/

theorem clamp_size_bounds (v : Int) : 2 ≤ clamp_size v ∧ clamp_size v ≤ 5 := by
  unfold clamp_size
  dsimp only
  constructor <;> split_ifs <;> omega

theorem handle_key_inv (key : Key) (e : Editor) (h : editor_inv e) :
    ∃ e1, handle_key key e = some e1 ∧ editor_inv e1 ∧ e1.n = e.n := by
  obtain ⟨h1, h2, h3, h4, h5, h6⟩ := h
  cases key with
  | left =>
    refine ⟨_, rfl, ⟨h1, h2, ?_, ?_, h5, h6⟩, rfl⟩ <;> dsimp only <;> split_ifs <;> omega
  | right =>
    refine ⟨_, rfl, ⟨h1, h2, ?_, ?_, h5, h6⟩, rfl⟩ <;> dsimp only <;> split_ifs <;> omega
  | up =>
    refine ⟨_, rfl, ⟨h1, h2, h3, h4, ?_, ?_⟩, rfl⟩ <;> dsimp only <;> split_ifs <;> omega
  | down =>
    refine ⟨_, rfl, ⟨h1, h2, h3, h4, ?_, ?_⟩, rfl⟩ <;> dsimp only <;> split_ifs <;> omega
  | enter re im =>
    have hw : wr2_int e.A e.cur_r e.cur_c ⟨re, im⟩
        = some (set2 e.A e.cur_r.toNat e.cur_c.toNat ⟨re, im⟩) := by
      unfold wr2_int
      rw [if_pos ⟨h3, by omega, h5, by omega⟩]
    simp only [handle_key, hw, Option.bind]
    by_cases hc : e.cur_c + 1 > e.n
    · rw [if_pos hc]
      refine ⟨_, rfl, ⟨h1, h2, ?_, ?_, le_refl _, by dsimp only; omega⟩, rfl⟩ <;>
        dsimp only <;> split_ifs <;> omega
    · rw [if_neg hc]
      exact ⟨_, rfl, ⟨h1, h2, h3, h4, by dsimp only; omega, by dsimp only; omega⟩, rfl⟩
  | zoom =>
    have hs := solve_step_checked_eq ⟨e.A, e.M, e.X, e.n.toNat⟩ (by dsimp only; omega)
    simp only [handle_key, hs, Option.bind]
    exact ⟨_, rfl, ⟨h1, h2, h3, h4, h5, h6⟩, rfl⟩
  | graph =>
    have hs := solve_step_checked_eq ⟨e.A, e.M, e.X, e.n.toNat⟩ (by dsimp only; omega)
    simp only [handle_key, hs, Option.bind]
    exact ⟨_, rfl, ⟨h1, h2, h3, h4, h5, h6⟩, rfl⟩
  | clear => exact ⟨e, rfl, ⟨h1, h2, h3, h4, h5, h6⟩, rfl⟩
  | other => exact ⟨e, rfl, ⟨h1, h2, h3, h4, h5, h6⟩, rfl⟩

theorem editor_start_inv (nv : ℚ) (M0 : Nat → Nat → complex_t) (X0 : Nat → complex_t) :
    editor_inv (editor_start nv M0 X0) := by
  obtain ⟨h1, h2⟩ := clamp_size_bounds (int_of_float nv)
  refine ⟨h1, h2, le_refl _, ?_, le_refl _, ?_⟩ <;> dsimp only [editor_start] <;> omega

theorem run_keys_inv (keys : List Key) (e : Editor) (h : editor_inv e) :
    ∃ e1, run_keys keys e = some e1 ∧ editor_inv e1 := by
  induction keys generalizing e with
  | nil => exact ⟨e, rfl, h⟩
  | cons key keys ih =>
    obtain ⟨e1, h1, h2, _⟩ := handle_key_inv key e h
    obtain ⟨e2, h3, h4⟩ := ih e1 h2
    refine ⟨e2, ?_, h4⟩
    rw [run_keys, h1]
    exact h3

/-- C20. Editor state invariant: the size read from the prompt is clamped to
`2 ≤ n ≤ 5`; the loop is entered with `cur_r = 0`, `cur_c = 0` inside the matrix;
every key event (Left, Right, Up, Down, Enter with auto-advance, Zoom, Graph, any
other key) is handled without an out-of-bounds array access and leaves
`0 ≤ cur_r < n` and `0 ≤ cur_c ≤ n`, so every sequence of key events does; the write
`A[cur_r][cur_c]` of Enter stays inside the `5 x 6` array; and for `n ≤ 5` the
bounds-checked solve step never fails and computes what the unchecked one does. -/
theorem editor_state_invariant :
    (∀ v : Int, 2 ≤ clamp_size v ∧ clamp_size v ≤ 5) ∧
    (∀ (nv : ℚ) (M0 : Nat → Nat → complex_t) (X0 : Nat → complex_t),
      editor_inv (editor_start nv M0 X0)) ∧
    (∀ (key : Key) (e : Editor), editor_inv e →
      ∃ e1, handle_key key e = some e1 ∧ editor_inv e1 ∧ e1.n = e.n) ∧
    (∀ (keys : List Key) (nv : ℚ) (M0 : Nat → Nat → complex_t) (X0 : Nat → complex_t),
      ∃ e, run_keys keys (editor_start nv M0 X0) = some e ∧ editor_inv e) ∧
    (∀ (e : Editor) (v : complex_t), editor_inv e →
      wr2_int e.A e.cur_r e.cur_c v = some (set2 e.A e.cur_r.toNat e.cur_c.toNat v) ∧
      e.cur_r.toNat < 5 ∧ e.cur_c.toNat < 6) ∧
    (∀ st : State, st.n ≤ 5 → solve_step_checked st = some (solve_step st)) := by
  refine ⟨clamp_size_bounds, editor_start_inv, handle_key_inv, ?_, ?_, solve_step_checked_eq⟩
  · intro keys nv M0 X0
    exact run_keys_inv keys _ (editor_start_inv nv M0 X0)
  · rintro e v ⟨h1, h2, h3, h4, h5, h6⟩
    refine ⟨?_, by omega, by omega⟩
    unfold wr2_int
    rw [if_pos ⟨h3, by omega, h5, by omega⟩]

/-- C20 on concrete inputs: the answers 9 and -3 to the size prompt give `n = 5` and
`n = 2`; with `n = 2`, three Enter events walk the cursor through the three entries
of equation 1 and wrap to equation 2, and Left from row 0 and Up from column 0 wrap
to the last row and to the constant column; a run with a solve in it stays inside
the arrays. -/
theorem editor_state_invariant_witness :
    clamp_size (int_of_float 9) = 5 ∧ clamp_size (int_of_float (-3)) = 2 ∧
    (run_keys [Key.enter 1 0, Key.enter 2 0, Key.enter 3 0]
        (editor_start 2 (fun _ _ => ⟨0, 0⟩) (fun _ => ⟨0, 0⟩))).map
      (fun e => (e.n, e.cur_r, e.cur_c, e.A 0 0, e.A 0 1, e.A 0 2))
      = some (2, 1, 0, ⟨1, 0⟩, ⟨2, 0⟩, ⟨3, 0⟩) ∧
    (run_keys [Key.left, Key.up]
        (editor_start 2 (fun _ _ => ⟨0, 0⟩) (fun _ => ⟨0, 0⟩))).map
      (fun e => (e.n, e.cur_r, e.cur_c)) = some (2, 1, 2) ∧
    (∃ e, run_keys [Key.enter 1 0, Key.down, Key.enter 1 0, Key.zoom, Key.right]
        (editor_start 9 (fun _ _ => ⟨0, 0⟩) (fun _ => ⟨0, 0⟩)) = some e ∧ editor_inv e) :=
  ⟨by with_unfolding_all rfl, by with_unfolding_all rfl, by with_unfolding_all rfl,
    by with_unfolding_all rfl, editor_state_invariant.2.2.2.1 _ _ _ _⟩

/-! ### The decimal exponent -/

theorem digit_char_ne_minus (k : Nat) (h : k < 10) : digit_char k ≠ '-' := by
  interval_cases k <;> decide

theorem nat_digits_core_head (fuel n : Nat) (acc : List Char) (h : n < fuel) :
    ∃ k, k < 10 ∧ ∃ rest, nat_digits_core fuel n acc = digit_char k :: rest := by
  induction fuel generalizing n acc with
  | zero => omega
  | succ f ih =>
    unfold nat_digits_core
    by_cases hn : n < 10
    · rw [if_pos hn]
      exact ⟨n, hn, acc, rfl⟩
    · rw [if_neg hn]
      exact ih (n / 10) _ (by omega)

theorem nat_digits_head (n : Nat) :
    ∃ k, k < 10 ∧ ∃ rest, nat_digits n = digit_char k :: rest :=
  nat_digits_core_head (n + 1) n [] (by omega)

theorem fmt_fixed_head (d : Nat) (x : ℚ) (h : 0 ≤ x) :
    ∃ k, k < 10 ∧ ∃ rest, fmt_fixed d x = digit_char k :: rest := by
  unfold fmt_fixed
  dsimp only
  rw [if_neg (not_lt.2 h), List.nil_append]
  obtain ⟨k, hk, rest, e⟩ := nat_digits_head (round_half_even (|x| * 10 ^ d) / 10 ^ d)
  rw [e]
  exact ⟨k, hk, _, rfl⟩

theorem mantissa_abs_nonneg (y : ℚ) : 0 ≤ mantissa |y| := by
  unfold mantissa
  exact mul_nonneg (abs_nonneg y) (zpow_nonneg (by norm_num) _)

theorem fmt_eng_abs_head (y : ℚ) :
    ∃ k, k < 10 ∧ ∃ rest, fmt_eng |y| = digit_char k :: rest := by
  unfold fmt_eng
  by_cases h : |(|y|)| < 1 / 10 ^ 20
  · rw [if_pos h]
    exact ⟨0, by norm_num, [], rfl⟩
  · rw [if_neg h]
    dsimp only
    have key : ∀ out : List Char, (∃ k, k < 10 ∧ ∃ rest, out = digit_char k :: rest) →
        ∃ k, k < 10 ∧ ∃ rest,
          (if eng_exp |y| ≠ 0 then out ++ 'E' :: int_digits (eng_exp |y|) else out)
            = digit_char k :: rest := by
      rintro out ⟨k, hk, rest, rfl⟩
      by_cases he : eng_exp |y| ≠ 0
      · rw [if_pos he]
        exact ⟨k, hk, _, rfl⟩
      · rw [if_neg he]
        exact ⟨k, hk, _, rfl⟩
    apply key
    by_cases ht : |mantissa |y| - roundf (mantissa |y|)| < 1 / 10 ^ 4
    · rw [if_pos ht]
      exact fmt_fixed_head 0 _ (mantissa_abs_nonneg y)
    · rw [if_neg ht]
      exact fmt_fixed_head 3 _ (mantissa_abs_nonneg y)

/-- C13. The four cases of `fmt_rect`, with `fmt_eng` formatting the parts: both
parts below `1e-20` in magnitude give `"0"`; only the real part below gives
`fmt_eng im` followed by `i`; only the imaginary part below gives `fmt_eng re`;
otherwise the result is `fmt_eng re`, then `-` when `im < 0` and `+` otherwise, then
`fmt_eng |im|`, then `i`; and the string `fmt_eng |y|` of a magnitude starts with a
decimal digit, never with a minus sign. -/
theorem fmt_rect_cases :
    (∀ z : complex_t, |z.r| < 1 / 10 ^ 20 → |z.i| < 1 / 10 ^ 20 → fmt_rect z = ['0']) ∧
    (∀ z : complex_t, |z.r| < 1 / 10 ^ 20 → 1 / 10 ^ 20 ≤ |z.i| →
      fmt_rect z = fmt_eng z.i ++ ['i']) ∧
    (∀ z : complex_t, 1 / 10 ^ 20 ≤ |z.r| → |z.i| < 1 / 10 ^ 20 →
      fmt_rect z = fmt_eng z.r) ∧
    (∀ z : complex_t, 1 / 10 ^ 20 ≤ |z.r| → 1 / 10 ^ 20 ≤ |z.i| →
      fmt_rect z =
        fmt_eng z.r ++ (if z.i < 0 then '-' else '+') :: fmt_eng |z.i| ++ ['i']) ∧
    (∀ y : ℚ, (∃ k, k < 10 ∧ ∃ rest, fmt_eng |y| = digit_char k :: rest) ∧
      (fmt_eng |y|).head? ≠ some '-') := by
  refine ⟨?_, ?_, ?_, ?_, ?_⟩
  · intro z hr hi
    unfold fmt_rect
    dsimp only
    rw [decide_eq_true hr, decide_eq_true hi]
    simp only [Bool.and_self, if_true]
  · intro z hr hi
    unfold fmt_rect
    dsimp only
    rw [decide_eq_true hr, decide_eq_false (not_lt.2 hi)]
    simp only [Bool.and_false, Bool.false_eq_true, if_false, if_true]
  · intro z hr hi
    unfold fmt_rect
    dsimp only
    rw [decide_eq_false (not_lt.2 hr), decide_eq_true hi]
    simp only [Bool.false_and, Bool.false_eq_true, if_false, if_true]
  · intro z hr hi
    unfold fmt_rect
    dsimp only
    rw [decide_eq_false (not_lt.2 hr), decide_eq_false (not_lt.2 hi)]
    simp only [Bool.and_self, Bool.false_eq_true, if_false]
    by_cases hs : z.i < 0
    · rw [if_pos hs, if_pos hs]
    · rw [if_neg hs, if_neg hs]
  · intro y
    obtain ⟨k, hk, rest, e⟩ := fmt_eng_abs_head y
    refine ⟨⟨k, hk, rest, e⟩, ?_⟩
    rw [e, List.head?_cons]
    intro h
    exact digit_char_ne_minus k hk (Option.some.inj h)

/-- C13 on the inputs of the specification: `(3,-4)` gives `"3-4i"`, `(0,5)` gives
`"5i"`, `(0,0)` gives `"0"`; and `(3,4)` gives `"3+4i"`, `(2,0)` gives `"2"`. -/
theorem fmt_rect_cases_witness :
    fmt_rect ⟨3, -4⟩ = "3-4i".toList ∧ fmt_rect ⟨0, 5⟩ = "5i".toList ∧
    fmt_rect ⟨0, 0⟩ = "0".toList ∧ fmt_rect ⟨3, 4⟩ = "3+4i".toList ∧
    fmt_rect ⟨2, 0⟩ = "2".toList ∧ (fmt_eng |(-4 : ℚ)|).head? ≠ some '-' :=
  ⟨by with_unfolding_all rfl, by with_unfolding_all rfl,
    fmt_rect_cases.1 ⟨0, 0⟩ (by norm_num) (by norm_num), by with_unfolding_all rfl,
    by with_unfolding_all rfl, (fmt_rect_cases.2.2.2.2 (-4)).2⟩

/-! ### The rounding to float32 -/

theorem log2_up_spec (fuel : Nat) (x : ℚ) (h1 : 1 ≤ x) (h2 : x < 2 ^ fuel) :
    (2 : ℚ) ^ (log2_up fuel x) ≤ x ∧ x < (2 : ℚ) ^ (log2_up fuel x + 1) := by
  induction fuel generalizing x with
  | zero =>
    rw [pow_zero] at h2
    linarith
  | succ f ih =>
    unfold log2_up
    by_cases h : 2 ≤ x
    · rw [if_pos h]
      have hx : x / 2 < 2 ^ f := by
        rw [pow_succ] at h2
        linarith
      obtain ⟨a, b⟩ := ih (x / 2) (by linarith) hx
      simp only [zpow_add_one₀ (by norm_num : (2 : ℚ) ≠ 0)] at b ⊢
      constructor <;> linarith
    · rw [if_neg h]
      norm_num
      exact ⟨h1, lt_of_not_le h⟩

theorem log2_down_spec (fuel : Nat) (x : ℚ) (h0 : 0 < x) (h1 : x < 2)
    (h2 : 1 ≤ x * 2 ^ fuel) :
    (2 : ℚ) ^ (log2_down fuel x) ≤ x ∧ x < (2 : ℚ) ^ (log2_down fuel x + 1) := by
  induction fuel generalizing x with
  | zero =>
    rw [pow_zero] at h2
    unfold log2_down
    norm_num
    exact ⟨by linarith, h1⟩
  | succ f ih =>
    unfold log2_down
    by_cases h : x < 1
    · rw [if_pos h]
      have hx : 1 ≤ x * 2 * 2 ^ f := by
        rw [pow_succ] at h2
        linarith
      obtain ⟨a, b⟩ := ih (x * 2) (by linarith) (by linarith) hx
      rw [zpow_add_one₀ (by norm_num : (2 : ℚ) ≠ 0)] at b
      rw [sub_add_cancel, zpow_sub_one₀ (by norm_num : (2 : ℚ) ≠ 0)]
      constructor <;> linarith
    · rw [if_neg h]
      norm_num
      exact ⟨le_of_not_lt h, h1⟩

theorem floor_log2_spec (x : ℚ) (h : 0 < x) :
    (2 : ℚ) ^ (floor_log2 x) ≤ x ∧ x < (2 : ℚ) ^ (floor_log2 x + 1) := by
  have hd : (0 : ℚ) < x.den := by exact_mod_cast x.den_pos
  have hd1 : (1 : ℚ) ≤ x.den := by exact_mod_cast x.den_pos
  have hn : 0 < x.num := Rat.num_pos.2 h
  have hx : x * x.den = x.num := Rat.mul_den_eq_num x
  unfold floor_log2
  by_cases h1 : 1 ≤ x
  · rw [if_pos h1]
    refine log2_up_spec _ x h1 ?_
    have e : ((x.num.natAbs : ℕ) : ℚ) = x.num := by
      rw [Nat.cast_natAbs, abs_of_pos hn]
    have l : ((x.num.natAbs : ℕ) : ℚ) < 2 ^ x.num.natAbs := by
      exact_mod_cast Nat.lt_pow_self (by norm_num : 1 < 2) x.num.natAbs
    have : x ≤ x * x.den := by nlinarith
    rw [hx, ← e] at this
    linarith
  · rw [if_neg h1]
    refine log2_down_spec _ x h (by linarith) ?_
    have l : ((x.den : ℕ) : ℚ) < 2 ^ x.den := by
      exact_mod_cast Nat.lt_pow_self (by norm_num : 1 < 2) x.den
    have n1 : (1 : ℚ) ≤ x.num := by exact_mod_cast hn
    calc (1 : ℚ) ≤ x.num := n1
      _ = x * x.den := hx.symm
      _ ≤ x * 2 ^ x.den := by nlinarith

theorem round_half_even_near (y : ℚ) (hy : 0 ≤ y) :
    |(round_half_even y : ℚ) - y| ≤ 1 / 2 := by
  have hf : (0 : ℤ) ≤ ⌊y⌋ := Int.floor_nonneg.2 hy
  have hc : ((⌊y⌋.toNat : ℕ) : ℚ) = (⌊y⌋ : ℚ) := by
    have : ((⌊y⌋.toNat : ℕ) : ℤ) = ⌊y⌋ := Int.toNat_of_nonneg hf
    exact_mod_cast this
  have a := Int.floor_le y
  have b := Int.lt_floor_add_one y
  unfold round_half_even
  dsimp only
  rw [hc]
  rw [abs_le]
  split_ifs with h1 h2 h3
  · constructor <;> linarith
  · push_cast
    rw [hc]
    constructor <;> linarith
  · constructor <;> linarith
  · push_cast
    rw [hc]
    constructor <;> linarith

/-- The rounding `fl32` returns a multiple of the spacing `2^(e-23)` of the binade
of `x`, `e` being the binary exponent of `x` and at least `-126`, and moves `x` by
at most half that spacing; it keeps the sign. -/
theorem fl32_spec (x : ℚ) (hx : x ≠ 0) :
    ∃ k : ℕ,
      |fl32 x| = (k : ℚ) * 2 ^ (max (floor_log2 |x|) (-126) - 23) ∧
      abs (|fl32 x| - |x|) ≤ 2 ^ (max (floor_log2 |x|) (-126) - 23) / 2 ∧
      (2 : ℚ) ^ (floor_log2 |x|) ≤ |x| ∧ |x| < (2 : ℚ) ^ (floor_log2 |x| + 1) ∧
      (0 < x → 0 ≤ fl32 x) ∧ (x < 0 → fl32 x ≤ 0) := by
  obtain ⟨l1, l2⟩ := floor_log2_spec |x| (abs_pos.2 hx)
  have hu : (0 : ℚ) < 2 ^ (max (floor_log2 |x|) (-126) - 23) := zpow_pos (by norm_num) _
  have hq : 0 ≤ |x| / 2 ^ (max (floor_log2 |x|) (-126) - 23) :=
    div_nonneg (abs_nonneg x) hu.le
  have hr := round_half_even_near _ hq
  have hm : (0 : ℚ) ≤ (round_half_even (|x| / 2 ^ (max (floor_log2 |x|) (-126) - 23)) : ℚ) *
      2 ^ (max (floor_log2 |x|) (-126) - 23) := mul_nonneg (Nat.cast_nonneg _) hu.le
  have habs : |fl32 x| = (round_half_even (|x| / 2 ^ (max (floor_log2 |x|) (-126) - 23)) : ℚ) *
      2 ^ (max (floor_log2 |x|) (-126) - 23) := by
    unfold fl32
    rw [if_neg hx]
    dsimp only
    by_cases hneg : x < 0
    · rw [if_pos hneg, abs_neg, abs_of_nonneg hm]
    · rw [if_neg hneg, abs_of_nonneg hm]
  refine ⟨_, habs, ?_, l1, l2, ?_, ?_⟩
  · rw [habs]
    have e : (round_half_even (|x| / 2 ^ (max (floor_log2 |x|) (-126) - 23)) : ℚ) *
        2 ^ (max (floor_log2 |x|) (-126) - 23) - |x| =
        ((round_half_even (|x| / 2 ^ (max (floor_log2 |x|) (-126) - 23)) : ℚ) -
          |x| / 2 ^ (max (floor_log2 |x|) (-126) - 23)) *
          2 ^ (max (floor_log2 |x|) (-126) - 23) := by
      field_simp
    rw [e, abs_mul, abs_of_pos hu]
    calc _ ≤ 1 / 2 * 2 ^ (max (floor_log2 |x|) (-126) - 23) :=
          mul_le_mul_of_nonneg_right hr hu.le
      _ = _ := by ring
  · intro hpos
    unfold fl32
    rw [if_neg hx]
    dsimp only
    rw [if_neg (not_lt.2 hpos.le)]
    exact hm
  · intro hneg
    unfold fl32
    rw [if_neg hx]
    dsimp only
    rw [if_pos hneg]
    linarith

/-! ### The evaluator over an arbitrary arithmetic: unfolding -/

theorem parse_factor_over_succ {F : Type} (Ar : Arith F) (fuel : Nat) (p : List Nat) :
    parse_factor_over Ar (fuel + 1) p =
      if peek (skip_spaces p) = 40 then
        (parse_expr_over Ar fuel (skip_spaces p).tail).bind
          (fun x => some (x.1, if peek x.2 = 41 then x.2.tail else x.2))
      else match unary_fn_over Ar (peek (skip_spaces p)) with
        | some g =>
          (parse_factor_over Ar fuel (skip_spaces p).tail).bind (fun x => some (g x.1, x.2))
        | none =>
          match const_val_over Ar (peek (skip_spaces p)) with
          | some c => some (c, (skip_spaces p).tail)
          | none => some (number_case_over Ar (skip_spaces p)) := by
  rw [parse_factor_over]
  simp only [unary_fn_over, const_val_over, number_case_over]
  by_cases h0 : peek (skip_spaces p) = 40
  · rw [if_pos h0, if_pos h0]
    cases parse_expr_over Ar fuel (skip_spaces p).tail with
    | none => rfl
    | some x => simp only [Option.bind]; split_ifs <;> rfl
  rw [if_neg h0, if_neg h0]
  by_cases h1 : peek (skip_spaces p) = 45 ∨ peek (skip_spaces p) = 0xB0
  · simp only [if_pos h1]
    cases parse_factor_over Ar fuel (skip_spaces p).tail <;> rfl
  simp only [if_neg h1]
  by_cases h2 : peek (skip_spaces p) = 0xAC
  · simp [h2]
  by_cases h3 : peek (skip_spaces p) = 0xBB
  · simp [h3]
  by_cases h4 : peek (skip_spaces p) = 0xBC
  · simp only [h4]
    cases parse_factor_over Ar fuel (skip_spaces p).tail <;> simp
  by_cases h5 : peek (skip_spaces p) = 0xC1
  · simp only [h5]
    cases parse_factor_over Ar fuel (skip_spaces p).tail <;> simp
  by_cases h6 : peek (skip_spaces p) = 0xC2
  · simp only [h6]
    cases parse_factor_over Ar fuel (skip_spaces p).tail <;> simp
  by_cases h7 : peek (skip_spaces p) = 0xC3
  · simp only [h7]
    cases parse_factor_over Ar fuel (skip_spaces p).tail <;> simp
  by_cases h8 : peek (skip_spaces p) = 0xC4
  · simp only [h8]
    cases parse_factor_over Ar fuel (skip_spaces p).tail <;> simp
  by_cases h9 : peek (skip_spaces p) = 0xC5
  · simp only [h9]
    cases parse_factor_over Ar fuel (skip_spaces p).tail <;> simp
  simp only [if_neg h2, if_neg h3, if_neg h4, if_neg h5, if_neg h6, if_neg h7, if_neg h8,
    if_neg h9]
  split_ifs <;> rfl

theorem parse_pow_over_succ {F : Type} (Ar : Arith F) (fuel : Nat) (p : List Nat) :
    parse_pow_over Ar (fuel + 1) p =
      (parse_factor_over Ar fuel p).bind (fun x =>
        if peek (skip_spaces x.2) = 94 ∨ peek (skip_spaces x.2) = 0xF0 then
          (parse_factor_over Ar fuel (skip_spaces x.2).tail).bind
            (fun y => some (Ar.powf x.1 y.1, y.2))
        else some (x.1, skip_spaces x.2)) := by
  rw [parse_pow_over]
  cases parse_factor_over Ar fuel p with
  | none => rfl
  | some x =>
    simp only [Option.bind]
    split_ifs
    · cases parse_factor_over Ar fuel (skip_spaces x.2).tail <;> rfl
    · rfl

theorem term_loop_over_succ {F : Type} (Ar : Arith F) (fuel : Nat) (val : F) (s : List Nat) :
    term_loop_over Ar (fuel + 1) val s =
      if peek s = 42 ∨ peek s = 47 then
        (parse_pow_over Ar fuel s.tail).bind (fun x =>
          term_loop_over Ar fuel
            (if peek s = 42 then Ar.mul val x.1
              else if Ar.is_nonzero x.1 = true then Ar.div val x.1 else val) x.2)
      else some (val, s) := by
  rw [term_loop_over]
  by_cases h1 : peek s = 42 ∨ peek s = 47
  · rw [if_pos h1, if_pos h1]
    cases parse_pow_over Ar fuel s.tail with
    | none => rfl
    | some x =>
      simp only [Option.bind]
      by_cases h2 : peek s = 42
      · simp only [if_pos h2]
      · simp only [if_neg h2]
        split_ifs <;> rfl
  · rw [if_neg h1, if_neg h1]

theorem parse_term_over_succ {F : Type} (Ar : Arith F) (fuel : Nat) (p : List Nat) :
    parse_term_over Ar (fuel + 1) p =
      (parse_pow_over Ar fuel p).bind
        (fun x => term_loop_over Ar fuel x.1 (skip_spaces x.2)) := by
  rw [parse_term_over]
  cases parse_pow_over Ar fuel p <;> rfl

theorem expr_loop_over_succ {F : Type} (Ar : Arith F) (fuel : Nat) (val : F) (s : List Nat) :
    expr_loop_over Ar (fuel + 1) val s =
      if peek s = 43 ∨ peek s = 45 then
        (parse_term_over Ar fuel s.tail).bind (fun x =>
          expr_loop_over Ar fuel (if peek s = 43 then Ar.add val x.1 else Ar.sub val x.1) x.2)
      else some (val, s) := by
  rw [expr_loop_over]
  by_cases h1 : peek s = 43 ∨ peek s = 45
  · rw [if_pos h1, if_pos h1]
    cases parse_term_over Ar fuel s.tail with
    | none => rfl
    | some x =>
      simp only [Option.bind]
      by_cases h2 : peek s = 43
      · simp only [if_pos h2]
      · simp only [if_neg h2]
  · rw [if_neg h1, if_neg h1]

theorem parse_expr_over_succ {F : Type} (Ar : Arith F) (fuel : Nat) (p : List Nat) :
    parse_expr_over Ar (fuel + 1) p =
      (parse_term_over Ar fuel p).bind
        (fun x => expr_loop_over Ar fuel x.1 (skip_spaces x.2)) := by
  rw [parse_expr_over]
  cases parse_term_over Ar fuel p <;> rfl

/-! ### The exact evaluator is the evaluator over the exact arithmetic -/

theorem unary_fn_over_exact (L : Libm) (token : Nat) :
    unary_fn_over (exact_arith L) token = unary_fn L token := rfl

theorem const_val_over_exact (L : Libm) (token : Nat) :
    const_val_over (exact_arith L) token = const_val token := rfl

theorem number_case_over_exact (L : Libm) (s : List Nat) :
    number_case_over (exact_arith L) s = number_case s := rfl

theorem parser_over_exact (L : Libm) (f : Nat) :
    (∀ s, parse_factor_over (exact_arith L) f s = parse_factor L f s) ∧
    (∀ s, parse_pow_over (exact_arith L) f s = parse_pow L f s) ∧
    (∀ v s, term_loop_over (exact_arith L) f v s = term_loop L f v s) ∧
    (∀ s, parse_term_over (exact_arith L) f s = parse_term L f s) ∧
    (∀ v s, expr_loop_over (exact_arith L) f v s = expr_loop L f v s) ∧
    (∀ s, parse_expr_over (exact_arith L) f s = parse_expr L f s) := by
  induction f with
  | zero =>
    refine ⟨?_, ?_, ?_, ?_, ?_, ?_⟩ <;> intros <;>
      simp [parse_factor, parse_pow, term_loop, parse_term, expr_loop, parse_expr,
        parse_factor_over, parse_pow_over, term_loop_over, parse_term_over, expr_loop_over,
        parse_expr_over]
  | succ f ih =>
    obtain ⟨iF, iP, iTL, iT, iEL, iE⟩ := ih
    refine ⟨?_, ?_, ?_, ?_, ?_, ?_⟩
    · intro s
      rw [parse_factor_over_succ, parse_factor_succ, iE, iF, unary_fn_over_exact,
        const_val_over_exact, number_case_over_exact]
      by_cases h0 : peek (skip_spaces s) = 40
      · rw [if_pos h0, if_pos h0]
      · rw [if_neg h0, if_neg h0]
        generalize unary_fn L (peek (skip_spaces s)) = u
        cases u with
        | some g => rfl
        | none =>
          generalize const_val (peek (skip_spaces s)) = c
          cases c <;> rfl
    · intro s
      rw [parse_pow_over_succ, parse_pow_succ, iF]
      congr 1
      funext x
      simp only [iF]
      rfl
    · intro v s
      rw [term_loop_over_succ, term_loop_succ, iP]
      congr 1
      congr 1
      funext x
      rw [iTL]
      congr 1
      by_cases h : peek s = 42
      · rw [if_pos h, if_pos h]
        rfl
      · rw [if_neg h, if_neg h]
        by_cases hx : x.1 ≠ 0
        · rw [if_pos hx, if_pos (show (exact_arith L).is_nonzero x.1 = true from
            decide_eq_true hx)]
          rfl
        · rw [if_neg hx, if_neg (show ¬ (exact_arith L).is_nonzero x.1 = true from by
            rw [show (exact_arith L).is_nonzero x.1 = false from decide_eq_false hx]
            exact Bool.false_ne_true)]
    · intro s
      rw [parse_term_over_succ, parse_term_succ, iP]
      congr 1
      funext x
      rw [iTL]
    · intro v s
      rw [expr_loop_over_succ, expr_loop_succ, iT]
      congr 1
      congr 1
      funext x
      rw [iEL]
      rfl
    · intro s
      rw [parse_expr_over_succ, parse_expr_succ, iT]
      congr 1
      funext x
      rw [iEL]

theorem parser_over_exact_expr (L : Libm) (f : Nat) (s : List Nat) :
    parse_expr_over (exact_arith L) f s = parse_expr L f s :=
  (parser_over_exact L f).2.2.2.2.2 s

/-! ### Literals, sums, products and powers over an arbitrary arithmetic -/

theorem parse_factor_over_pos {F : Type} (Ar : Arith F) (N : Nat) (p : List Nat) (hN : 1 ≤ N) :
    parse_factor_over Ar N p =
      if peek (skip_spaces p) = 40 then
        (parse_expr_over Ar (N - 1) (skip_spaces p).tail).bind
          (fun x => some (x.1, if peek x.2 = 41 then x.2.tail else x.2))
      else match unary_fn_over Ar (peek (skip_spaces p)) with
        | some g =>
          (parse_factor_over Ar (N - 1) (skip_spaces p).tail).bind
            (fun x => some (g x.1, x.2))
        | none =>
          match const_val_over Ar (peek (skip_spaces p)) with
          | some c => some (c, (skip_spaces p).tail)
          | none => some (number_case_over Ar (skip_spaces p)) := by
  obtain ⟨f, rfl⟩ : ∃ f, N = f + 1 := ⟨N - 1, by omega⟩
  exact parse_factor_over_succ Ar f p

theorem parse_pow_over_pos {F : Type} (Ar : Arith F) (N : Nat) (p : List Nat) (hN : 1 ≤ N) :
    parse_pow_over Ar N p =
      (parse_factor_over Ar (N - 1) p).bind (fun x =>
        if peek (skip_spaces x.2) = 94 ∨ peek (skip_spaces x.2) = 0xF0 then
          (parse_factor_over Ar (N - 1) (skip_spaces x.2).tail).bind
            (fun y => some (Ar.powf x.1 y.1, y.2))
        else some (x.1, skip_spaces x.2)) := by
  obtain ⟨f, rfl⟩ : ∃ f, N = f + 1 := ⟨N - 1, by omega⟩
  exact parse_pow_over_succ Ar f p

theorem term_loop_over_pos {F : Type} (Ar : Arith F) (N : Nat) (val : F) (s : List Nat)
    (hN : 1 ≤ N) :
    term_loop_over Ar N val s =
      if peek s = 42 ∨ peek s = 47 then
        (parse_pow_over Ar (N - 1) s.tail).bind (fun x =>
          term_loop_over Ar (N - 1)
            (if peek s = 42 then Ar.mul val x.1
              else if Ar.is_nonzero x.1 = true then Ar.div val x.1 else val) x.2)
      else some (val, s) := by
  obtain ⟨f, rfl⟩ : ∃ f, N = f + 1 := ⟨N - 1, by omega⟩
  exact term_loop_over_succ Ar f val s

theorem parse_term_over_pos {F : Type} (Ar : Arith F) (N : Nat) (p : List Nat) (hN : 1 ≤ N) :
    parse_term_over Ar N p =
      (parse_pow_over Ar (N - 1) p).bind
        (fun x => term_loop_over Ar (N - 1) x.1 (skip_spaces x.2)) := by
  obtain ⟨f, rfl⟩ : ∃ f, N = f + 1 := ⟨N - 1, by omega⟩
  exact parse_term_over_succ Ar f p

theorem expr_loop_over_pos {F : Type} (Ar : Arith F) (N : Nat) (val : F) (s : List Nat)
    (hN : 1 ≤ N) :
    expr_loop_over Ar N val s =
      if peek s = 43 ∨ peek s = 45 then
        (parse_term_over Ar (N - 1) s.tail).bind (fun x =>
          expr_loop_over Ar (N - 1)
            (if peek s = 43 then Ar.add val x.1 else Ar.sub val x.1) x.2)
      else some (val, s) := by
  obtain ⟨f, rfl⟩ : ∃ f, N = f + 1 := ⟨N - 1, by omega⟩
  exact expr_loop_over_succ Ar f val s

theorem parse_expr_over_pos {F : Type} (Ar : Arith F) (N : Nat) (p : List Nat) (hN : 1 ≤ N) :
    parse_expr_over Ar N p =
      (parse_term_over Ar (N - 1) p).bind
        (fun x => expr_loop_over Ar (N - 1) x.1 (skip_spaces x.2)) := by
  obtain ⟨f, rfl⟩ : ∃ f, N = f + 1 := ⟨N - 1, by omega⟩
  exact parse_expr_over_succ Ar f p

theorem unary_fn_over_digit {F : Type} (Ar : Arith F) {d : Nat} (h : is_digit d = true) :
    unary_fn_over Ar d = none := by
  simp only [is_digit, Bool.and_eq_true, decide_eq_true_eq] at h
  have h1 : ¬ (d = 45 ∨ d = 0xB0) := by omega
  have h2 : d ≠ 0xBC := by omega
  have h3 : d ≠ 0xC1 := by omega
  have h4 : d ≠ 0xC2 := by omega
  have h5 : d ≠ 0xC3 := by omega
  have h6 : d ≠ 0xC4 := by omega
  have h7 : d ≠ 0xC5 := by omega
  simp [unary_fn_over, h1, h2, h3, h4, h5, h6, h7]

theorem const_val_over_digit {F : Type} (Ar : Arith F) {d : Nat} (h : is_digit d = true) :
    const_val_over Ar d = none := by
  simp only [is_digit, Bool.and_eq_true, decide_eq_true_eq] at h
  have h1 : d ≠ 0xAC := by omega
  have h2 : d ≠ 0xBB := by omega
  simp [const_val_over, h1, h2]

theorem parse_factor_over_literal {F : Type} (Ar : Arith F) (N : Nat) (ds rest : List Nat)
    (hN : 1 ≤ N) (hlit : is_literal ds) (hlen : ds.length ≤ 31)
    (hrest : is_num_token (peek rest) = false) :
    parse_factor_over Ar N (ds ++ rest) = some (Ar.strtof ds, rest) := by
  obtain ⟨f, rfl⟩ : ∃ f, N = f + 1 := ⟨N - 1, by omega⟩
  have hscan := scan_number_digits ds rest [] hlit.2 (by simpa using hlen) hrest
  obtain ⟨hne, hd⟩ := hlit
  cases ds with
  | nil => exact absurd rfl hne
  | cons d t =>
    have hdd := hd d (List.mem_cons_self d t)
    have hsk : skip_spaces (d :: t ++ rest) = d :: t ++ rest :=
      skip_spaces_of_peek_ne (is_digit_not_space hdd)
    have hpk : peek (d :: t ++ rest) = d := rfl
    have h40 : d ≠ 40 := by
      simp only [is_digit, Bool.and_eq_true, decide_eq_true_eq] at hdd
      omega
    rw [parse_factor_over_succ, hsk, hpk, if_neg h40, unary_fn_over_digit Ar hdd,
      const_val_over_digit Ar hdd]
    simp only [number_case_over, hscan, List.nil_append, List.length_cons, gt_iff_lt,
      Nat.zero_lt_succ, if_true]

theorem parse_pow_over_literal {F : Type} (Ar : Arith F) (N : Nat) (ds rest : List Nat)
    (hN : 2 ≤ N) (hlit : is_literal ds) (hlen : ds.length ≤ 31)
    (hrest : is_num_token (peek rest) = false) (h32 : peek rest ≠ 32)
    (h94 : peek rest ≠ 94) (hF0 : peek rest ≠ 0xF0) :
    parse_pow_over Ar N (ds ++ rest) = some (Ar.strtof ds, rest) := by
  rw [parse_pow_over_pos Ar N _ (by omega),
    parse_factor_over_literal Ar (N - 1) ds rest (by omega) hlit hlen hrest]
  have : ¬ (peek rest = 94 ∨ peek rest = 0xF0) := fun h => h.elim h94 hF0
  simp only [Option.bind, skip_spaces_of_peek_ne h32, if_neg this]

theorem parse_term_over_literal {F : Type} (Ar : Arith F) (N : Nat) (ds rest : List Nat)
    (hN : 3 ≤ N) (hlit : is_literal ds) (hlen : ds.length ≤ 31)
    (hrest : is_num_token (peek rest) = false) (h32 : peek rest ≠ 32)
    (h94 : peek rest ≠ 94) (hF0 : peek rest ≠ 0xF0) (h42 : peek rest ≠ 42)
    (h47 : peek rest ≠ 47) :
    parse_term_over Ar N (ds ++ rest) = some (Ar.strtof ds, rest) := by
  rw [parse_term_over_pos Ar N _ (by omega),
    parse_pow_over_literal Ar (N - 1) ds rest (by omega) hlit hlen hrest h32 h94 hF0]
  have : ¬ (peek rest = 42 ∨ peek rest = 47) := fun h => h.elim h42 h47
  simp only [Option.bind, skip_spaces_of_peek_ne h32]
  rw [term_loop_over_pos Ar (N - 1) _ _ (by omega), if_neg this]

theorem parse_term_over_product {F : Type} (Ar : Arith F) (N : Nat) (b c rest : List Nat)
    (hN : 4 ≤ N) (hb : is_literal b) (hbl : b.length ≤ 31) (hc : is_literal c)
    (hcl : c.length ≤ 31) (hrest : is_num_token (peek rest) = false) (h32 : peek rest ≠ 32)
    (h94 : peek rest ≠ 94) (hF0 : peek rest ≠ 0xF0) (h42 : peek rest ≠ 42)
    (h47 : peek rest ≠ 47) :
    parse_term_over Ar N (b ++ 42 :: (c ++ rest))
      = some (Ar.mul (Ar.strtof b) (Ar.strtof c), rest) := by
  rw [parse_term_over_pos Ar N _ (by omega),
    parse_pow_over_literal Ar (N - 1) b (42 :: (c ++ rest)) (by omega) hb hbl rfl
      (by simp [peek_cons]) (by simp [peek_cons]) (by simp [peek_cons])]
  have hstop : ¬ (peek rest = 42 ∨ peek rest = 47) := fun h => h.elim h42 h47
  simp only [Option.bind, skip_spaces_of_peek_ne
    (show peek (42 :: (c ++ rest)) ≠ 32 by simp [peek_cons])]
  rw [term_loop_over_pos Ar (N - 1) _ _ (by omega), if_pos (Or.inl (peek_cons _ _))]
  simp only [List.tail_cons, peek_cons]
  rw [parse_pow_over_literal Ar (N - 1 - 1) c rest (by omega) hc hcl hrest h32 h94 hF0]
  simp only [Option.bind]
  rw [term_loop_over_pos Ar (N - 1 - 1) _ _ (by omega), if_neg hstop, if_true]

theorem parse_expr_over_sum {F : Type} (Ar : Arith F) (N : Nat) (a b rest : List Nat)
    (hN : 5 ≤ N) (ha : is_literal a) (hal : a.length ≤ 31) (hb : is_literal b)
    (hbl : b.length ≤ 31) (hrest : is_num_token (peek rest) = false) (h32 : peek rest ≠ 32)
    (h94 : peek rest ≠ 94) (hF0 : peek rest ≠ 0xF0) (h42 : peek rest ≠ 42)
    (h47 : peek rest ≠ 47) (h43 : peek rest ≠ 43) (h45 : peek rest ≠ 45) :
    parse_expr_over Ar N (a ++ 43 :: (b ++ rest))
      = some (Ar.add (Ar.strtof a) (Ar.strtof b), rest) := by
  have hstop : ¬ (peek rest = 43 ∨ peek rest = 45) := fun h => h.elim h43 h45
  rw [parse_expr_over_pos Ar N _ (by omega),
    parse_term_over_literal Ar (N - 1) a (43 :: (b ++ rest)) (by omega) ha hal rfl
      (by simp [peek_cons]) (by simp [peek_cons]) (by simp [peek_cons]) (by simp [peek_cons])
      (by simp [peek_cons])]
  simp only [Option.bind, skip_spaces_of_peek_ne (show peek (43 :: (b ++ rest)) ≠ 32 by
    simp [peek_cons])]
  rw [expr_loop_over_pos Ar (N - 1) _ _ (by omega), if_pos (Or.inl (peek_cons _ _))]
  simp only [List.tail_cons, peek_cons]
  rw [parse_term_over_literal Ar (N - 1 - 1) b rest (by omega) hb hbl hrest h32 h94 hF0 h42 h47]
  simp only [Option.bind]
  rw [expr_loop_over_pos Ar (N - 1 - 1) _ _ (by omega), if_neg hstop, if_true]

theorem parse_expr_over_sum_of_product {F : Type} (Ar : Arith F) (N : Nat) (a b c : List Nat)
    (hN : 6 ≤ N) (ha : is_literal a) (hal : a.length ≤ 31) (hb : is_literal b)
    (hbl : b.length ≤ 31) (hc : is_literal c) (hcl : c.length ≤ 31) :
    parse_expr_over Ar N (a ++ 43 :: (b ++ 42 :: (c ++ [])))
      = some (Ar.add (Ar.strtof a) (Ar.mul (Ar.strtof b) (Ar.strtof c)), []) := by
  rw [parse_expr_over_pos Ar N _ (by omega),
    parse_term_over_literal Ar (N - 1) a (43 :: (b ++ 42 :: (c ++ []))) (by omega) ha hal rfl
      (by simp [peek_cons]) (by simp [peek_cons]) (by simp [peek_cons]) (by simp [peek_cons])
      (by simp [peek_cons])]
  simp only [Option.bind, skip_spaces_of_peek_ne
    (show peek (43 :: (b ++ 42 :: (c ++ []))) ≠ 32 by simp [peek_cons])]
  rw [expr_loop_over_pos Ar (N - 1) _ _ (by omega), if_pos (Or.inl (peek_cons _ _))]
  simp only [List.tail_cons, peek_cons]
  rw [parse_term_over_product Ar (N - 1 - 1) b c [] (by omega) hb hbl hc hcl rfl (by decide)
    (by decide) (by decide) (by decide) (by decide)]
  simp only [Option.bind]
  rw [expr_loop_over_pos Ar (N - 1 - 1) _ _ (by omega), if_neg (by decide), if_true]

theorem parse_expr_over_product_of_sum {F : Type} (Ar : Arith F) (N : Nat) (a b c : List Nat)
    (hN : 10 ≤ N) (ha : is_literal a) (hal : a.length ≤ 31) (hb : is_literal b)
    (hbl : b.length ≤ 31) (hc : is_literal c) (hcl : c.length ≤ 31) :
    parse_expr_over Ar N (40 :: (a ++ 43 :: (b ++ 41 :: 42 :: (c ++ []))))
      = some (Ar.mul (Ar.add (Ar.strtof a) (Ar.strtof b)) (Ar.strtof c), []) := by
  have hinner := parse_expr_over_sum Ar (N - 1 - 1 - 1 - 1) a b (41 :: 42 :: (c ++ []))
    (by omega) ha hal hb hbl rfl (by simp [peek_cons]) (by simp [peek_cons])
    (by simp [peek_cons]) (by simp [peek_cons]) (by simp [peek_cons]) (by simp [peek_cons])
    (by simp [peek_cons])
  have hfac : parse_factor_over Ar (N - 1 - 1 - 1)
      (40 :: (a ++ 43 :: (b ++ 41 :: 42 :: (c ++ []))))
      = some (Ar.add (Ar.strtof a) (Ar.strtof b), 42 :: (c ++ [])) := by
    rw [parse_factor_over_pos Ar _ _ (by omega), skip_spaces_of_peek_ne (by simp [peek_cons]),
      if_pos (peek_cons _ _)]
    simp only [List.tail_cons]
    rw [hinner]
    simp only [Option.bind, peek_cons, if_true, List.tail_cons]
  have hpow : parse_pow_over Ar (N - 1 - 1) (40 :: (a ++ 43 :: (b ++ 41 :: 42 :: (c ++ []))))
      = some (Ar.add (Ar.strtof a) (Ar.strtof b), 42 :: (c ++ [])) := by
    rw [parse_pow_over_pos Ar _ _ (by omega), hfac]
    simp only [Option.bind, skip_spaces_of_peek_ne
      (show peek (42 :: (c ++ [])) ≠ 32 by simp [peek_cons]), peek_cons]
    rw [if_neg (by decide)]
  rw [parse_expr_over_pos Ar N _ (by omega), parse_term_over_pos Ar _ _ (by omega), hpow]
  simp only [Option.bind, skip_spaces_of_peek_ne
    (show peek (42 :: (c ++ [])) ≠ 32 by simp [peek_cons])]
  rw [term_loop_over_pos Ar _ _ _ (by omega), if_pos (Or.inl (peek_cons _ _))]
  simp only [List.tail_cons, peek_cons]
  rw [parse_pow_over_literal Ar _ c [] (by omega) hc hcl rfl (by decide) (by decide)
    (by decide)]
  simp only [Option.bind, if_true]
  rw [term_loop_over_pos Ar _ _ _ (by omega), if_neg (by decide)]
  simp only [Option.bind]
  rw [expr_loop_over_pos Ar _ _ _ (by omega), if_neg (by decide)]
  rfl

theorem term_loop_over_skips_zero {F : Type} (Ar : Arith F) (N : Nat) (v z : F)
    (s r : List Nat) (hs : peek s = 47) (hp : parse_pow_over Ar N s.tail = some (z, r))
    (hz : Ar.is_nonzero z = false) :
    term_loop_over Ar (N + 1) v s = term_loop_over Ar N v r := by
  have h42 : peek s ≠ 42 := by omega
  rw [term_loop_over_succ, if_pos (Or.inr hs), hp]
  simp only [Option.bind, if_neg h42, hz, Bool.false_eq_true, if_false]

theorem parse_expr_over_div_zero {F : Type} (Ar : Arith F) (N : Nat) (a : List Nat)
    (hN : 6 ≤ N) (ha : is_literal a) (hal : a.length ≤ 31)
    (h0 : Ar.is_nonzero (Ar.strtof [48]) = false) :
    parse_expr_over Ar N (a ++ 47 :: ([48] ++ [])) = some (Ar.strtof a, []) := by
  have hz : parse_pow_over Ar (N - 1 - 1 - 1) ([48] ++ []) = some (Ar.strtof [48], []) :=
    parse_pow_over_literal Ar _ [48] [] (by omega) is_literal_zero (by decide) rfl (by decide)
      (by decide) (by decide)
  rw [parse_expr_over_pos Ar N _ (by omega), parse_term_over_pos Ar _ _ (by omega),
    parse_pow_over_literal Ar _ a (47 :: ([48] ++ [])) (by omega) ha hal rfl
      (by simp [peek_cons]) (by simp [peek_cons]) (by simp [peek_cons])]
  simp only [Option.bind, skip_spaces_of_peek_ne
    (show peek (47 :: ([48] ++ [])) ≠ 32 by simp [peek_cons])]
  rw [term_loop_over_pos Ar _ _ _ (by omega), if_pos (Or.inr (peek_cons _ _))]
  simp only [List.tail_cons, peek_cons]
  rw [hz]
  simp only [Option.bind, h0, Bool.false_eq_true, if_false]
  rw [if_neg (by decide), term_loop_over_pos Ar _ _ _ (by omega), if_neg (by decide)]
  simp only [Option.bind]
  rw [expr_loop_over_pos Ar _ _ _ (by omega), if_neg (by decide)]
  rfl

theorem parse_expr_over_div_zero_times {F : Type} (Ar : Arith F) (N : Nat) (a b : List Nat)
    (hN : 7 ≤ N) (ha : is_literal a) (hal : a.length ≤ 31) (hb : is_literal b)
    (hbl : b.length ≤ 31) (h0 : Ar.is_nonzero (Ar.strtof [48]) = false) :
    parse_expr_over Ar N (a ++ 47 :: ([48] ++ 42 :: (b ++ [])))
      = some (Ar.mul (Ar.strtof a) (Ar.strtof b), []) := by
  have hz : parse_pow_over Ar (N - 1 - 1 - 1) ([48] ++ 42 :: (b ++ []))
      = some (Ar.strtof [48], 42 :: (b ++ [])) :=
    parse_pow_over_literal Ar _ [48] _ (by omega) is_literal_zero (by decide) rfl
      (by simp [peek_cons]) (by simp [peek_cons]) (by simp [peek_cons])
  rw [parse_expr_over_pos Ar N _ (by omega), parse_term_over_pos Ar _ _ (by omega),
    parse_pow_over_literal Ar _ a (47 :: ([48] ++ 42 :: (b ++ []))) (by omega) ha hal rfl
      (by simp [peek_cons]) (by simp [peek_cons]) (by simp [peek_cons])]
  simp only [Option.bind, skip_spaces_of_peek_ne
    (show peek (47 :: ([48] ++ 42 :: (b ++ []))) ≠ 32 by simp [peek_cons])]
  rw [term_loop_over_pos Ar _ _ _ (by omega), if_pos (Or.inr (peek_cons _ _))]
  simp only [List.tail_cons, peek_cons]
  rw [hz]
  simp only [Option.bind, h0, Bool.false_eq_true, if_false]
  rw [if_neg (by decide), term_loop_over_pos Ar _ _ _ (by omega),
    if_pos (Or.inl (peek_cons _ _))]
  simp only [List.tail_cons, peek_cons]
  rw [parse_pow_over_literal Ar _ b [] (by omega) hb hbl rfl (by decide) (by decide)
    (by decide)]
  simp only [Option.bind, if_true]
  rw [term_loop_over_pos Ar _ _ _ (by omega), if_neg (by decide)]
  simp only [Option.bind]
  rw [expr_loop_over_pos Ar _ _ _ (by omega), if_neg (by decide)]
  rfl

theorem parse_pow_over_power_literal {F : Type} (Ar : Arith F) (N : Nat) (a b rest : List Nat)
    (hN : 2 ≤ N) (ha : is_literal a) (hal : a.length ≤ 31) (hb : is_literal b)
    (hbl : b.length ≤ 31) (hrest : is_num_token (peek rest) = false) :
    parse_pow_over Ar N (a ++ 94 :: (b ++ rest))
      = some (Ar.powf (Ar.strtof a) (Ar.strtof b), rest) := by
  rw [parse_pow_over_pos Ar N _ (by omega),
    parse_factor_over_literal Ar (N - 1) a (94 :: (b ++ rest)) (by omega) ha hal rfl]
  simp only [Option.bind, skip_spaces_of_peek_ne
    (show peek (94 :: (b ++ rest)) ≠ 32 by simp [peek_cons])]
  rw [if_pos (Or.inl (peek_cons _ _))]
  simp only [List.tail_cons]
  rw [parse_factor_over_literal Ar (N - 1) b rest (by omega) hb hbl hrest]

theorem parse_expr_over_power_literal {F : Type} (Ar : Arith F) (N : Nat)
    (a b rest : List Nat) (hN : 4 ≤ N) (ha : is_literal a) (hal : a.length ≤ 31)
    (hb : is_literal b) (hbl : b.length ≤ 31) (hrest : is_num_token (peek rest) = false)
    (h32 : peek rest ≠ 32) (h42 : peek rest ≠ 42) (h47 : peek rest ≠ 47)
    (h43 : peek rest ≠ 43) (h45 : peek rest ≠ 45) :
    parse_expr_over Ar N (a ++ 94 :: (b ++ rest))
      = some (Ar.powf (Ar.strtof a) (Ar.strtof b), rest) := by
  have ht : ¬ (peek rest = 42 ∨ peek rest = 47) := fun h => h.elim h42 h47
  have he : ¬ (peek rest = 43 ∨ peek rest = 45) := fun h => h.elim h43 h45
  rw [parse_expr_over_pos Ar N _ (by omega), parse_term_over_pos Ar _ _ (by omega),
    parse_pow_over_power_literal Ar _ a b rest (by omega) ha hal hb hbl hrest]
  simp only [Option.bind, skip_spaces_of_peek_ne h32]
  rw [term_loop_over_pos Ar _ _ _ (by omega), if_neg ht]
  simp only [skip_spaces_of_peek_ne h32]
  rw [expr_loop_over_pos Ar _ _ _ (by omega), if_neg he]

/-! ### Claims about the evaluator that depend on the arithmetic -/

/-- C3 (amended). The evaluator respects precedence and grouping: for every float
arithmetic `Ar` and all unsigned decimal integer literals `a`, `b`, `c` of at most
31 digits each, `parse_expr` on `"a+b*c"` returns `a ⊕ (b ⊗ c)` and on `"(a+b)*c"`
returns `(a ⊕ b) ⊗ c`, where each literal stands for the float `strtof` gives it and
`⊕`, `⊗` are the float addition and multiplication, in both cases with the whole
input consumed; over the exact arithmetic these values are `a + (b*c)` and
`(a+b)*c`. -/
theorem parse_expr_precedence_grouping {F : Type} (Ar : Arith F) (a b c : List Nat)
    (ha : is_literal a) (hal : a.length ≤ 31) (hb : is_literal b) (hbl : b.length ≤ 31)
    (hc : is_literal c) (hcl : c.length ≤ 31) :
    (∀ fuel, fuelFor (a ++ bytes "+" ++ b ++ bytes "*" ++ c) ≤ fuel →
      parse_expr_over Ar fuel (a ++ bytes "+" ++ b ++ bytes "*" ++ c)
        = some (Ar.add (Ar.strtof a) (Ar.mul (Ar.strtof b) (Ar.strtof c)), [])) ∧
    (∀ fuel, fuelFor (bytes "(" ++ a ++ bytes "+" ++ b ++ bytes ")*" ++ c) ≤ fuel →
      parse_expr_over Ar fuel (bytes "(" ++ a ++ bytes "+" ++ b ++ bytes ")*" ++ c)
        = some (Ar.mul (Ar.add (Ar.strtof a) (Ar.strtof b)) (Ar.strtof c), [])) ∧
    (∀ (L : Libm) (fuel : Nat), fuelFor (a ++ bytes "+" ++ b ++ bytes "*" ++ c) ≤ fuel →
      parse_expr L fuel (a ++ bytes "+" ++ b ++ bytes "*" ++ c)
        = some ((digits_value a : ℚ) + (digits_value b : ℚ) * (digits_value c : ℚ), [])) ∧
    (∀ (L : Libm) (fuel : Nat),
      fuelFor (bytes "(" ++ a ++ bytes "+" ++ b ++ bytes ")*" ++ c) ≤ fuel →
      parse_expr L fuel (bytes "(" ++ a ++ bytes "+" ++ b ++ bytes ")*" ++ c)
        = some (((digits_value a : ℚ) + (digits_value b : ℚ)) * (digits_value c : ℚ), [])) := by
  have e1 : a ++ bytes "+" ++ b ++ bytes "*" ++ c = a ++ 43 :: (b ++ 42 :: (c ++ [])) := by
    simp [bytes]
  have e2 : bytes "(" ++ a ++ bytes "+" ++ b ++ bytes ")*" ++ c
      = 40 :: (a ++ 43 :: (b ++ 41 :: 42 :: (c ++ []))) := by
    simp [bytes]
  have la := literal_length_pos ha
  have lb := literal_length_pos hb
  have lc := literal_length_pos hc
  have f1 : ∀ fuel, fuelFor (a ++ 43 :: (b ++ 42 :: (c ++ []))) ≤ fuel → 6 ≤ fuel := by
    intro fuel hf
    simp only [fuelFor, List.length_append, List.length_cons, List.length_nil] at hf
    omega
  have f2 : ∀ fuel, fuelFor (40 :: (a ++ 43 :: (b ++ 41 :: 42 :: (c ++ [])))) ≤ fuel →
      10 ≤ fuel := by
    intro fuel hf
    simp only [fuelFor, List.length_append, List.length_cons, List.length_nil] at hf
    omega
  refine ⟨fun fuel hf => ?_, fun fuel hf => ?_, fun L fuel hf => ?_, fun L fuel hf => ?_⟩
  · rw [e1] at hf ⊢
    exact parse_expr_over_sum_of_product Ar fuel a b c (f1 fuel hf) ha hal hb hbl hc hcl
  · rw [e2] at hf ⊢
    exact parse_expr_over_product_of_sum Ar fuel a b c (f2 fuel hf) ha hal hb hbl hc hcl
  · rw [e1] at hf ⊢
    exact parse_expr_sum_of_product L fuel a b c (f1 fuel hf) ha hal hb hbl hc hcl
  · rw [e2] at hf ⊢
    exact parse_expr_product_of_sum L fuel a b c (f2 fuel hf) ha hal hb hbl hc hcl

/-- Witness for C3 in float32 arithmetic: `"2+3*4"` evaluates to `14` and
`"(2+3)*4"` to `20`. -/
theorem parse_expr_precedence_grouping_witness :
    parse_expr_over (float32_arith sample_libm) (fuelFor (bytes "2+3*4")) (bytes "2+3*4")
      = some (14, []) ∧
    parse_expr_over (float32_arith sample_libm) (fuelFor (bytes "(2+3)*4")) (bytes "(2+3)*4")
      = some (20, []) := by
  have h := parse_expr_precedence_grouping (float32_arith sample_libm) (bytes "2") (bytes "3")
    (bytes "4") is_literal_bytes_2 (by decide) is_literal_bytes_3 (by decide)
    is_literal_bytes_4 (by decide)
  have h1 := h.1 _ (le_refl _)
  have h2 := h.2.1 _ (le_refl _)
  have v1 : (float32_arith sample_libm).add ((float32_arith sample_libm).strtof (bytes "2"))
      ((float32_arith sample_libm).mul ((float32_arith sample_libm).strtof (bytes "3"))
        ((float32_arith sample_libm).strtof (bytes "4"))) = 14 := by
    with_unfolding_all rfl
  have v2 : (float32_arith sample_libm).mul
      ((float32_arith sample_libm).add ((float32_arith sample_libm).strtof (bytes "2"))
        ((float32_arith sample_libm).strtof (bytes "3")))
      ((float32_arith sample_libm).strtof (bytes "4")) = 20 := by
    with_unfolding_all rfl
  rw [v1] at h1
  rw [v2] at h2
  exact ⟨h1, h2⟩

/-- Counterexample to C3 as stated, in float32 arithmetic. On `"16777217+2*3"` the
literal `16777217 = 2^24 + 1` is rounded to `16777216` and the result is `16777222`,
not `16777223`. On `"a+2*3"` with the 32-digit literal `a = 0...012` the number loop
stops after 31 characters, the literal is read as `1`, and the result is `1` with
the cursor left on the 32nd digit, not `12 + 2*3`; all the values of this run are
exact in float32, and the exact evaluator returns the same. -/
theorem parse_expr_precedence_counterexample :
    (∀ L : Libm,
      parse_expr_over (float32_arith L) (fuelFor (bytes "16777217+2*3"))
        (bytes "16777217+2*3") = some (16777222, [])) ∧
    (16777222 : ℚ) ≠ 16777217 + 2 * 3 ∧
    (∀ L : Libm,
      parse_expr_over (float32_arith L)
        (fuelFor (bytes "00000000000000000000000000000012+2*3"))
        (bytes "00000000000000000000000000000012+2*3") = some (1, bytes "2+2*3")) ∧
    (∀ L : Libm,
      parse_expr L (fuelFor (bytes "00000000000000000000000000000012+2*3"))
        (bytes "00000000000000000000000000000012+2*3") = some (1, bytes "2+2*3")) ∧
    (1 : ℚ) ≠ 12 + 2 * 3 := by
  refine ⟨fun L => ?_, by norm_num, fun L => ?_, fun L => ?_, by norm_num⟩
  · have h := parse_expr_over_sum_of_product (float32_arith L)
      (fuelFor (bytes "16777217+2*3")) (bytes "16777217") (bytes "2") (bytes "3") (by decide)
      ⟨by decide, by decide⟩ (by decide) is_literal_bytes_2 (by decide) is_literal_bytes_3
      (by decide)
    have a1 : fl32 (strtof (bytes "16777217")) = 16777216 := by with_unfolding_all rfl
    have a2 : fl32 (strtof (bytes "2")) = 2 := by with_unfolding_all rfl
    have a3 : fl32 (strtof (bytes "3")) = 3 := by with_unfolding_all rfl
    have m : fl32 ((2 : ℚ) * 3) = 6 := by with_unfolding_all rfl
    have r : fl32 ((16777216 : ℚ) + 6) = 16777222 := by with_unfolding_all rfl
    have v : (float32_arith L).add ((float32_arith L).strtof (bytes "16777217"))
        ((float32_arith L).mul ((float32_arith L).strtof (bytes "2"))
          ((float32_arith L).strtof (bytes "3"))) = 16777222 := by
      show fl32 (fl32 (strtof (bytes "16777217")) +
        fl32 (fl32 (strtof (bytes "2")) * fl32 (strtof (bytes "3")))) = 16777222
      rw [a1, a2, a3, m, r]
    rw [v] at h
    exact h
  · with_unfolding_all rfl
  · with_unfolding_all rfl

/-- C7 (amended). Evaluator division by exactly zero skips the division: in every
float arithmetic `Ar`, whenever the right operand of `'/'` in the loop of
`parse_term` evaluates to a float that the test `val2 != 0` finds zero, the
accumulator is left unchanged and the loop continues behind that operand; in
particular, when the literal `0` converts to such a float, for all unsigned
decimal integer literals `a` and `b` of at most 31 digits each `"a/0"` evaluates to
the float of `a` and `"a/0*b"` to the float product of the floats of `a` and `b`;
over the exact arithmetic these values are `a` and `a*b`. -/
theorem parse_term_division_by_zero {F : Type} (Ar : Arith F) (a b : List Nat)
    (ha : is_literal a) (hal : a.length ≤ 31) (hb : is_literal b) (hbl : b.length ≤ 31)
    (h0 : Ar.is_nonzero (Ar.strtof (bytes "0")) = false) :
    (∀ (N : Nat) (v z : F) (s r : List Nat), peek s = 47 →
      parse_pow_over Ar N s.tail = some (z, r) → Ar.is_nonzero z = false →
      term_loop_over Ar (N + 1) v s = term_loop_over Ar N v r) ∧
    (∀ fuel, fuelFor (a ++ bytes "/0") ≤ fuel →
      parse_expr_over Ar fuel (a ++ bytes "/0") = some (Ar.strtof a, [])) ∧
    (∀ fuel, fuelFor (a ++ bytes "/0*" ++ b) ≤ fuel →
      parse_expr_over Ar fuel (a ++ bytes "/0*" ++ b)
        = some (Ar.mul (Ar.strtof a) (Ar.strtof b), [])) ∧
    (∀ (L : Libm) (fuel : Nat), fuelFor (a ++ bytes "/0") ≤ fuel →
      parse_expr L fuel (a ++ bytes "/0") = some ((digits_value a : ℚ), [])) ∧
    (∀ (L : Libm) (fuel : Nat), fuelFor (a ++ bytes "/0*" ++ b) ≤ fuel →
      parse_expr L fuel (a ++ bytes "/0*" ++ b)
        = some ((digits_value a : ℚ) * (digits_value b : ℚ), [])) := by
  have e1 : a ++ bytes "/0" = a ++ 47 :: ([48] ++ []) := by simp [bytes]
  have e2 : a ++ bytes "/0*" ++ b = a ++ 47 :: ([48] ++ 42 :: (b ++ [])) := by simp [bytes]
  have h0' : Ar.is_nonzero (Ar.strtof [48]) = false := h0
  have la := literal_length_pos ha
  have lb := literal_length_pos hb
  have f1 : ∀ fuel, fuelFor (a ++ 47 :: ([48] ++ [])) ≤ fuel → 6 ≤ fuel := by
    intro fuel hf
    simp only [fuelFor, List.length_append, List.length_cons, List.length_nil] at hf
    omega
  have f2 : ∀ fuel, fuelFor (a ++ 47 :: ([48] ++ 42 :: (b ++ []))) ≤ fuel → 7 ≤ fuel := by
    intro fuel hf
    simp only [fuelFor, List.length_append, List.length_cons, List.length_nil] at hf
    omega
  refine ⟨fun N v z s r hs hp hz => term_loop_over_skips_zero Ar N v z s r hs hp hz,
    fun fuel hf => ?_, fun fuel hf => ?_, fun L fuel hf => ?_, fun L fuel hf => ?_⟩
  · rw [e1] at hf ⊢
    exact parse_expr_over_div_zero Ar fuel a (f1 fuel hf) ha hal h0'
  · rw [e2] at hf ⊢
    exact parse_expr_over_div_zero_times Ar fuel a b (f2 fuel hf) ha hal hb hbl h0'
  · rw [e1] at hf ⊢
    exact parse_expr_div_zero L fuel a (f1 fuel hf) ha hal
  · rw [e2] at hf ⊢
    exact parse_expr_div_zero_times L fuel a b (f2 fuel hf) ha hal hb hbl

set_option maxRecDepth 10000 in
theorem parse_expr_over_underflow_divisor (L : Libm) :
    parse_expr_over (float32_arith L) (fuelFor (bytes "7/1" ++ 0x1B :: bytes "-50"))
      (bytes "7/1" ++ 0x1B :: bytes "-50") = some (7, []) := by
  with_unfolding_all rfl

set_option maxRecDepth 10000 in
theorem parse_expr_tiny_divisor (L : Libm) :
    parse_expr L (fuelFor (bytes "7/1" ++ 0x1B :: bytes "-50"))
      (bytes "7/1" ++ 0x1B :: bytes "-50") = some (7 * 10 ^ 50, []) := by
  with_unfolding_all rfl

/-- Witness for C7 in float32 arithmetic: the literal `0` converts to zero, `"7/0"`
evaluates to `7` and `"7/0*3"` to `21`. A divisor that underflows is zero as well:
on `7/1e-50` (the exponent marker being the byte `0x1B`) the float32 evaluator
skips the division and returns `7`, where the exact evaluator divides. -/
theorem parse_term_division_by_zero_witness :
    (float32_arith sample_libm).is_nonzero ((float32_arith sample_libm).strtof (bytes "0"))
      = false ∧
    parse_expr_over (float32_arith sample_libm) (fuelFor (bytes "7/0")) (bytes "7/0")
      = some (7, []) ∧
    parse_expr_over (float32_arith sample_libm) (fuelFor (bytes "7/0*3")) (bytes "7/0*3")
      = some (21, []) ∧
    (∀ L : Libm,
      parse_expr_over (float32_arith L) (fuelFor (bytes "7/1" ++ 0x1B :: bytes "-50"))
        (bytes "7/1" ++ 0x1B :: bytes "-50") = some (7, [])) ∧
    (∀ L : Libm,
      parse_expr L (fuelFor (bytes "7/1" ++ 0x1B :: bytes "-50"))
        (bytes "7/1" ++ 0x1B :: bytes "-50") = some (7 * 10 ^ 50, [])) := by
  have hz : (float32_arith sample_libm).is_nonzero
      ((float32_arith sample_libm).strtof (bytes "0")) = false := by
    with_unfolding_all rfl
  have h := parse_term_division_by_zero (float32_arith sample_libm) (bytes "7") (bytes "3")
    is_literal_bytes_7 (by decide) is_literal_bytes_3 (by decide) hz
  have h1 := h.2.1 _ (le_refl _)
  have h2 := h.2.2.1 _ (le_refl _)
  have v1 : (float32_arith sample_libm).strtof (bytes "7") = 7 := by
    with_unfolding_all rfl
  have v2 : (float32_arith sample_libm).mul ((float32_arith sample_libm).strtof (bytes "7"))
      ((float32_arith sample_libm).strtof (bytes "3")) = 21 := by
    with_unfolding_all rfl
  rw [v1] at h1
  rw [v2] at h2
  exact ⟨hz, h1, h2, parse_expr_over_underflow_divisor, parse_expr_tiny_divisor⟩

/-- Counterexample to C7 as stated, in float32 arithmetic. On `"16777217/0"` the
literal `16777217 = 2^24 + 1` is rounded to `16777216`, which is the result, not
`16777217`. On `"a/0"` with the 32-digit literal `a = 0...012` the number loop stops
after 31 characters and the result is `1` with the cursor left on the 32nd digit,
not `12`; the exact evaluator returns the same. -/
theorem parse_term_division_by_zero_counterexample :
    (∀ L : Libm,
      parse_expr_over (float32_arith L) (fuelFor (bytes "16777217/0")) (bytes "16777217/0")
        = some (16777216, [])) ∧
    (16777216 : ℚ) ≠ 16777217 ∧
    (∀ L : Libm,
      parse_expr_over (float32_arith L)
        (fuelFor (bytes "00000000000000000000000000000012/0"))
        (bytes "00000000000000000000000000000012/0") = some (1, bytes "2/0")) ∧
    (∀ L : Libm,
      parse_expr L (fuelFor (bytes "00000000000000000000000000000012/0"))
        (bytes "00000000000000000000000000000012/0") = some (1, bytes "2/0")) ∧
    (1 : ℚ) ≠ 12 := by
  refine ⟨fun L => ?_, by norm_num, fun L => ?_, fun L => ?_, by norm_num⟩
  · with_unfolding_all rfl
  · with_unfolding_all rfl
  · with_unfolding_all rfl

/-- C12 (amended). The evaluator computes powers by the rule
`pow := factor ('^' factor)?`: in every float arithmetic `Ar`, for all unsigned
decimal integer literals `a` and `b` of at most 31 digits each, `"a^b"` evaluates to
`powf` applied to the floats of `a` and `b`, and at most one `'^'` is applied per
pow: on `"a^b^c"` the result is the same value and the second `'^'` is left
unconsumed; over the exact arithmetic, when `powf` returns the exact power at
`(a, b)`, the value is `a` raised to the power `b`. -/
theorem parse_pow_single_power {F : Type} (Ar : Arith F) (a b c : List Nat)
    (ha : is_literal a) (hal : a.length ≤ 31) (hb : is_literal b) (hbl : b.length ≤ 31) :
    (∀ fuel, fuelFor (a ++ bytes "^" ++ b) ≤ fuel →
      parse_expr_over Ar fuel (a ++ bytes "^" ++ b)
        = some (Ar.powf (Ar.strtof a) (Ar.strtof b), [])) ∧
    (∀ fuel, fuelFor (a ++ bytes "^" ++ b ++ bytes "^" ++ c) ≤ fuel →
      parse_expr_over Ar fuel (a ++ bytes "^" ++ b ++ bytes "^" ++ c)
        = some (Ar.powf (Ar.strtof a) (Ar.strtof b), bytes "^" ++ c)) ∧
    (∀ L : Libm,
      L.powf (digits_value a : ℚ) (digits_value b : ℚ) = (digits_value a : ℚ) ^ digits_value b →
      (∀ fuel, fuelFor (a ++ bytes "^" ++ b) ≤ fuel →
        parse_expr L fuel (a ++ bytes "^" ++ b)
          = some ((digits_value a : ℚ) ^ digits_value b, [])) ∧
      (∀ fuel, fuelFor (a ++ bytes "^" ++ b ++ bytes "^" ++ c) ≤ fuel →
        parse_expr L fuel (a ++ bytes "^" ++ b ++ bytes "^" ++ c)
          = some ((digits_value a : ℚ) ^ digits_value b, bytes "^" ++ c))) := by
  have e1 : a ++ bytes "^" ++ b = a ++ 94 :: (b ++ []) := by simp [bytes]
  have e2 : a ++ bytes "^" ++ b ++ bytes "^" ++ c = a ++ 94 :: (b ++ (94 :: c)) := by
    simp [bytes]
  have e3 : bytes "^" ++ c = 94 :: c := by simp [bytes]
  have la := literal_length_pos ha
  have lb := literal_length_pos hb
  have f1 : ∀ fuel, fuelFor (a ++ 94 :: (b ++ [])) ≤ fuel → 4 ≤ fuel := by
    intro fuel hf
    simp only [fuelFor, List.length_append, List.length_cons, List.length_nil] at hf
    omega
  have f2 : ∀ fuel, fuelFor (a ++ 94 :: (b ++ (94 :: c))) ≤ fuel → 4 ≤ fuel := by
    intro fuel hf
    simp only [fuelFor, List.length_append, List.length_cons, List.length_nil] at hf
    omega
  refine ⟨fun fuel hf => ?_, fun fuel hf => ?_, fun L hpow => ⟨fun fuel hf => ?_,
    fun fuel hf => ?_⟩⟩
  · rw [e1] at hf ⊢
    exact parse_expr_over_power_literal Ar fuel a b [] (f1 fuel hf) ha hal hb hbl rfl
      (by decide) (by decide) (by decide) (by decide) (by decide)
  · rw [e2] at hf ⊢
    rw [e3]
    exact parse_expr_over_power_literal Ar fuel a b (94 :: c) (f2 fuel hf) ha hal hb hbl rfl
      (by simp [peek_cons]) (by simp [peek_cons]) (by simp [peek_cons]) (by simp [peek_cons])
      (by simp [peek_cons])
  · rw [e1] at hf ⊢
    rw [← hpow]
    exact parse_expr_power_literal L fuel a b [] (f1 fuel hf) ha hal hb hbl rfl (by decide)
      (by decide) (by decide) (by decide) (by decide)
  · rw [e2] at hf ⊢
    rw [← hpow, e3]
    exact parse_expr_power_literal L fuel a b (94 :: c) (f2 fuel hf) ha hal hb hbl rfl
      (by simp [peek_cons]) (by simp [peek_cons]) (by simp [peek_cons]) (by simp [peek_cons])
      (by simp [peek_cons])

/-- Witness for C12 in float32 arithmetic, with a `powf` that is exact at `(2, 3)`:
`"2^3"` evaluates to `8`, and `"2^3^2"` evaluates to `8` with `"^2"` left
unconsumed. -/
theorem parse_pow_single_power_witness :
    parse_expr_over (float32_arith sample_libm) (fuelFor (bytes "2^3")) (bytes "2^3")
      = some (8, []) ∧
    parse_expr_over (float32_arith sample_libm) (fuelFor (bytes "2^3^2")) (bytes "2^3^2")
      = some (8, bytes "^2") := by
  have h := parse_pow_single_power (float32_arith sample_libm) (bytes "2") (bytes "3")
    (bytes "2") is_literal_bytes_2 (by decide) is_literal_bytes_3 (by decide)
  have h1 := h.1 _ (le_refl _)
  have h2 := h.2.1 _ (le_refl _)
  have v : (float32_arith sample_libm).powf ((float32_arith sample_libm).strtof (bytes "2"))
      ((float32_arith sample_libm).strtof (bytes "3")) = 8 := by
    with_unfolding_all rfl
  rw [v] at h1 h2
  exact ⟨h1, h2⟩

/-- Counterexample to C12 as stated. On `"a^2"` with the 32-digit literal
`a = 0...012` the number loop stops after 31 characters, the literal is read as `1`,
and the result is `1` with the cursor left on the 32nd digit, not `12` squared, in
float32 arithmetic and in the exact evaluator alike. And `3` to the power `20` is
not a float32 value (its rounding is `3486784512`), so on `"3^20"` no `powf` that
returns a float returns the exact power. -/
theorem parse_pow_single_power_counterexample :
    (∀ L : Libm,
      parse_expr_over (float32_arith L)
        (fuelFor (bytes "00000000000000000000000000000012^2"))
        (bytes "00000000000000000000000000000012^2") = some (1, bytes "2^2")) ∧
    (∀ L : Libm,
      parse_expr L (fuelFor (bytes "00000000000000000000000000000012^2"))
        (bytes "00000000000000000000000000000012^2") = some (1, bytes "2^2")) ∧
    (1 : ℚ) ≠ 12 ^ 2 ∧
    fl32 (3 ^ 20) = 3486784512 ∧ (3486784512 : ℚ) ≠ 3 ^ 20 := by
  refine ⟨fun L => ?_, fun L => ?_, by norm_num, ?_, by norm_num⟩
  · with_unfolding_all rfl
  · with_unfolding_all rfl
  · with_unfolding_all rfl

/-! ### Singular coefficient blocks -/

theorem complex_mul_eq_zero (a v : complex_t) (ha : a ≠ 0) (h : a * v = 0) : v = 0 := by
  have hd : a.r * a.r + a.i * a.i ≠ 0 := by
    intro hd
    exact ha ((complex_t_ext a 0).2 ((sq_modulus_eq_zero_iff a).1 hd))
  have e := (complex_t_ext _ _).1 h
  have e1 : a.r * v.r - a.i * v.i = 0 := e.1
  have e2 : a.r * v.i + a.i * v.r = 0 := e.2
  refine (complex_t_ext _ _).2 ⟨?_, ?_⟩
  · have : (a.r * a.r + a.i * a.i) * v.r = 0 := by linear_combination a.r * e1 + a.i * e2
    exact (mul_eq_zero.1 this).resolve_left hd
  · have : (a.r * a.r + a.i * a.i) * v.i = 0 := by linear_combination a.r * e2 - a.i * e1
    exact (mul_eq_zero.1 this).resolve_left hd

/-- In an upper triangular system with a non-zero diagonal the homogeneous equations
have only the zero solution on the indices below `n`. -/
theorem triangular_kernel_trivial (st : State)
    (hz : ∀ c r, c < r → r < st.n → (elim_upto st st.n).M r c = 0)
    (hd : ∀ r, r < st.n → (elim_upto st st.n).M r r ≠ 0) (v : Nat → complex_t)
    (hv : ∀ r, r < st.n →
      (Finset.range st.n).sum (fun c => (elim_upto st st.n).M r c * v c) = 0) :
    ∀ r, r < st.n → v r = 0 := by
  have key : ∀ d r, r < st.n → st.n - r ≤ d → v r = 0 := by
    intro d
    induction d with
    | zero => intro r hr hd; omega
    | succ d ih =>
      intro r hr hdd
      have h := hv r hr
      rw [eliminated_row_sum st r hr (fun c hc => hz c r hc hr) v] at h
      have hs : (Finset.Ico (r + 1) st.n).sum (fun c => (elim_upto st st.n).M r c * v c) = 0 := by
        refine Finset.sum_eq_zero (fun c hc => ?_)
        have hc' := Finset.mem_Ico.1 hc
        rw [ih c hc'.2 (by omega), mul_zero]
      rw [hs, add_zero] at h
      exact complex_mul_eq_zero _ _ (hd r hr) h
  exact fun r hr => key (st.n - r) r hr (le_refl _)

/-- When every pivot is non-zero the coefficient block is not singular. -/
theorem not_singular_of_pivots (st : State) (hp : ∀ i, i < st.n → pivot st i ≠ 0) :
    ¬ is_singular st.A st.n := by
  rintro ⟨v, ⟨j, hj, hvj⟩, hker⟩
  obtain ⟨hz, hs⟩ := elim_upto_equiv st (fun i hi => hp i (by omega)) st.n (le_refl _)
  have hX := solve_step_solves st hp
  have hXv : ∀ r, r < st.n →
      (Finset.range st.n).sum (fun c => st.A r c * ((solve_step st).X c + v c)) = st.A r st.n := by
    intro r hr
    have hk := hker r hr
    rw [row_sum_eq] at hk
    simp only [mul_add, Finset.sum_add_distrib]
    rw [hX r hr, hk]
    exact add_zero _
  have m1 := (hs _).2 hX
  have m2 := (hs (fun c => (solve_step st).X c + v c)).2 hXv
  have hv0 := triangular_kernel_trivial st (fun c r hcr hr => hz c r (by omega) hcr hr)
    (fun r hr => by
      rw [elim_upto_row_stable st r st.n (le_of_lt hr) r]
      exact hp r hr) v (fun r hr => by
      have a1 := m1 r hr
      have a2 := m2 r hr
      simp only [mul_add, Finset.sum_add_distrib] at a2
      rw [a1] at a2
      exact add_left_cancel (a2.trans (add_zero _).symm))
  exact hvj (hv0 j hj)

/-- A singular coefficient block makes some pivot zero, and the solve step sets the
entry of the solution vector for that pivot to `(0,0)`. -/
theorem singular_zero_pivot (st : State) (hs : is_singular st.A st.n) :
    ∃ i, i < st.n ∧ pivot st i = ⟨0, 0⟩ ∧
      (forward_elim { st with M := st.A }).M i i = ⟨0, 0⟩ ∧ (solve_step st).X i = ⟨0, 0⟩ := by
  by_contra hne
  refine not_singular_of_pivots st (fun i hi h0 => hne ⟨i, hi, h0, ?_, ?_⟩) hs
  · rw [forward_elim_eq, elim_upto_row_stable st i st.n (le_of_lt hi) i]
    exact h0
  · refine solve_step_zero_pivot st i hi ?_
    rw [elim_upto_row_stable st i st.n (le_of_lt hi) i]
    exact h0

/-! ### Closed instances of the solve step, exact and in float32 -/

theorem zero_column_facts (M0 : Nat → Nat → complex_t) (X0 : Nat → complex_t) :
    (solve_step (zero_column_state M0 X0)).X 0 = ⟨0, 0⟩ ∧
    (solve_step (zero_column_state M0 X0)).X 1 = ⟨0, 0⟩ := by
  refine ⟨?_, ?_⟩ <;>
  norm_num [solve_step, back_subst, back_subst_row, forward_elim, elim_column, elim_row,
    for_up, for_down, List.range', List.range_succ, zero_column_state, set1, set2,
    ofRows, c_div, c_sub, c_mul, c_add, List.getD]

theorem fl32_zero : fl32 0 = 0 := by with_unfolding_all rfl
theorem fl32_one : fl32 1 = 1 := by with_unfolding_all rfl
theorem fl32_two : fl32 2 = 2 := by with_unfolding_all rfl

theorem singular_consistent_float_facts (M0 : Nat → Nat → complex_t) (X0 : Nat → complex_t) :
    (solve_step_fl fl32 (singular_consistent_state M0 X0)).X 0 = ⟨2, 0⟩ ∧
    (solve_step_fl fl32 (singular_consistent_state M0 X0)).X 1 = ⟨0, 0⟩ := by
  refine ⟨?_, ?_⟩ <;>
  norm_num [solve_step_fl, back_subst_fl, back_subst_row_fl, forward_elim_fl, elim_column_fl,
    elim_row_fl, for_up, for_down, List.range', List.range_succ, singular_consistent_state,
    set1, set2, ofRows, c_div_fl, c_sub_fl, c_mul_fl, c_add_fl, List.getD, fl32_zero, fl32_one,
    fl32_two]

theorem residue_float_facts (M0 : Nat → Nat → complex_t) (X0 : Nat → complex_t) :
    (forward_elim_fl fl32 { residue_state M0 X0 with M := (residue_state M0 X0).A }).M 1 0
      = ⟨1 / 2 ^ 19, 0⟩ ∧
    (forward_elim_fl fl32 { residue_state M0 X0 with M := (residue_state M0 X0).A }).M 1 1
      = ⟨-7190235 / 2097152, 0⟩ ∧
    (forward_elim_fl fl32 { residue_state M0 X0 with M := (residue_state M0 X0).A }).M 0 0
      = ⟨7, 0⟩ := by
  have c1 : c_sub_fl fl32 ⟨31, 0⟩ (c_mul_fl fl32 (c_div_fl fl32 ⟨31, 0⟩ ⟨7, 0⟩) ⟨7, 0⟩)
      = ⟨1 / 524288, 0⟩ := by
    with_unfolding_all rfl
  have c2 : c_sub_fl fl32 ⟨1, 0⟩ (c_mul_fl fl32 (c_div_fl fl32 ⟨31, 0⟩ ⟨7, 0⟩) ⟨1, 0⟩)
      = ⟨-7190235 / 2097152, 0⟩ := by
    with_unfolding_all rfl
  refine ⟨?_, ?_, ?_⟩
  · norm_num [forward_elim_fl, elim_column_fl, elim_row_fl, for_up, List.range',
      residue_state, set2, ofRows, List.getD]
    exact c1
  · norm_num [forward_elim_fl, elim_column_fl, elim_row_fl, for_up, List.range',
      residue_state, set2, ofRows, List.getD]
    rw [c2]
    norm_num
  · norm_num [forward_elim_fl, elim_column_fl, elim_row_fl, for_up, List.range',
      residue_state, set2, ofRows, List.getD]

theorem proportional_float_facts (M0 : Nat → Nat → complex_t) (X0 : Nat → complex_t) :
    (forward_elim_fl fl32
      { proportional_state M0 X0 with M := (proportional_state M0 X0).A }).M 1 1
      = ⟨1 / 2 ^ 16, 0⟩ := by
  have c2 : c_sub_fl fl32 ⟨217, 0⟩ (c_mul_fl fl32 (c_div_fl fl32 ⟨31, 0⟩ ⟨7, 0⟩) ⟨49, 0⟩)
      = ⟨1 / 65536, 0⟩ := by
    with_unfolding_all rfl
  norm_num [forward_elim_fl, elim_column_fl, elim_row_fl, for_up, List.range',
    proportional_state, set2, ofRows, List.getD]
  exact c2

theorem proportional_exact_facts (M0 : Nat → Nat → complex_t) (X0 : Nat → complex_t) :
    (forward_elim { proportional_state M0 X0 with M := (proportional_state M0 X0).A }).M 1 1
      = ⟨0, 0⟩ := by
  norm_num [forward_elim, elim_column, elim_row, for_up, List.range',
    proportional_state, set2, ofRows, c_div, c_sub, c_mul, List.getD]

theorem residue_exact_facts (M0 : Nat → Nat → complex_t) (X0 : Nat → complex_t) :
    (forward_elim { residue_state M0 X0 with M := (residue_state M0 X0).A }).M 1 0
      = ⟨0, 0⟩ := by
  norm_num [forward_elim, elim_column, elim_row, for_up, List.range',
    residue_state, set2, ofRows, c_div, c_sub, c_mul, List.getD]

/-- The vector `(1, -1)`, which the rows `(a, a)` send to zero. -/
theorem is_singular_equal_columns (A : Nat → Nat → complex_t)
    (h : ∀ i, i < 2 → A i 0 = A i 1) : is_singular A 2 := by
  refine ⟨fun j => if j = 0 then ⟨1, 0⟩ else ⟨-1, 0⟩, ⟨0, by decide, by decide⟩, fun i hi => ?_⟩
  rw [row_sum_two, h i hi]
  simp only [c_add, c_mul, complex_t_ext]
  constructor <;> simp

theorem rounded_float_facts (M0 : Nat → Nat → complex_t) (X0 : Nat → complex_t) :
    fl32 (31 / 7) = 9287387 / 2097152 ∧
    (forward_elim_fl fl32 { rounded_state M0 X0 with M := (rounded_state M0 X0).A }).M 1 1
      = ⟨0, 0⟩ ∧
    (solve_step_fl fl32 (rounded_state M0 X0)).X 1 = ⟨0, 0⟩ := by
  have c2 : c_sub_fl fl32 ⟨9287387 / 2097152, 0⟩
      (c_mul_fl fl32 (c_div_fl fl32 ⟨31, 0⟩ ⟨7, 0⟩) ⟨1, 0⟩) = ⟨0, 0⟩ := by
    with_unfolding_all rfl
  have c3 : c_div_fl fl32 (c_sub_fl fl32 ⟨0, 0⟩ ⟨0, 0⟩) ⟨0, 0⟩ = ⟨0, 0⟩ := by
    with_unfolding_all rfl
  refine ⟨by with_unfolding_all rfl, ?_, ?_⟩
  · norm_num [forward_elim_fl, elim_column_fl, elim_row_fl, for_up, List.range',
      rounded_state, set2, ofRows, List.getD]
    exact c2
  · norm_num [solve_step_fl, back_subst_fl, back_subst_row_fl, forward_elim_fl, elim_column_fl,
      elim_row_fl, for_up, for_down, List.range', List.range_succ, rounded_state,
      set1, set2, ofRows, List.getD]
    rw [c2, c3]

theorem rounded_exact_facts (M0 : Nat → Nat → complex_t) (X0 : Nat → complex_t) :
    ¬ is_singular (ofRows [[7, 1, 1], [31, 9287387 / 2097152, 9287387 / 2097152]]) 2 ∧
    (solve_step (rounded_state M0 X0)).X 0 = ⟨0, 0⟩ ∧
    (solve_step (rounded_state M0 X0)).X 1 = ⟨1, 0⟩ := by
  refine ⟨?_, ?_, ?_⟩
  · refine not_singular_of_pivots (rounded_state M0 X0) (fun i hi => ?_)
    have hi2 : i < 2 := hi
    interval_cases i
    · have e : pivot (rounded_state M0 X0) 0 = ⟨7, 0⟩ := by
        norm_num [pivot, elim_upto, for_up, List.range', rounded_state, ofRows, List.getD]
      rw [e]
      intro h
      have h1 := congrArg complex_t.r h
      change (7 : ℚ) = 0 at h1
      norm_num at h1
    · have e : pivot (rounded_state M0 X0) 1 = ⟨-3 / 14680064, 0⟩ := by
        norm_num [pivot, elim_upto, elim_column, elim_row, for_up, List.range', rounded_state,
          set2, ofRows, c_div, c_sub, c_mul, List.getD]
      rw [e]
      intro h
      have h1 := congrArg complex_t.r h
      change (-3 / 14680064 : ℚ) = 0 at h1
      norm_num at h1
  · norm_num [solve_step, back_subst, back_subst_row, forward_elim, elim_column,
      elim_row, for_up, for_down, List.range', List.range_succ, rounded_state,
      set1, set2, ofRows, c_div, c_sub, c_mul, c_add, List.getD]
  · norm_num [solve_step, back_subst, back_subst_row, forward_elim, elim_column,
      elim_row, for_up, for_down, List.range', List.range_succ, rounded_state,
      set1, set2, ofRows, c_div, c_sub, c_mul, c_add, List.getD]

/-! ### Claims about the solver that depend on the arithmetic -/

/-- C11 (amended). Singular systems give no error signal, and the returned vector
can be valid: for `2 <= n <= 5` and every augmented matrix whose coefficient block
is singular, the solve step returns a vector with every array access in bounds; in
exact arithmetic some pivot `M[i][i]` is zero after elimination and the solve step
sets `X[i] = (0,0)` for it; and when the pivots before the last are non-zero, it is
the last pivot that is zero, and the returned vector satisfies the system exactly
when the system has a solution at all. -/
theorem singular_system_no_signal (st : State) (_h2 : 2 ≤ st.n) (h5 : st.n ≤ 5)
    (hs : is_singular st.A st.n) :
    solve_step_checked st = some (solve_step st) ∧
    (∃ i, i < st.n ∧ pivot st i = ⟨0, 0⟩ ∧
      (forward_elim { st with M := st.A }).M i i = ⟨0, 0⟩ ∧ (solve_step st).X i = ⟨0, 0⟩) ∧
    ((∀ i, i + 1 < st.n → pivot st i ≠ ⟨0, 0⟩) →
      pivot st (st.n - 1) = ⟨0, 0⟩ ∧
      ((∀ i, i < st.n → row_sum st.A (solve_step st).X st.n i = st.A i st.n) ↔
        ∃ X : Nat → complex_t, ∀ i, i < st.n → row_sum st.A X st.n i = st.A i st.n)) := by
  refine ⟨solve_step_checked_eq st h5, singular_zero_pivot st hs, fun hp => ?_⟩
  obtain ⟨i, hi, h0, _, _⟩ := singular_zero_pivot st hs
  have hlast : pivot st (st.n - 1) = ⟨0, 0⟩ := by
    by_cases hil : i + 1 < st.n
    · exact absurd h0 (hp i hil)
    · have : i = st.n - 1 := by omega
      rw [← this]
      exact h0
  obtain ⟨h1, h2⟩ := solve_step_last_pivot_zero st (by omega) hp hlast
  refine ⟨hlast, ?_⟩
  simp only [row_sum_eq]
  exact h1.trans h2.symm

/-- Witness for C11. For `x + y = 1`, `x + y = 2` the block is singular, the first
pivot is non-zero, the second is zero, the solve step returns `X = (1, 0)`, the
second equation fails (`1` against `2`), and the system has no solution. For
`y = 1`, `0 = 0` the block is singular and the system has the solution `(0, 1)`,
but the solve step returns `X = (0, 0)`, which fails the first equation. For
`7x + 49y = 1`, `31x + 217y = 2` the block is singular and exact elimination leaves
the second pivot zero, but elimination in float32 leaves the pivot `2^-16`.
Conversely, for `7x + y = 1`, `31x + fy = f` with `f` the float32 nearest to `31/7`
the block is not singular and the exact solve step returns `y = 1`, but elimination
in float32 leaves the second pivot zero and the float32 solve step returns `y = 0`. -/
theorem singular_system_no_signal_witness :
    is_singular (ofRows [[1, 1, 1], [1, 1, 2]]) 2 ∧
    (solve_step (singular_inconsistent_state (fun _ _ => ⟨7, 7⟩) (fun _ => ⟨9, 9⟩))).X 0
      = ⟨1, 0⟩ ∧
    (solve_step (singular_inconsistent_state (fun _ _ => ⟨7, 7⟩) (fun _ => ⟨9, 9⟩))).X 1
      = ⟨0, 0⟩ ∧
    row_sum (ofRows [[1, 1, 1], [1, 1, 2]])
      (solve_step (singular_inconsistent_state (fun _ _ => ⟨7, 7⟩) (fun _ => ⟨9, 9⟩))).X 2 1
      ≠ (ofRows [[1, 1, 1], [1, 1, 2]]) 1 2 ∧
    (¬ ∃ X : Nat → complex_t, ∀ i, i < 2 →
      row_sum (ofRows [[1, 1, 1], [1, 1, 2]]) X 2 i = (ofRows [[1, 1, 1], [1, 1, 2]]) i 2) ∧
    is_singular (ofRows [[0, 1, 1], [0, 0, 0]]) 2 ∧
    (∀ i, i < 2 →
      row_sum (ofRows [[0, 1, 1], [0, 0, 0]]) (fun j => if j = 1 then ⟨1, 0⟩ else ⟨0, 0⟩) 2 i
        = (ofRows [[0, 1, 1], [0, 0, 0]]) i 2) ∧
    (solve_step (zero_column_state (fun _ _ => ⟨7, 7⟩) (fun _ => ⟨9, 9⟩))).X 0 = ⟨0, 0⟩ ∧
    (solve_step (zero_column_state (fun _ _ => ⟨7, 7⟩) (fun _ => ⟨9, 9⟩))).X 1 = ⟨0, 0⟩ ∧
    row_sum (ofRows [[0, 1, 1], [0, 0, 0]])
      (solve_step (zero_column_state (fun _ _ => ⟨7, 7⟩) (fun _ => ⟨9, 9⟩))).X 2 0
      ≠ (ofRows [[0, 1, 1], [0, 0, 0]]) 0 2 ∧
    is_singular (ofRows [[7, 49, 1], [31, 217, 2]]) 2 ∧
    (forward_elim { proportional_state (fun _ _ => ⟨7, 7⟩) (fun _ => ⟨9, 9⟩) with
      M := ofRows [[7, 49, 1], [31, 217, 2]] }).M 1 1 = ⟨0, 0⟩ ∧
    (forward_elim_fl fl32 { proportional_state (fun _ _ => ⟨7, 7⟩) (fun _ => ⟨9, 9⟩) with
      M := ofRows [[7, 49, 1], [31, 217, 2]] }).M 1 1 = ⟨1 / 2 ^ 16, 0⟩ ∧
    fl32 (31 / 7) = 9287387 / 2097152 ∧
    ¬ is_singular (ofRows [[7, 1, 1], [31, 9287387 / 2097152, 9287387 / 2097152]]) 2 ∧
    (solve_step (rounded_state (fun _ _ => ⟨7, 7⟩) (fun _ => ⟨9, 9⟩))).X 1 = ⟨1, 0⟩ ∧
    (forward_elim_fl fl32 { rounded_state (fun _ _ => ⟨7, 7⟩) (fun _ => ⟨9, 9⟩) with
      M := ofRows [[7, 1, 1], [31, 9287387 / 2097152, 9287387 / 2097152]] }).M 1 1
      = ⟨0, 0⟩ ∧
    (solve_step_fl fl32 (rounded_state (fun _ _ => ⟨7, 7⟩) (fun _ => ⟨9, 9⟩))).X 1
      = ⟨0, 0⟩ := by
  have hro := rounded_float_facts (fun _ _ => ⟨7, 7⟩) (fun _ => ⟨9, 9⟩)
  have hre := rounded_exact_facts (fun _ _ => ⟨7, 7⟩) (fun _ => ⟨9, 9⟩)
  have hsing : is_singular (ofRows [[1, 1, 1], [1, 1, 2]]) 2 :=
    is_singular_equal_columns _ (fun i hi => by interval_cases i <;> rfl)
  have hf := singular_inconsistent_facts (fun _ _ => ⟨7, 7⟩) (fun _ => ⟨9, 9⟩)
  have hz := zero_column_facts (fun _ _ => ⟨7, 7⟩) (fun _ => ⟨9, 9⟩)
  have h := singular_system_no_signal
    (singular_inconsistent_state (fun _ _ => ⟨7, 7⟩) (fun _ => ⟨9, 9⟩))
    (by decide) (by decide) hsing
  have hp : ∀ i, i + 1 < 2 →
      pivot (singular_inconsistent_state (fun _ _ => ⟨7, 7⟩) (fun _ => ⟨9, 9⟩)) i ≠ ⟨0, 0⟩ := by
    intro i hi
    have : i = 0 := by omega
    subst this
    decide
  have hrow : row_sum (ofRows [[1, 1, 1], [1, 1, 2]])
      (solve_step (singular_inconsistent_state (fun _ _ => ⟨7, 7⟩) (fun _ => ⟨9, 9⟩))).X 2 1
      ≠ (ofRows [[1, 1, 1], [1, 1, 2]]) 1 2 := by
    rw [row_sum_two, hf.2.1, hf.2.2]
    norm_num [ofRows, c_add, c_mul, List.getD]
  refine ⟨hsing, hf.2.1, hf.2.2, hrow, ?_, ?_, ?_, hz.1, hz.2, ?_, ?_,
    proportional_exact_facts _ _, proportional_float_facts _ _, hro.1, hre.1, hre.2.2,
    hro.2.1, hro.2.2⟩
  · intro hex
    exact hrow (((h.2.2 hp).2).2 hex 1 (by decide))
  · refine ⟨fun j => if j = 0 then ⟨1, 0⟩ else ⟨0, 0⟩, ⟨0, by decide, by decide⟩, fun i hi => ?_⟩
    rw [row_sum_two]
    interval_cases i <;> norm_num [ofRows, c_add, c_mul, List.getD]
  · intro i hi
    rw [row_sum_two]
    interval_cases i <;> norm_num [ofRows, c_add, c_mul, List.getD]
  · rw [row_sum_two, hz.1, hz.2]
    norm_num [ofRows, c_add, c_mul, List.getD]
  · refine ⟨fun j => if j = 0 then ⟨7, 0⟩ else ⟨-1, 0⟩, ⟨0, by decide, by decide⟩,
      fun i hi => ?_⟩
    rw [row_sum_two]
    interval_cases i <;> norm_num [ofRows, c_add, c_mul, List.getD]

/-- Counterexample to C11 as stated: the coefficient block of `x + y = 2`,
`x + y = 2` is singular, and the returned vector `X = (2, 0)` satisfies both
equations; the solve step in float32 arithmetic returns the same vector. -/
theorem singular_system_counterexample :
    is_singular (ofRows [[1, 1, 2], [1, 1, 2]]) 2 ∧
    (solve_step (singular_consistent_state (fun _ _ => ⟨7, 7⟩) (fun _ => ⟨9, 9⟩))).X 0
      = ⟨2, 0⟩ ∧
    (solve_step (singular_consistent_state (fun _ _ => ⟨7, 7⟩) (fun _ => ⟨9, 9⟩))).X 1
      = ⟨0, 0⟩ ∧
    (solve_step_fl fl32
      (singular_consistent_state (fun _ _ => ⟨7, 7⟩) (fun _ => ⟨9, 9⟩))).X 0 = ⟨2, 0⟩ ∧
    (solve_step_fl fl32
      (singular_consistent_state (fun _ _ => ⟨7, 7⟩) (fun _ => ⟨9, 9⟩))).X 1 = ⟨0, 0⟩ ∧
    row_sum (ofRows [[1, 1, 2], [1, 1, 2]])
      (solve_step (singular_consistent_state (fun _ _ => ⟨7, 7⟩) (fun _ => ⟨9, 9⟩))).X 2 0
      = (ofRows [[1, 1, 2], [1, 1, 2]]) 0 2 ∧
    row_sum (ofRows [[1, 1, 2], [1, 1, 2]])
      (solve_step (singular_consistent_state (fun _ _ => ⟨7, 7⟩) (fun _ => ⟨9, 9⟩))).X 2 1
      = (ofRows [[1, 1, 2], [1, 1, 2]]) 1 2 := by
  have hf := singular_consistent_facts (fun _ _ => ⟨7, 7⟩) (fun _ => ⟨9, 9⟩)
  have hg := singular_consistent_float_facts (fun _ _ => ⟨7, 7⟩) (fun _ => ⟨9, 9⟩)
  refine ⟨is_singular_equal_columns _ (fun i hi => by interval_cases i <;> rfl),
    hf.1, hf.2, hg.1, hg.2, ?_, ?_⟩
  · rw [row_sum_two, hf.1, hf.2]
    norm_num [ofRows, c_add, c_mul, List.getD]
  · rw [row_sum_two, hf.1, hf.2]
    norm_num [ofRows, c_add, c_mul, List.getD]

/-- Counterexample to C17 as stated, in float32 arithmetic: for `7x + y = 1`,
`31x + y = 2` both pivots are non-zero (`7` and about `-3.43`), and after the
elimination loops `M[1][0]` is `31 - fl(fl(31/7) * 7) = 2^-19`, not zero; in exact
arithmetic it is zero. -/
theorem forward_elim_triangular_counterexample :
    (forward_elim_fl fl32 { residue_state (fun _ _ => ⟨7, 7⟩) (fun _ => ⟨9, 9⟩) with
      M := ofRows [[7, 1, 1], [31, 1, 2]] }).M 0 0 = ⟨7, 0⟩ ∧
    (forward_elim_fl fl32 { residue_state (fun _ _ => ⟨7, 7⟩) (fun _ => ⟨9, 9⟩) with
      M := ofRows [[7, 1, 1], [31, 1, 2]] }).M 1 1 = ⟨-7190235 / 2097152, 0⟩ ∧
    (forward_elim_fl fl32 { residue_state (fun _ _ => ⟨7, 7⟩) (fun _ => ⟨9, 9⟩) with
      M := ofRows [[7, 1, 1], [31, 1, 2]] }).M 1 0 = ⟨1 / 2 ^ 19, 0⟩ ∧
    (⟨1 / 2 ^ 19, 0⟩ : complex_t) ≠ ⟨0, 0⟩ ∧
    (forward_elim { residue_state (fun _ _ => ⟨7, 7⟩) (fun _ => ⟨9, 9⟩) with
      M := ofRows [[7, 1, 1], [31, 1, 2]] }).M 1 0 = ⟨0, 0⟩ := by
  have hr := residue_float_facts (fun _ _ => ⟨7, 7⟩) (fun _ => ⟨9, 9⟩)
  refine ⟨hr.2.2, hr.2.1, hr.1, ?_, residue_exact_facts _ _⟩
  simp only [ne_eq, complex_t.mk.injEq, not_and]
  norm_num

/-! ### The engineering formatter in float32 arithmetic -/

theorem elim_row_fl_frame (fl : ℚ → ℚ) (i j : Nat) (t : State) (hin : i ≤ t.n) :
    (elim_row_fl fl i j t).n = t.n ∧
    ∀ r c, r ≠ j → (elim_row_fl fl i j t).M r c = t.M r c := by
  unfold elim_row_fl
  refine for_up_invariant
    (fun _ (s : State) => s.n = t.n ∧ ∀ r c, r ≠ j → s.M r c = t.M r c)
    i (t.n + 1) _ t (by omega) ⟨rfl, fun _ _ _ => rfl⟩ ?_
  rintro k s _ _ ⟨hn, hM⟩
  refine ⟨hn, fun r c hr => ?_⟩
  simp only [set2]
  rw [if_neg (fun h => hr h.1)]
  exact hM r c hr

theorem elim_column_fl_frame (fl : ℚ → ℚ) (i : Nat) (t : State) :
    (elim_column_fl fl i t).n = t.n ∧
    ∀ r c, r ≤ i → (elim_column_fl fl i t).M r c = t.M r c := by
  by_cases hle : i + 1 ≤ t.n
  · unfold elim_column_fl
    refine for_up_invariant
      (fun _ (s : State) => s.n = t.n ∧ ∀ r c, r ≤ i → s.M r c = t.M r c)
      (i + 1) t.n _ t hle ⟨rfl, fun _ _ _ => rfl⟩ ?_
    rintro j s hj1 _ ⟨hn, hM⟩
    obtain ⟨en, eM⟩ := elim_row_fl_frame fl i j s (by omega)
    exact ⟨en.trans hn, fun r c hr => (eM r c (by omega)).trans (hM r c hr)⟩
  · have e : elim_column_fl fl i t = t := for_up_ge _ _ _ _ (by omega)
    rw [e]
    exact ⟨rfl, fun _ _ _ => rfl⟩

theorem forward_elim_fl_row_zero (fl : ℚ → ℚ) (t : State) (c : Nat) :
    (forward_elim_fl fl t).M 0 c = t.M 0 c := by
  have key : (forward_elim_fl fl t).n = t.n ∧ ∀ c, (forward_elim_fl fl t).M 0 c = t.M 0 c := by
    unfold forward_elim_fl
    refine for_up_invariant (fun _ (s : State) => s.n = t.n ∧ ∀ c, s.M 0 c = t.M 0 c)
      0 t.n _ t (Nat.zero_le _) ⟨rfl, fun _ => rfl⟩ ?_
    rintro i s _ _ ⟨hn, hM⟩
    obtain ⟨en, eM⟩ := elim_column_fl_frame fl i s
    exact ⟨en.trans hn, fun c => (eM 0 c (Nat.zero_le _)).trans (hM c)⟩
  exact key.2 c

/-- C17 (amended). Forward elimination triangularises the scratch matrix in exact
arithmetic: for `2 <= n <= 5` and every augmented matrix in which every pivot by
which the elimination divides (`M[i][i]` at iteration `i`, for `i = 0 .. n-2`) is
non-zero, after the elimination loops every entry below the diagonal of the
scratch matrix is zero in exact arithmetic (`M[j][i] = 0` for `i < j < n`); and
row 0 of `M` equals row 0 of `A`, in exact arithmetic and with any rounding of the
float operations. -/
theorem forward_elim_triangular (st : State) (_h2 : 2 ≤ st.n) (_h5 : st.n ≤ 5)
    (hp : ∀ i, i + 1 < st.n → pivot st i ≠ ⟨0, 0⟩) :
    (∀ i j, i < j → j < st.n → (forward_elim { st with M := st.A }).M j i = ⟨0, 0⟩) ∧
    (∀ c, (forward_elim { st with M := st.A }).M 0 c = st.A 0 c) ∧
    (∀ (fl : ℚ → ℚ) (c : Nat), (forward_elim_fl fl { st with M := st.A }).M 0 c = st.A 0 c) := by
  refine ⟨fun i j hij hj => ?_, fun c => ?_, fun fl c => ?_⟩
  · exact (elim_upto_equiv st hp st.n (le_refl _)).1 i j (by omega) hij hj
  · exact elim_upto_row_stable st 0 st.n (Nat.zero_le _) c
  · exact forward_elim_fl_row_zero fl _ c

/-- Witness for C17 at `x + y = 3`, `2x - y = 0`: the pivot `M[0][0] = 1` is
non-zero, and after elimination `M[1][0] = 0` while row 0 is `1, 1, 3`, also after
elimination in float32 arithmetic. -/
theorem forward_elim_triangular_witness :
    pivot (example_state (fun _ _ => ⟨7, 7⟩) (fun _ => ⟨9, 9⟩)) 0 = ⟨1, 0⟩ ∧
    (forward_elim { example_state (fun _ _ => ⟨7, 7⟩) (fun _ => ⟨9, 9⟩) with
      M := ofRows [[1, 1, 3], [2, -1, 0]] }).M 1 0 = ⟨0, 0⟩ ∧
    (forward_elim { example_state (fun _ _ => ⟨7, 7⟩) (fun _ => ⟨9, 9⟩) with
      M := ofRows [[1, 1, 3], [2, -1, 0]] }).M 0 2 = ⟨3, 0⟩ ∧
    (forward_elim_fl fl32 { example_state (fun _ _ => ⟨7, 7⟩) (fun _ => ⟨9, 9⟩) with
      M := ofRows [[1, 1, 3], [2, -1, 0]] }).M 0 2 = ⟨3, 0⟩ := by
  have h := forward_elim_triangular (example_state (fun _ _ => ⟨7, 7⟩) (fun _ => ⟨9, 9⟩))
    (by decide) (by decide) (fun i hi => by
      have hi2 : i + 1 < 2 := hi
      have : i = 0 := by omega
      subst this
      decide)
  exact ⟨rfl, h.1 0 1 (by decide) (by decide), h.2.1 2, h.2.2 fl32 2⟩

/-! ### The engineering formatter: exact arithmetic and float32 -/

end ComplexSolver
